import Mathlib

/-!
# I2C EEPROM driver (lib/eeprom/eeprom.cpp, lib/eeprom/eeprom.h)

Shallow embedding of the class `EEPROM`.

* Machine integers are natural numbers; every conversion to `uint8_t` is an explicit
  `u8` (`% 256`), every `uint32_t` operation an explicit `u32` / `sub32` (`% 2^32`).
* The two-wire bus `_i2c` is a deterministic transport `I2C β` with its own state `β`:
  every call returns the next bus state and the acknowledge code.
* The driver object carries a ghost field `log`: the bus calls issued so far, oldest first.
* `ready()` polls in a `do ... while(ack != 0)` loop without bound, so every operation that
  may reach it takes `fuel`, the number of polls one call of `ready()` may issue, and
  returns `none` when this number does not suffice.
-/

/-- Conversion to `uint8_t`. -/
def u8 (x : Nat) : Nat := x % 256

/-- Conversion to `uint32_t`. -/
def u32 (x : Nat) : Nat := x % 2 ^ 32

/-- Subtraction `a - b` of two `uint32_t` values (modulo `2^32`). -/
def sub32 (a b : Nat) : Nat := (a % 2 ^ 32 + (2 ^ 32 - b % 2 ^ 32)) % 2 ^ 32

/-- Subtraction `a - b` of two `int` values in `0 .. 255`, converted to `uint8_t`. -/
def sub8 (a b : Nat) : Nat := (a % 256 + (256 - b % 256)) % 256

/-- The constant `EEPROM_Address` of eeprom.h. -/
def EEPROM_Address : Nat := 0xa0

/-- The constant `EEPROM_NoError` of eeprom.h. -/
def EEPROM_NoError : Nat := 0x00

/-- The constant `EEPROM_BadAddress` of eeprom.h. -/
def EEPROM_BadAddress : Nat := 0x01

/-- The constant `EEPROM_I2cError` of eeprom.h. -/
def EEPROM_I2cError : Nat := 0x02

/-- The constant `EEPROM_ParamError` of eeprom.h. -/
def EEPROM_ParamError : Nat := 0x03

/-- The constant `EEPROM_OutOfRange` of eeprom.h. -/
def EEPROM_OutOfRange : Nat := 0x04

/-- The constant `EEPROM_MallocError` of eeprom.h. -/
def EEPROM_MallocError : Nat := 0x05

/-- The constant `EEPROM_MaxError` of eeprom.h. -/
def EEPROM_MaxError : Nat := 6

/-- The enumeration `EEPROM::TypeEeprom`. -/
inductive TypeEeprom where
  | T24C01 | T24C02 | T24C04 | T24C08 | T24C16 | T24C32
  | T24C64 | T24C128 | T24C256 | T24C512 | T24C1024 | T24C1025
  deriving DecidableEq, Repr

namespace TypeEeprom

/-- The integer value of an enumerator of `TypeEeprom`. -/
def val : TypeEeprom → Nat
  | T24C01 => 128
  | T24C02 => 256
  | T24C04 => 512
  | T24C08 => 1024
  | T24C16 => 2048
  | T24C32 => 4096
  | T24C64 => 8192
  | T24C128 => 16384
  | T24C256 => 32768
  | T24C512 => 65536
  | T24C1024 => 131072
  | T24C1025 => 131073

/-- All twelve chip types. -/
def all : List TypeEeprom :=
  [T24C01, T24C02, T24C04, T24C08, T24C16, T24C32,
   T24C64, T24C128, T24C256, T24C512, T24C1024, T24C1025]

end TypeEeprom

/-- One call of the bus transport, as recorded in the log of the driver:
`write addr cmd repeated` is `_i2c.write(addr, cmd, len, repeated)` with `cmd` the `len`
bytes handed over, `read addr length` is `_i2c.read(addr, buf, length)`. -/
inductive Txn where
  | write (addr : Nat) (cmd : List Nat) (repeated : Bool)
  | read (addr : Nat) (length : Nat)
  deriving DecidableEq, Repr

/-- The bus transport (class `I2C` of mbed, not part of the repository): a deterministic
machine on a state `β`. Both calls return the acknowledge code (`0` is success); `read`
also returns the bytes it stored in the buffer. -/
structure I2C (β : Type) where
  write : β → Nat → List Nat → Bool → β × Int
  read : β → Nat → Nat → β × Int × List Nat

/-- The private members of class `EEPROM`, with the state of the bus behind `_i2c` and the
ghost `log` of bus calls. -/
structure EEPROM (β : Type) where
  _i2c : β
  _address : Nat
  _errnum : Nat
  _type : TypeEeprom
  _page_write : Nat
  _page_number : Nat
  _size : Nat
  log : List Txn

namespace EEPROM

variable {β : Type}

/-- The constructor `EEPROM::EEPROM(sda, scl, address, type)`; `address` is a `uint8_t`.
`_i2c.frequency(400000)` configures the transport and is no bus transaction. -/
def new (i2c : β) (address : Nat) (type : TypeEeprom) : EEPROM β :=
  let bad : Nat → Nat := fun lim => if address > lim then EEPROM_BadAddress else EEPROM_NoError
  let r : Nat × Nat × Nat × Nat :=
    match type with
    | .T24C01 | .T24C02 => (bad 7, address <<< 1, 8, 1)
    | .T24C04 => (bad 7, (address &&& 0xFE) <<< 1, 16, 2)
    | .T24C08 => (bad 7, (address &&& 0xFC) <<< 1, 16, 4)
    | .T24C16 => (EEPROM_NoError, 0, 16, 8)
    | .T24C32 | .T24C64 => (bad 7, address <<< 1, 32, 1)
    | .T24C128 | .T24C256 => (bad 3, address <<< 1, 64, 1)
    | .T24C512 => (bad 3, address <<< 1, 128, 1)
    | .T24C1024 => (bad 7, (address &&& 0xFE) <<< 1, 128, 2)
    | .T24C1025 => (bad 3, address <<< 1, 128, 2)
  { _i2c := i2c
    _address := r.2.1
    _errnum := r.1
    _type := type
    _page_write := r.2.2.1
    _page_number := r.2.2.2
    _size := if type = .T24C1025 then TypeEeprom.T24C1024.val else type.val
    log := [] }

/-- The method `EEPROM::checkAddress`. -/
def checkAddress (e : EEPROM β) (address : Nat) : Bool :=
  match e._type with
  | .T24C01 => !decide (address ≥ TypeEeprom.T24C01.val)
  | .T24C02 => !decide (address ≥ TypeEeprom.T24C02.val)
  | .T24C04 => !decide (address ≥ TypeEeprom.T24C04.val)
  | .T24C08 => !decide (address ≥ TypeEeprom.T24C08.val)
  | .T24C16 => !decide (address ≥ TypeEeprom.T24C16.val)
  | .T24C32 => !decide (address ≥ TypeEeprom.T24C32.val)
  | .T24C64 => !decide (address ≥ TypeEeprom.T24C64.val)
  | .T24C128 => !decide (address ≥ TypeEeprom.T24C128.val)
  | .T24C256 => !decide (address ≥ TypeEeprom.T24C256.val)
  | .T24C512 => !decide (address ≥ TypeEeprom.T24C512.val)
  | .T24C1024 => !decide (address ≥ TypeEeprom.T24C1024.val)
  | .T24C1025 => !decide (address ≥ TypeEeprom.T24C1025.val - 1)

/-- The method `EEPROM::getSize`. -/
def getSize (e : EEPROM β) : Nat := e._size

/-- The method `EEPROM::getError`. -/
def getError (e : EEPROM β) : Nat := e._errnum

/-- The test `_type < T24C32` (one word-address byte, block folded into the device byte). -/
def folded (e : EEPROM β) : Bool := decide (e._type.val < TypeEeprom.T24C32.val)

/-- The statements `page = 0; if(_type < T24C32) page = (uint8_t) (address / 256);`. -/
def pageOf (e : EEPROM β) (address : Nat) : Nat :=
  if e.folded then u8 (address / 256) else 0

/-- The statement `addr = EEPROM_Address | _address | (page << 1);` (`addr` is `uint8_t`). -/
def devAddr (e : EEPROM β) (page : Nat) : Nat :=
  u8 (EEPROM_Address ||| e._address ||| (page <<< 1))

/-- The word-address bytes put at the start of `cmd`: `(uint8_t) (address - page * 256)`
when `_type < T24C32`, otherwise `(uint8_t) (address >> 8)` and `(uint8_t) address`. -/
def wordAddr (e : EEPROM β) (page address : Nat) : List Nat :=
  if e.folded then [u8 (sub32 address (page * 256))]
  else [u8 (address >>> 8), u8 address]

/-- The loop `for(j = 0; j < n; j++) cmd[j + k] = (uint8_t) data[base + j];`: the `n` bytes
stored behind the word address. The array `data` is a map from index to byte. -/
def fill (data : Nat → Nat) (base n : Nat) : List Nat :=
  (List.range n).map (fun j => u8 (data (base + j)))

/-- One call `_i2c.write(addr, cmd, len, repeated)`: the bus moves on, the call is logged,
the acknowledge code is returned. -/
def i2c_write (bus : I2C β) (e : EEPROM β) (addr : Nat) (cmd : List Nat) (repeated : Bool) :
    EEPROM β × Int :=
  ({ e with _i2c := (bus.write e._i2c addr cmd repeated).1
            log := e.log ++ [Txn.write addr cmd repeated] },
   (bus.write e._i2c addr cmd repeated).2)

/-- One call `_i2c.read(addr, buf, length)`: returns the acknowledge code and the buffer. -/
def i2c_read (bus : I2C β) (e : EEPROM β) (addr : Nat) (length : Nat) :
    EEPROM β × Int × List Nat :=
  ({ e with _i2c := (bus.read e._i2c addr length).1
            log := e.log ++ [Txn.read addr length] },
   (bus.read e._i2c addr length).2)

/-- The loop `do { ack = _i2c.write(addr, cmd, 0); } while(ack != 0);` of `ready()`,
cut after `fuel` polls. -/
def readyLoop (bus : I2C β) : Nat → EEPROM β → Option (EEPROM β)
  | 0, _ => none
  | fuel + 1, e =>
    if (i2c_write bus e (u8 (EEPROM_Address ||| e._address)) [] false).2 ≠ 0 then
      readyLoop bus fuel (i2c_write bus e (u8 (EEPROM_Address ||| e._address)) [] false).1
    else some (i2c_write bus e (u8 (EEPROM_Address ||| e._address)) [] false).1

/-- The method `EEPROM::ready`. -/
def ready (bus : I2C β) (fuel : Nat) (e : EEPROM β) : Option (EEPROM β) :=
  if e._errnum ≠ 0 then some e else readyLoop bus fuel e

/-- The recurring statements
`ack = _i2c.write((int)addr,(char *)cmd,len); if(ack != 0) { _errnum = EEPROM_I2cError; return; } ready();`.
The flag is `false` when the enclosing method has returned, `true` when it goes on. -/
def send (bus : I2C β) (fuel : Nat) (e : EEPROM β) (addr : Nat) (cmd : List Nat) :
    Option (EEPROM β × Bool) :=
  if (i2c_write bus e addr cmd false).2 ≠ 0 then
    some ({ (i2c_write bus e addr cmd false).1 with _errnum := EEPROM_I2cError }, false)
  else
    match ready bus fuel (i2c_write bus e addr cmd false).1 with
    | none => none
    | some e1 => some (e1, true)

/-- The method `EEPROM::write(uint32_t address, int8_t data)`. -/
def write_int8 (bus : I2C β) (fuel : Nat) (e : EEPROM β) (address data : Nat) :
    Option (EEPROM β) :=
  if e._errnum ≠ 0 then some e
  else if !e.checkAddress address then some { e with _errnum := EEPROM_OutOfRange }
  else
    match send bus fuel e (e.devAddr (e.pageOf address))
        (e.wordAddr (e.pageOf address) address ++ [u8 data]) with
    | none => none
    | some r => some r.1

/-- The body of the loop `for(i = 0;i < blocs;i++)` of
`EEPROM::write(uint32_t address, int8_t data[], uint32_t length)`, run for the index `i` with
the current value of `address`. The result holds the driver and `none` when the method has
returned, `some address` with the new value of `address` when the loop goes on.
The staging array `cmd` is the list handed to the bus: the word address and the filled
bytes (the array bound `cmd[129]` is not part of this list). -/
def writeBloc (bus : I2C β) (fuel : Nat) (data : Nat → Nat) (i : Nat) (e : EEPROM β)
    (address : Nat) : Option (EEPROM β × Option Nat) :=
  if e.folded then
    if u8 (u32 (address + e._page_write) / 256) = e.pageOf address then
      match send bus fuel e (e.devAddr (e.pageOf address))
          (e.wordAddr (e.pageOf address) address ++ fill data (i * e._page_write) e._page_write) with
      | none => none
      | some (e1, false) => some (e1, none)
      | some (e1, true) => some (e1, some (u32 (address + e._page_write)))
    else
      match send bus fuel e (e.devAddr (e.pageOf address))
          (e.wordAddr (e.pageOf address) address ++
            fill data (i * e._page_write) (u8 (sub32 ((e.pageOf address + 1) * 256) address))) with
      | none => none
      | some (e1, false) => some (e1, none)
      | some (e1, true) =>
        if e.pageOf address + 1 < e1._page_number then
          match send bus fuel e1 (e1.devAddr (u8 (e.pageOf address + 1)))
              (e1.wordAddr (u8 (e.pageOf address + 1))
                  (u32 (address + u8 (sub32 ((e.pageOf address + 1) * 256) address))) ++
                fill data
                  (u8 (i * e1._page_write + u8 (sub32 ((e.pageOf address + 1) * 256) address)))
                  (sub8 e1._page_write (u8 (sub32 ((e.pageOf address + 1) * 256) address)))) with
          | none => none
          | some (e2, false) => some (e2, none)
          | some (e2, true) =>
            some (e2, some (u32 (u32 (address + u8 (sub32 ((e.pageOf address + 1) * 256) address)) +
              sub8 e1._page_write (u8 (sub32 ((e.pageOf address + 1) * 256) address)))))
        else some (e1, some (u32 (address + u8 (sub32 ((e.pageOf address + 1) * 256) address))))
  else
    match send bus fuel e (e.devAddr (e.pageOf address))
        (e.wordAddr (e.pageOf address) address ++ fill data (i * e._page_write) e._page_write) with
    | none => none
    | some (e1, false) => some (e1, none)
    | some (e1, true) => some (e1, some (u32 (address + e._page_write)))

/-- The loop `for(i = 0;i < blocs;i++)`: `n` passes are left, the next index is `i`. -/
def writeBlocs (bus : I2C β) (fuel : Nat) (data : Nat → Nat) :
    Nat → Nat → EEPROM β → Nat → Option (EEPROM β × Option Nat)
  | 0, _, e, address => some (e, some address)
  | n + 1, i, e, address =>
    match writeBloc bus fuel data i e address with
    | none => none
    | some (e1, none) => some (e1, none)
    | some (e1, some address1) => writeBlocs bus fuel data n (i + 1) e1 address1

/-- The statement `if(remain) { ... }` that ends
`EEPROM::write(uint32_t address, int8_t data[], uint32_t length)`. -/
def writeRemain (bus : I2C β) (fuel : Nat) (data : Nat → Nat) (blocs remain : Nat)
    (e : EEPROM β) (address : Nat) : Option (EEPROM β) :=
  if remain ≠ 0 then
    if e.folded then
      if u8 (u32 (address + remain) / 256) = e.pageOf address then
        match send bus fuel e (e.devAddr (e.pageOf address))
            (e.wordAddr (e.pageOf address) address ++ fill data (blocs * e._page_write) remain) with
        | none => none
        | some r => some r.1
      else
        match send bus fuel e (e.devAddr (e.pageOf address))
            (e.wordAddr (e.pageOf address) address ++
              fill data (blocs * e._page_write)
                (u8 (sub32 ((e.pageOf address + 1) * 256) address))) with
        | none => none
        | some (e1, false) => some e1
        | some (e1, true) =>
          if e.pageOf address + 1 < e1._page_number then
            match send bus fuel e1 (e1.devAddr (u8 (e.pageOf address + 1)))
                (e1.wordAddr (u8 (e.pageOf address + 1))
                    (u32 (address + u8 (sub32 ((e.pageOf address + 1) * 256) address))) ++
                  fill data
                    (u8 (blocs * e1._page_write +
                      u8 (sub32 ((e.pageOf address + 1) * 256) address)))
                    (sub8 remain (u8 (sub32 ((e.pageOf address + 1) * 256) address)))) with
            | none => none
            | some r => some r.1
          else some e1
    else
      match send bus fuel e (e.devAddr (e.pageOf address))
          (e.wordAddr (e.pageOf address) address ++ fill data (blocs * e._page_write) remain) with
      | none => none
      | some r => some r.1
  else some e

/-- The method `EEPROM::write(uint32_t address, int8_t data[], uint32_t length)`. -/
def write_array (bus : I2C β) (fuel : Nat) (e : EEPROM β) (address : Nat) (data : Nat → Nat)
    (length : Nat) : Option (EEPROM β) :=
  if e._errnum ≠ 0 then some e
  else if !e.checkAddress address then some { e with _errnum := EEPROM_OutOfRange }
  else if !e.checkAddress (sub32 (u32 (address + length)) 1) then
    some { e with _errnum := EEPROM_OutOfRange }
  else
    match writeBlocs bus fuel data (u8 (length / e._page_write)) 0 e address with
    | none => none
    | some (e1, none) => some e1
    | some (e1, some address1) =>
      writeRemain bus fuel data (u8 (length / e._page_write))
        (u8 (sub32 length (u8 (length / e._page_write) * e._page_write))) e1 address1

/-- The bytes of a value in memory, least significant first (`memcpy(cmd,&data,n)` on the
little-endian targets of the library), as a map from index to byte. -/
def leBytes (v : Nat) : Nat → Nat := fun k => u8 (v >>> (8 * k))

/-- The value whose bytes in memory are `cmd[0 .. n)`, least significant first
(`memcpy(&data,cmd,n)`). -/
def leValue (cmd : List Nat) : Nat := cmd.foldr (fun b acc => u8 b + 256 * acc) 0

/-- The method `EEPROM::write(uint32_t address, int16_t data)`; `data` is the 16-bit pattern. -/
def write_int16 (bus : I2C β) (fuel : Nat) (e : EEPROM β) (address data : Nat) :
    Option (EEPROM β) :=
  if e._errnum ≠ 0 then some e
  else if !e.checkAddress (u32 (address + 1)) then some { e with _errnum := EEPROM_OutOfRange }
  else write_array bus fuel e address (leBytes data) 2

/-- The method `EEPROM::write(uint32_t address, int32_t data)`; `data` is the 32-bit pattern. -/
def write_int32 (bus : I2C β) (fuel : Nat) (e : EEPROM β) (address data : Nat) :
    Option (EEPROM β) :=
  if e._errnum ≠ 0 then some e
  else if !e.checkAddress (u32 (address + 3)) then some { e with _errnum := EEPROM_OutOfRange }
  else write_array bus fuel e address (leBytes data) 4

/-- The method `EEPROM::write(uint32_t address, float data)`; `data` is the 32-bit pattern of
the float. -/
def write_float (bus : I2C β) (fuel : Nat) (e : EEPROM β) (address data : Nat) :
    Option (EEPROM β) :=
  if e._errnum ≠ 0 then some e
  else if !e.checkAddress (u32 (address + 3)) then some { e with _errnum := EEPROM_OutOfRange }
  else write_array bus fuel e address (leBytes data) 4

/-- The method `EEPROM::write(uint32_t address, void *data, uint32_t size)`; `alloc` tells
whether `malloc(size)` returned a buffer. -/
def write_void (bus : I2C β) (fuel : Nat) (alloc : Bool) (e : EEPROM β) (address : Nat)
    (data : Nat → Nat) (size : Nat) : Option (EEPROM β) :=
  if e._errnum ≠ 0 then some e
  else if !e.checkAddress (sub32 (u32 (address + size)) 1) then
    some { e with _errnum := EEPROM_OutOfRange }
  else if !alloc then some { e with _errnum := EEPROM_MallocError }
  else write_array bus fuel e address data size

/-- The method `EEPROM::read(uint32_t address, int8_t *data, uint32_t size)`. The second
component is the content of the buffer `data` after the call; `data` is its content before. -/
def read_array (bus : I2C β) (e : EEPROM β) (address : Nat) (data : List Nat) (size : Nat) :
    EEPROM β × List Nat :=
  if e._errnum ≠ 0 then (e, data)
  else if !e.checkAddress address then ({ e with _errnum := EEPROM_OutOfRange }, data)
  else if !e.checkAddress (sub32 (u32 (address + size)) 1) then
    ({ e with _errnum := EEPROM_OutOfRange }, data)
  else if (i2c_write bus e (e.devAddr (e.pageOf address))
      (e.wordAddr (e.pageOf address) address) true).2 ≠ 0 then
    ({ (i2c_write bus e (e.devAddr (e.pageOf address))
          (e.wordAddr (e.pageOf address) address) true).1 with _errnum := EEPROM_I2cError }, data)
  else
    let e1 := (i2c_write bus e (e.devAddr (e.pageOf address))
      (e.wordAddr (e.pageOf address) address) true).1
    if (i2c_read bus e1 (e.devAddr (e.pageOf address)) size).2.1 ≠ 0 then
      ({ (i2c_read bus e1 (e.devAddr (e.pageOf address)) size).1 with
           _errnum := EEPROM_I2cError },
       (i2c_read bus e1 (e.devAddr (e.pageOf address)) size).2.2)
    else
      ((i2c_read bus e1 (e.devAddr (e.pageOf address)) size).1,
       (i2c_read bus e1 (e.devAddr (e.pageOf address)) size).2.2)

/-- The method `EEPROM::read(uint32_t address, int8_t& data)`: the same statements as the
sequential read, with `sizeof(data) = 1` and without the check of the last address. -/
def read_int8 (bus : I2C β) (e : EEPROM β) (address : Nat) (data : List Nat) :
    EEPROM β × List Nat :=
  if e._errnum ≠ 0 then (e, data)
  else if !e.checkAddress address then ({ e with _errnum := EEPROM_OutOfRange }, data)
  else if (i2c_write bus e (e.devAddr (e.pageOf address))
      (e.wordAddr (e.pageOf address) address) true).2 ≠ 0 then
    ({ (i2c_write bus e (e.devAddr (e.pageOf address))
          (e.wordAddr (e.pageOf address) address) true).1 with _errnum := EEPROM_I2cError }, data)
  else
    let e1 := (i2c_write bus e (e.devAddr (e.pageOf address))
      (e.wordAddr (e.pageOf address) address) true).1
    if (i2c_read bus e1 (e.devAddr (e.pageOf address)) 1).2.1 ≠ 0 then
      ({ (i2c_read bus e1 (e.devAddr (e.pageOf address)) 1).1 with
           _errnum := EEPROM_I2cError },
       (i2c_read bus e1 (e.devAddr (e.pageOf address)) 1).2.2)
    else
      ((i2c_read bus e1 (e.devAddr (e.pageOf address)) 1).1,
       (i2c_read bus e1 (e.devAddr (e.pageOf address)) 1).2.2)

/-- The method `EEPROM::read(int8_t& data)` (current address read). -/
def read_current (bus : I2C β) (e : EEPROM β) (data : List Nat) : EEPROM β × List Nat :=
  if e._errnum ≠ 0 then (e, data)
  else if (i2c_read bus e (u8 (EEPROM_Address ||| e._address)) 1).2.1 ≠ 0 then
    ({ (i2c_read bus e (u8 (EEPROM_Address ||| e._address)) 1).1 with
         _errnum := EEPROM_I2cError },
     (i2c_read bus e (u8 (EEPROM_Address ||| e._address)) 1).2.2)
  else
    ((i2c_read bus e (u8 (EEPROM_Address ||| e._address)) 1).1,
     (i2c_read bus e (u8 (EEPROM_Address ||| e._address)) 1).2.2)

/-- The method `EEPROM::read(uint32_t address, int16_t& data)`. The second component is the
16-bit pattern of `data` after the call; `data` is the pattern before, `cmd` the content of
the local array `cmd[2]` at its declaration (it is not initialised). -/
def read_int16 (bus : I2C β) (e : EEPROM β) (address data : Nat) (cmd : List Nat) :
    EEPROM β × Nat :=
  if e._errnum ≠ 0 then (e, data)
  else if !e.checkAddress (u32 (address + 1)) then
    ({ e with _errnum := EEPROM_OutOfRange }, data)
  else ((read_array bus e address cmd 2).1, leValue ((read_array bus e address cmd 2).2.take 2))

/-- The method `EEPROM::read(uint32_t address, int32_t& data)`, with `data` and `cmd` as for
the read of a short. -/
def read_int32 (bus : I2C β) (e : EEPROM β) (address data : Nat) (cmd : List Nat) :
    EEPROM β × Nat :=
  if e._errnum ≠ 0 then (e, data)
  else if !e.checkAddress (u32 (address + 3)) then
    ({ e with _errnum := EEPROM_OutOfRange }, data)
  else ((read_array bus e address cmd 4).1, leValue ((read_array bus e address cmd 4).2.take 4))

/-- The method `EEPROM::read(uint32_t address, float& data)`, on the 32-bit pattern of the
float, with `data` and `cmd` as for the read of a short. -/
def read_float (bus : I2C β) (e : EEPROM β) (address data : Nat) (cmd : List Nat) :
    EEPROM β × Nat :=
  if e._errnum ≠ 0 then (e, data)
  else if !e.checkAddress (u32 (address + 3)) then
    ({ e with _errnum := EEPROM_OutOfRange }, data)
  else ((read_array bus e address cmd 4).1, leValue ((read_array bus e address cmd 4).2.take 4))

/-- The method `EEPROM::read(uint32_t address, void *data, uint32_t size)`; `alloc` tells
whether `malloc(size)` returned a buffer and `cmd` is the content of that fresh buffer. -/
def read_void (bus : I2C β) (alloc : Bool) (e : EEPROM β) (address : Nat) (data : List Nat)
    (cmd : List Nat) (size : Nat) : EEPROM β × List Nat :=
  if e._errnum ≠ 0 then (e, data)
  else if !e.checkAddress (sub32 (u32 (address + size)) 1) then
    ({ e with _errnum := EEPROM_OutOfRange }, data)
  else if !alloc then ({ e with _errnum := EEPROM_MallocError }, data)
  else ((read_array bus e address cmd size).1, (read_array bus e address cmd size).2.take size)

/-- The loop `for(i = 0; i < _size / 4;i++) write((uint32_t)(i * 4),data);` of `clear()`:
`n` passes are left, the next index is `i`. -/
def clearLoop (bus : I2C β) (fuel : Nat) : Nat → Nat → EEPROM β → Option (EEPROM β)
  | 0, _, e => some e
  | n + 1, i, e =>
    match write_int32 bus fuel e (u32 (i * 4)) 0 with
    | none => none
    | some e1 => clearLoop bus fuel n (i + 1) e1

/-- The method `EEPROM::clear`. -/
def clear (bus : I2C β) (fuel : Nat) (e : EEPROM β) : Option (EEPROM β) :=
  clearLoop bus fuel (e._size / 4) 0 e

end EEPROM

/-! ## Observations on the log -/

/-- A bus that acknowledges every call and returns zeros on a read. -/
def ackBus : I2C Unit where
  write := fun _ _ _ _ => ((), 0)
  read := fun _ _ n => ((), 0, List.replicate n 0)

/-- The bus acknowledges every write, whatever its state. -/
def AlwaysAck {β : Type} (bus : I2C β) : Prop :=
  ∀ (b : β) (addr : Nat) (cmd : List Nat) (repeated : Bool), (bus.write b addr cmd repeated).2 = 0

namespace Txn

/-- A data write: a bus write of non-zero length (the polls of `ready()` have length 0). -/
def isData : Txn → Bool
  | write _ cmd _ => !cmd.isEmpty
  | read _ _ => false

end Txn

/-- The data writes of a log, in the order of issue. -/
def dataWrites (log : List Txn) : List Txn := log.filter Txn.isData

namespace EEPROM

variable {β : Type}

/-- The number of word-address bytes at the start of a data write. -/
def addrBytes (e : EEPROM β) : Nat := if e.folded then 1 else 2

/-- The data bytes of a bus write: what follows the word address. -/
def payload (e : EEPROM β) : Txn → List Nat
  | .write _ cmd _ => cmd.drop e.addrBytes
  | .read _ _ => []

/-- The address inside the chip at which a bus write starts, as the chip decodes it: for
the chips with one word-address byte the block bits of the device byte (the low
`_page_number - 1` bits above the read/write bit) and the word address, for the others
the two word-address bytes, most significant first. -/
def target (e : EEPROM β) : Txn → Nat
  | .write addr cmd _ =>
    if e.folded then ((addr >>> 1) &&& (e._page_number - 1)) * 256 + cmd.getD 0 0
    else cmd.getD 0 0 * 256 + cmd.getD 1 0
  | .read _ _ => 0

/-- The data writes of a log as pairs of start address and data bytes. -/
def chunks (e : EEPROM β) (log : List Txn) : List (Nat × List Nat) :=
  (dataWrites log).map (fun x => (e.target x, e.payload x))

/-- A bus write stays inside one write page of `_page_write` bytes: with start address `a`
and `n ≥ 1` data bytes, `a / _page_write = (a + n - 1) / _page_write`. -/
def inOnePage (e : EEPROM β) (x : Txn) : Bool :=
  decide (1 ≤ (e.payload x).length →
    e.target x / e._page_write = (e.target x + (e.payload x).length - 1) / e._page_write)

/-- A bus write carries no data, or starts at a multiple of `_page_write` and carries at
most `_page_write` data bytes. -/
def pageAligned (e : EEPROM β) (x : Txn) : Bool :=
  decide ((e.payload x).length = 0 ∨
    (e.target x % e._page_write = 0 ∧ (e.payload x).length ≤ e._page_write))

/-- The driver has the configuration that the constructor gives to a chip of its type for
some chip-select value it accepts. -/
def WellFormed (e : EEPROM β) : Prop :=
  ∃ cs : Nat, cs < 256 ∧ (new e._i2c cs e._type)._errnum = EEPROM_NoError ∧
    e._address = (new e._i2c cs e._type)._address ∧
    e._page_write = (new e._i2c cs e._type)._page_write ∧
    e._page_number = (new e._i2c cs e._type)._page_number ∧
    e._size = (new e._i2c cs e._type)._size

/-- The public operations of the driver, with their arguments. -/
inductive Op where
  | write_int8 (address data : Nat)
  | write_array (address : Nat) (data : Nat → Nat) (length : Nat)
  | write_int16 (address data : Nat)
  | write_int32 (address data : Nat)
  | write_float (address data : Nat)
  | write_void (alloc : Bool) (address : Nat) (data : Nat → Nat) (size : Nat)
  | read_int8 (address : Nat) (data : List Nat)
  | read_array (address : Nat) (data : List Nat) (size : Nat)
  | read_current (data : List Nat)
  | read_int16 (address data : Nat) (cmd : List Nat)
  | read_int32 (address data : Nat) (cmd : List Nat)
  | read_float (address data : Nat) (cmd : List Nat)
  | read_void (alloc : Bool) (address : Nat) (data cmd : List Nat) (size : Nat)
  | clear
  | ready

/-- The driver after one public operation. -/
def perform (bus : I2C β) (fuel : Nat) (e : EEPROM β) : Op → Option (EEPROM β)
  | .write_int8 address data => write_int8 bus fuel e address data
  | .write_array address data length => write_array bus fuel e address data length
  | .write_int16 address data => write_int16 bus fuel e address data
  | .write_int32 address data => write_int32 bus fuel e address data
  | .write_float address data => write_float bus fuel e address data
  | .write_void alloc address data size => write_void bus fuel alloc e address data size
  | .read_int8 address data => some (read_int8 bus e address data).1
  | .read_array address data size => some (read_array bus e address data size).1
  | .read_current data => some (read_current bus e data).1
  | .read_int16 address data cmd => some (read_int16 bus e address data cmd).1
  | .read_int32 address data cmd => some (read_int32 bus e address data cmd).1
  | .read_float address data cmd => some (read_float bus e address data cmd).1
  | .read_void alloc address data cmd size => some (read_void bus alloc e address data cmd size).1
  | .clear => clear bus fuel e
  | .ready => ready bus fuel e

/-- The driver after a sequence of public operations. -/
def performAll (bus : I2C β) (fuel : Nat) : List Op → EEPROM β → Option (EEPROM β)
  | [], e => some e
  | op :: ops, e =>
    match perform bus fuel e op with
    | none => none
    | some e1 => performAll bus fuel ops e1

end EEPROM

/-! ## The bus calls of a byte-run write on an acknowledging bus

The functions below compute, without a bus, the calls that
`write(uint32_t address, int8_t data[], uint32_t length)` issues when every call is
acknowledged; `write_array_eq_plan` proves that they are the calls of `write_array`. -/

namespace EEPROM

variable {β : Type}

/-- The zero-length write of `ready()`. -/
def poll (e : EEPROM β) : Txn := Txn.write (u8 (EEPROM_Address ||| e._address)) [] false

/-- The state of the bus after one call. -/
def busAfter (bus : I2C β) (b : β) : Txn → β
  | .write addr cmd repeated => (bus.write b addr cmd repeated).1
  | .read addr length => (bus.read b addr length).1

/-- The driver after the bus calls `xs` have been issued and logged. -/
def advance (bus : I2C β) (e : EEPROM β) (xs : List Txn) : EEPROM β :=
  { e with _i2c := xs.foldl (busAfter bus) e._i2c, log := e.log ++ xs }

/-- A data write for block `page` and address `address`, and the poll that follows it. -/
def xfer (e : EEPROM β) (page address : Nat) (bytes : List Nat) : List Txn :=
  [Txn.write (e.devAddr page) (e.wordAddr page address ++ bytes) false, e.poll]

/-- The number of bytes up to the end of the 256-byte block of `address`:
`fpart = (page + 1) * 256 - address`. -/
def fpartOf (e : EEPROM β) (address : Nat) : Nat :=
  u8 (sub32 ((e.pageOf address + 1) * 256) address)

/-- The calls of one pass of the loop over the blocs, and the next value of `address`. -/
def blocPlan (e : EEPROM β) (data : Nat → Nat) (i address : Nat) : List Txn × Nat :=
  if e.folded then
    if u8 (u32 (address + e._page_write) / 256) = e.pageOf address then
      (e.xfer (e.pageOf address) address (fill data (i * e._page_write) e._page_write),
       u32 (address + e._page_write))
    else if e.pageOf address + 1 < e._page_number then
      (e.xfer (e.pageOf address) address (fill data (i * e._page_write) (e.fpartOf address)) ++
        e.xfer (u8 (e.pageOf address + 1)) (u32 (address + e.fpartOf address))
          (fill data (u8 (i * e._page_write + e.fpartOf address))
            (sub8 e._page_write (e.fpartOf address))),
       u32 (u32 (address + e.fpartOf address) + sub8 e._page_write (e.fpartOf address)))
    else
      (e.xfer (e.pageOf address) address (fill data (i * e._page_write) (e.fpartOf address)),
       u32 (address + e.fpartOf address))
  else
    (e.xfer (e.pageOf address) address (fill data (i * e._page_write) e._page_write),
     u32 (address + e._page_write))

/-- The calls of `n` passes of the loop from index `i`, and the last value of `address`. -/
def blocsPlan (e : EEPROM β) (data : Nat → Nat) : Nat → Nat → Nat → List Txn × Nat
  | 0, _, address => ([], address)
  | n + 1, i, address =>
    ((blocPlan e data i address).1 ++
        (blocsPlan e data n (i + 1) (blocPlan e data i address).2).1,
     (blocsPlan e data n (i + 1) (blocPlan e data i address).2).2)

/-- The calls of the statement `if(remain) { ... }`. -/
def remainPlan (e : EEPROM β) (data : Nat → Nat) (blocs remain address : Nat) : List Txn :=
  if remain ≠ 0 then
    if e.folded then
      if u8 (u32 (address + remain) / 256) = e.pageOf address then
        e.xfer (e.pageOf address) address (fill data (blocs * e._page_write) remain)
      else if e.pageOf address + 1 < e._page_number then
        e.xfer (e.pageOf address) address
            (fill data (blocs * e._page_write) (e.fpartOf address)) ++
          e.xfer (u8 (e.pageOf address + 1)) (u32 (address + e.fpartOf address))
            (fill data (u8 (blocs * e._page_write + e.fpartOf address))
              (sub8 remain (e.fpartOf address)))
      else
        e.xfer (e.pageOf address) address (fill data (blocs * e._page_write) (e.fpartOf address))
    else e.xfer (e.pageOf address) address (fill data (blocs * e._page_write) remain)
  else []

/-- The calls of a byte-run write that passes the checks of its arguments. -/
def plan (e : EEPROM β) (address : Nat) (data : Nat → Nat) (length : Nat) : List Txn :=
  (blocsPlan e data (u8 (length / e._page_write)) 0 address).1 ++
    remainPlan e data (u8 (length / e._page_write))
      (u8 (sub32 length (u8 (length / e._page_write) * e._page_write)))
      (blocsPlan e data (u8 (length / e._page_write)) 0 address).2

end EEPROM

/-! ## The bus calls of a write on any bus

`run` issues a list of data writes and polls the way the driver does on a bus that may
refuse calls; `write_array_eq_run` proves that a byte-run write is the run of its `plan`.
`waits` and `acked` are the properties of a log that the claims on bus failures and on
the wait for the chip speak about. -/

namespace Txn

/-- A poll of `ready()`: a bus write of length zero. -/
def isPoll : Txn → Bool
  | write _ cmd _ => cmd.isEmpty
  | read _ _ => false

end Txn

namespace EEPROM

variable {β : Type}

/-- The acknowledge code that the bus in state `b` gives to a call. -/
def busAck (bus : I2C β) (b : β) : Txn → Int
  | .write addr cmd repeated => (bus.write b addr cmd repeated).2
  | .read addr length => (bus.read b addr length).2.1

/-- Every call of the list is acknowledged when the calls are issued in order from the bus
state `b`. -/
def acked (bus : I2C β) : β → List Txn → Bool
  | _, [] => true
  | b, x :: xs => decide (busAck bus b x = 0) && acked bus (busAfter bus b x) xs

/-- The shape of the log of a write operation, read against the answers of the bus from
state `b`. With the flag `false` the driver is not waiting: the log may end, or go on with
a data write; a refused data write ends the log, an acknowledged one sets the flag. With
the flag `true` the driver waits for the chip: the log must go on with a poll, and the
flag is cleared by the first acknowledged poll. -/
def waits (bus : I2C β) : Bool → β → List Txn → Bool
  | false, _, [] => true
  | true, _, [] => false
  | false, b, x :: rest =>
    x.isData && (if busAck bus b x = 0 then waits bus true (busAfter bus b x) rest
      else rest.isEmpty)
  | true, b, x :: rest =>
    x.isPoll && (if busAck bus b x = 0 then waits bus false (busAfter bus b x) rest
      else waits bus true (busAfter bus b x) rest)

/-- The driver issues the calls of a plan on any bus: a data write is issued once, and
when it is refused the error is recorded and the run ends (flag `false`); a write of
length zero stands for one call of `ready()`, which polls until the chip answers. -/
def run (bus : I2C β) (fuel : Nat) : List Txn → EEPROM β → Option (EEPROM β × Bool)
  | [], e => some (e, true)
  | Txn.read _ _ :: xs, e => run bus fuel xs e
  | Txn.write addr cmd repeated :: xs, e =>
    if cmd = [] then
      match readyLoop bus fuel e with
      | none => none
      | some e1 => run bus fuel xs e1
    else if (i2c_write bus e addr cmd repeated).2 ≠ 0 then
      some ({ (i2c_write bus e addr cmd repeated).1 with _errnum := EEPROM_I2cError }, false)
    else run bus fuel xs (i2c_write bus e addr cmd repeated).1

/-- A list of data writes, each followed by the poll `p`. -/
inductive Paired (p : Txn) : List Txn → Prop where
  | nil : Paired p []
  | cons (addr : Nat) (cmd : List Nat) (repeated : Bool) (rest : List Txn)
      (hcmd : cmd ≠ []) (hrest : Paired p rest) :
      Paired p (Txn.write addr cmd repeated :: p :: rest)

/-- A bus with a counter of the data writes it has seen: it acknowledges every poll and
every data write but the `k`-th, which it refuses. -/
def refuseBus (k : Nat) : I2C Nat where
  write := fun n _ cmd _ =>
    if cmd = [] then (n, 0) else (n + 1, if n + 1 = k then 1 else 0)
  read := fun n _ len => (n, 0, List.replicate len 0)

/-- A bus with a counter of the calls it has seen: it refuses the first `k` calls and
acknowledges every later one. -/
def slowBus (k : Nat) : I2C Nat where
  write := fun n _ _ _ => (n + 1, if n < k then 1 else 0)
  read := fun n _ len => (n + 1, if n < k then 1 else 0, List.replicate len 0)

end EEPROM

/-! ## A model chip

The chip is hardware and not code of the repository. The round-trip claims describe the
chip they are about: it acknowledges every call, stores the data bytes of a bus write from
the address it decodes, wrapping inside the write page of that address, and serves reads
sequentially from its address pointer. -/

/-- The state of the model chip: the content of its memory and its address pointer. -/
structure Chip where
  mem : Nat → Nat
  ptr : Nat

namespace EEPROM

variable {β : Type}

/-- The memory after the chip has stored the bytes `bs` in the page that starts at `base`
and holds `pw` bytes, from the offset `off` in the page on, wrapping at the end of the
page. -/
def storePage (pw base : Nat) : (Nat → Nat) → Nat → List Nat → (Nat → Nat)
  | mem, _, [] => mem
  | mem, off, b :: bs =>
    storePage pw base (fun x => if x = base + off % pw then b else mem x) (off + 1) bs

/-- The model chip behind a driver with the configuration of `cfg`. A bus write shorter
than the word address (a poll) changes nothing; any other bus write sets the address
pointer to the address decoded from the device byte and the word address (`target`) and
stores the data bytes from there, wrapping inside the page; a read returns the bytes from
the address pointer on. Every call is acknowledged. -/
def chipBus (cfg : EEPROM β) : I2C Chip where
  write := fun c addr cmd _ =>
    if cmd.length < cfg.addrBytes then (c, 0)
    else
      ({ mem := storePage cfg._page_write
            (cfg.target (Txn.write addr cmd false) / cfg._page_write * cfg._page_write) c.mem
            (cfg.target (Txn.write addr cmd false) % cfg._page_write)
            (cfg.payload (Txn.write addr cmd false))
         ptr := cfg.target (Txn.write addr cmd false) / cfg._page_write * cfg._page_write +
            (cfg.target (Txn.write addr cmd false) % cfg._page_write +
              (cfg.payload (Txn.write addr cmd false)).length) % cfg._page_write }, 0)
  read := fun c _ n =>
    ({ c with ptr := c.ptr + n }, 0, (List.range n).map (fun j => c.mem (c.ptr + j)))

/-- An erased model chip. -/
def blankChip : Chip := { mem := fun _ => 0, ptr := 0 }

end EEPROM

/-! ## The error slot and the error messages -/

/-- The table `_ErrorMessageEEPROM[EEPROM_MaxError]` of eeprom.h. -/
def _ErrorMessageEEPROM : List String :=
  ["", "Bad chip address", "I2C error (nack)", "Invalid parameter",
   "Data address out of range", "Memory allocation error"]

namespace Txn

/-- The number of bytes that a bus call hands over: the argument `length` of the call. -/
def length : Txn → Nat
  | write _ cmd _ => cmd.length
  | read _ n => n

end Txn

namespace EEPROM

variable {β : Type}

/-- The method `EEPROM::getErrorMessage`: the entry `_ErrorMessageEEPROM[_errnum]` of the
table, `none` when `_errnum` is no index of the table. -/
def getErrorMessage (e : EEPROM β) : Option String := _ErrorMessageEEPROM[e._errnum]?

/-- What an operation keeps of the driver `e` in the driver `e1` it returns: the members
set by the constructor, and the error slot, unless one of the three codes that the
operations assign has been stored in it. -/
def Kept (e e1 : EEPROM β) : Prop :=
  e1._address = e._address ∧ e1._type = e._type ∧ e1._page_write = e._page_write ∧
  e1._page_number = e._page_number ∧ e1._size = e._size ∧
  (e1._errnum = e._errnum ∨ e1._errnum = EEPROM_I2cError ∨ e1._errnum = EEPROM_OutOfRange ∨
    e1._errnum = EEPROM_MallocError)

/-- The size of the staging array `uint8_t cmd[129]` of
`EEPROM::write(uint32_t address, int8_t data[], uint32_t length)`. -/
def cmdSize : Nat := 129

end EEPROM

/-! ## Address check and size -/

namespace EEPROM

variable {β : Type}

theorem checkAddress_eq (e : EEPROM β) (a : Nat) :
    e.checkAddress a = decide (a < if e._type = .T24C1025 then 131072 else e._type.val) := by
  unfold checkAddress
  cases h : e._type <;> rw [Bool.eq_iff_iff] <;> simp [TypeEeprom.val]

theorem new_type (b : β) (cs : Nat) (t : TypeEeprom) : (new b cs t)._type = t := rfl

theorem new_size (b : β) (cs : Nat) (t : TypeEeprom) :
    (new b cs t)._size = if t = .T24C1025 then 131072 else t.val := rfl

/-- C7: for a driver of any chip type other than 24C1025, `checkAddress(a)` holds exactly
when `a` is below the capacity of the chip, the value of its `TypeEeprom` enumerator
(128, 256, ..., 131072), which is also what `getSize()` reports after construction; the
address `capacity - 1` is valid and the address `capacity` is not. -/
theorem checkAddress_iff_below_capacity (e : EEPROM β) (a : Nat)
    (ht : e._type ≠ TypeEeprom.T24C1025) :
    (e.checkAddress a = true ↔ a < e._type.val) ∧
    e.checkAddress (e._type.val - 1) = true ∧
    e.checkAddress e._type.val = false ∧
    (∀ (b : β) (cs : Nat), (new b cs e._type).getSize = e._type.val) ∧
    e._type.val ∈ [128, 256, 512, 1024, 2048, 4096, 8192, 16384, 32768, 65536, 131072] := by
  refine ⟨?_, ?_, ?_, ?_, ?_⟩
  · simp [checkAddress_eq, ht]
  · rw [checkAddress_eq]
    cases h : e._type <;> simp_all [TypeEeprom.val]
  · simp [checkAddress_eq, ht]
  · intro b cs
    simp [getSize, new_size, ht]
  · cases h : e._type <;> simp_all [TypeEeprom.val]

theorem checkAddress_iff_below_capacity_witness :
    (((new () 0 .T24C64 : EEPROM Unit).checkAddress 8191 = true ↔
        8191 < (new () 0 .T24C64 : EEPROM Unit)._type.val) ∧
      (new () 0 .T24C64 : EEPROM Unit).checkAddress
        ((new () 0 .T24C64 : EEPROM Unit)._type.val - 1) = true ∧
      (new () 0 .T24C64 : EEPROM Unit).checkAddress
        (new () 0 .T24C64 : EEPROM Unit)._type.val = false ∧
      (∀ (b : Unit) (cs : Nat),
        (new b cs (new () 0 .T24C64 : EEPROM Unit)._type).getSize =
          (new () 0 .T24C64 : EEPROM Unit)._type.val) ∧
      (new () 0 .T24C64 : EEPROM Unit)._type.val ∈
        [128, 256, 512, 1024, 2048, 4096, 8192, 16384, 32768, 65536, 131072]) :=
  checkAddress_iff_below_capacity (new () 0 .T24C64) 8191 (by decide)

/-- C8, as stated, fails: on a 24C1025 `checkAddress(getSize() - 1)` is true, so it is not
the case that `getSize() - 1` is invalid and `getSize() - 2` the last valid address. -/
theorem checkAddress_24C1025_top_byte_valid :
    (new () 0 .T24C1025 : EEPROM Unit).getSize = 131072 ∧
    (new () 0 .T24C1025 : EEPROM Unit).checkAddress
      ((new () 0 .T24C1025 : EEPROM Unit).getSize - 1) = true ∧
    ¬ ((new () 0 .T24C1025 : EEPROM Unit).checkAddress
        ((new () 0 .T24C1025 : EEPROM Unit).getSize - 1) = false ∧
      (new () 0 .T24C1025 : EEPROM Unit).checkAddress
        ((new () 0 .T24C1025 : EEPROM Unit).getSize - 2) = true) := by
  decide

/-- C8, amended: for the 24C1025, with `getSize()` the size the driver reports (131072, as
for the 24C1024), `checkAddress(a)` holds exactly when `a < getSize()`: the address
`getSize() - 1` is the last valid one and `getSize()` is invalid. -/
theorem checkAddress_24C1025_iff_below_size (b : β) (cs : Nat) (a : Nat) :
    (new b cs .T24C1025).getSize = 131072 ∧
    (new b cs .T24C1025).getSize = (new b cs .T24C1024).getSize ∧
    ((new b cs .T24C1025).checkAddress a = true ↔ a < (new b cs .T24C1025).getSize) ∧
    (new b cs .T24C1025).checkAddress ((new b cs .T24C1025).getSize - 1) = true ∧
    (new b cs .T24C1025).checkAddress (new b cs .T24C1025).getSize = false := by
  refine ⟨rfl, rfl, ?_, ?_, ?_⟩ <;> simp [checkAddress_eq, new_type, getSize, new_size]

end EEPROM

/-! ## The error slot -/

namespace EEPROM

variable {β : Type}

theorem write_array_of_error (bus : I2C β) (fuel : Nat) (e : EEPROM β) (address : Nat)
    (data : Nat → Nat) (length : Nat) (h : e._errnum ≠ 0) :
    write_array bus fuel e address data length = some e := by
  simp [write_array, h]

theorem clearLoop_of_error (bus : I2C β) (fuel : Nat) (e : EEPROM β) (h : e._errnum ≠ 0)
    (n i : Nat) : clearLoop bus fuel n i e = some e := by
  induction n generalizing i with
  | zero => rfl
  | succ n ih => simp [clearLoop, write_int32, h, ih]

theorem perform_of_error (bus : I2C β) (fuel : Nat) (e : EEPROM β) (h : e._errnum ≠ 0)
    (op : Op) : perform bus fuel e op = some e := by
  cases op <;>
    simp [perform, write_int8, write_array, write_int16, write_int32, write_float, write_void,
      read_int8, read_array, read_current, read_int16, read_int32, read_float, read_void,
      clear, ready, clearLoop_of_error, h]

theorem performAll_of_error (bus : I2C β) (fuel : Nat) (e : EEPROM β) (h : e._errnum ≠ 0)
    (ops : List Op) : performAll bus fuel ops e = some e := by
  induction ops with
  | nil => rfl
  | cons op ops ih => simp [performAll, perform_of_error bus fuel e h, ih]

/-- C6: in a driver whose error slot is not `EEPROM_NoError`, every public operation (each
overload of `write`, each overload of `read` with the current-address read, `clear`,
`ready`) returns and leaves the driver as it is, log and error slot included, so it issues
no bus call and keeps the error; a read leaves its destination as it was; and so does
every sequence of operations. -/
theorem error_is_sticky (bus : I2C β) (fuel : Nat) (e : EEPROM β)
    (h : e._errnum ≠ EEPROM_NoError) :
    (∀ op : Op, perform bus fuel e op = some e) ∧
    (∀ ops : List Op, ∃ e1, performAll bus fuel ops e = some e1 ∧
      e1.log = e.log ∧ e1._errnum = e._errnum) ∧
    (∀ (address size : Nat) (data : List Nat), (read_array bus e address data size).2 = data) ∧
    (∀ (address : Nat) (data : List Nat), (read_int8 bus e address data).2 = data) ∧
    (∀ data : List Nat, (read_current bus e data).2 = data) := by
  have h0 : e._errnum ≠ 0 := h
  refine ⟨perform_of_error bus fuel e h0, ?_, ?_, ?_, ?_⟩
  · intro ops
    exact ⟨e, performAll_of_error bus fuel e h0 ops, rfl, rfl⟩
  · intro address size data
    simp [read_array, h0]
  · intro address data
    simp [read_int8, h0]
  · intro data
    simp [read_current, h0]

theorem error_is_sticky_witness :
    (new () 9 .T24C02 : EEPROM Unit)._errnum = EEPROM_BadAddress ∧
    ((∀ op : Op, perform ackBus 1 (new () 9 .T24C02) op = some (new () 9 .T24C02)) ∧
    (∀ ops : List Op, ∃ e1, performAll ackBus 1 ops (new () 9 .T24C02) = some e1 ∧
      e1.log = (new () 9 .T24C02 : EEPROM Unit).log ∧
      e1._errnum = (new () 9 .T24C02 : EEPROM Unit)._errnum) ∧
    (∀ (address size : Nat) (data : List Nat),
      (read_array ackBus (new () 9 .T24C02) address data size).2 = data) ∧
    (∀ (address : Nat) (data : List Nat),
      (read_int8 ackBus (new () 9 .T24C02) address data).2 = data) ∧
    (∀ data : List Nat, (read_current ackBus (new () 9 .T24C02) data).2 = data)) :=
  ⟨by decide, error_is_sticky ackBus 1 (new () 9 .T24C02) (by decide)⟩

end EEPROM

/-! ## Byte-run write on an acknowledging bus -/

namespace EEPROM

variable {β : Type}

@[simp] theorem advance_address (bus : I2C β) (e : EEPROM β) (xs : List Txn) :
    (advance bus e xs)._address = e._address := rfl

@[simp] theorem advance_errnum (bus : I2C β) (e : EEPROM β) (xs : List Txn) :
    (advance bus e xs)._errnum = e._errnum := rfl

@[simp] theorem advance_type (bus : I2C β) (e : EEPROM β) (xs : List Txn) :
    (advance bus e xs)._type = e._type := rfl

@[simp] theorem advance_page_write (bus : I2C β) (e : EEPROM β) (xs : List Txn) :
    (advance bus e xs)._page_write = e._page_write := rfl

@[simp] theorem advance_page_number (bus : I2C β) (e : EEPROM β) (xs : List Txn) :
    (advance bus e xs)._page_number = e._page_number := rfl

@[simp] theorem advance_size (bus : I2C β) (e : EEPROM β) (xs : List Txn) :
    (advance bus e xs)._size = e._size := rfl

@[simp] theorem advance_log (bus : I2C β) (e : EEPROM β) (xs : List Txn) :
    (advance bus e xs).log = e.log ++ xs := rfl

@[simp] theorem advance_nil (bus : I2C β) (e : EEPROM β) : advance bus e [] = e := by
  simp [advance]

@[simp] theorem advance_advance (bus : I2C β) (e : EEPROM β) (xs ys : List Txn) :
    advance bus (advance bus e xs) ys = advance bus e (xs ++ ys) := by
  simp [advance, List.foldl_append]

@[simp] theorem advance_folded (bus : I2C β) (e : EEPROM β) (xs : List Txn) :
    (advance bus e xs).folded = e.folded := rfl

@[simp] theorem advance_devAddr (bus : I2C β) (e : EEPROM β) (xs : List Txn) (page : Nat) :
    (advance bus e xs).devAddr page = e.devAddr page := rfl

@[simp] theorem advance_wordAddr (bus : I2C β) (e : EEPROM β) (xs : List Txn)
    (page address : Nat) : (advance bus e xs).wordAddr page address = e.wordAddr page address :=
  rfl

@[simp] theorem advance_poll (bus : I2C β) (e : EEPROM β) (xs : List Txn) :
    (advance bus e xs).poll = e.poll := rfl

theorem send_ack (bus : I2C β) (hack : AlwaysAck bus) (fuel : Nat) (e : EEPROM β)
    (h : e._errnum = 0) (addr : Nat) (cmd : List Nat) :
    send bus (fuel + 1) e addr cmd =
      some (advance bus e [Txn.write addr cmd false, e.poll], true) := by
  simp [send, i2c_write, hack _ _ _ _, ready, readyLoop, h, advance, poll, busAfter]

theorem writeBloc_ack (bus : I2C β) (hack : AlwaysAck bus) (fuel : Nat) (data : Nat → Nat)
    (i : Nat) (e : EEPROM β) (h : e._errnum = 0) (address : Nat) :
    writeBloc bus (fuel + 1) data i e address =
      some (advance bus e (blocPlan e data i address).1, some (blocPlan e data i address).2) := by
  unfold writeBloc blocPlan
  split_ifs <;>
    simp [send_ack bus hack, h, xfer, fpartOf] at * <;> simp_all

theorem blocPlan_advance (bus : I2C β) (e : EEPROM β) (xs : List Txn) (data : Nat → Nat)
    (i address : Nat) : blocPlan (advance bus e xs) data i address = blocPlan e data i address :=
  rfl

theorem blocsPlan_advance (bus : I2C β) (e : EEPROM β) (xs : List Txn) (data : Nat → Nat)
    (n : Nat) : ∀ i address : Nat,
    blocsPlan (advance bus e xs) data n i address = blocsPlan e data n i address := by
  induction n with
  | zero => intro i address; rfl
  | succ n ih => intro i address; simp only [blocsPlan, blocPlan_advance, ih]

theorem remainPlan_advance (bus : I2C β) (e : EEPROM β) (xs : List Txn) (data : Nat → Nat)
    (blocs remain address : Nat) :
    remainPlan (advance bus e xs) data blocs remain address =
      remainPlan e data blocs remain address :=
  rfl

theorem writeBlocs_ack (bus : I2C β) (hack : AlwaysAck bus) (fuel : Nat) (data : Nat → Nat)
    (n : Nat) : ∀ (i : Nat) (e : EEPROM β), e._errnum = 0 → ∀ address : Nat,
    writeBlocs bus (fuel + 1) data n i e address =
      some (advance bus e (blocsPlan e data n i address).1,
        some (blocsPlan e data n i address).2) := by
  induction n with
  | zero => intro i e _ address; simp [writeBlocs, blocsPlan]
  | succ n ih =>
    intro i e h address
    simp [writeBlocs, writeBloc_ack bus hack fuel data i e h, ih, h, blocsPlan,
      blocsPlan_advance]

theorem writeRemain_ack (bus : I2C β) (hack : AlwaysAck bus) (fuel : Nat) (data : Nat → Nat)
    (blocs remain : Nat) (e : EEPROM β) (h : e._errnum = 0) (address : Nat) :
    writeRemain bus (fuel + 1) data blocs remain e address =
      some (advance bus e (remainPlan e data blocs remain address)) := by
  unfold writeRemain remainPlan
  split_ifs <;>
    simp [send_ack bus hack, h, xfer, fpartOf] at * <;> simp_all

/-- On an acknowledging bus a byte-run write that passes the checks of its arguments
returns, and issues the calls of `plan`. -/
theorem write_array_eq_plan (bus : I2C β) (hack : AlwaysAck bus) (fuel : Nat) (e : EEPROM β)
    (h : e._errnum = 0) (address : Nat) (data : Nat → Nat) (length : Nat)
    (h1 : e.checkAddress address = true)
    (h2 : e.checkAddress (sub32 (u32 (address + length)) 1) = true) :
    write_array bus (fuel + 1) e address data length =
      some (advance bus e (plan e address data length)) := by
  simp [write_array, h, h1, h2, writeBlocs_ack bus hack fuel data, writeRemain_ack bus hack fuel,
    plan, remainPlan_advance]

end EEPROM

/-! ## Configuration and arithmetic facts -/

namespace EEPROM

variable {β : Type}

theorem u8_of_lt {x : Nat} (h : x < 256) : u8 x = x := Nat.mod_eq_of_lt h

theorem u32_of_lt {x : Nat} (h : x < 2 ^ 32) : u32 x = x := Nat.mod_eq_of_lt h

theorem sub32_of_le {a b : Nat} (hb : b ≤ a) (ha : a < 2 ^ 32) : sub32 a b = a - b := by
  unfold sub32
  have h1 : a % 2 ^ 32 = a := Nat.mod_eq_of_lt ha
  have h2 : b % 2 ^ 32 = b := Nat.mod_eq_of_lt (by omega)
  rw [h1, h2]
  omega

theorem sub8_of_le {a b : Nat} (hb : b ≤ a) (ha : a < 256) : sub8 a b = a - b := by
  unfold sub8
  omega

theorem shl1_lt {x : Nat} (h : x ≤ 7) : x <<< 1 < 16 := by
  rw [Nat.shiftLeft_eq]; omega

/-- What the constructor fixes for a chip it accepts. -/
theorem WellFormed.config {e : EEPROM β} (h : e.WellFormed) :
    (e._page_write = 8 ∨ e._page_write = 16 ∨ e._page_write = 32 ∨ e._page_write = 64 ∨
      e._page_write = 128) ∧
    e._size % e._page_write = 0 ∧ e._size ≤ 131072 ∧ e._address < 16 ∧
    (e._size = if e._type = .T24C1025 then 131072 else e._type.val) ∧
    (e.folded = true → e._size ≤ e._page_number * 256 ∧ e._page_number ≤ 8 ∧
      e._page_write ≤ 16 ∧ 1 ≤ e._page_number) := by
  obtain ⟨cs, hcs, herr, ha, hpw, hpn, hsz⟩ := h
  rw [ha, hpw, hpn, hsz]
  simp only [folded]
  have hand1 : cs &&& 254 ≤ cs := Nat.and_le_left
  have hand2 : cs &&& 252 ≤ cs := Nat.and_le_left
  generalize e._type = t at *
  cases t <;>
    simp only [new, TypeEeprom.val, EEPROM_NoError, EEPROM_BadAddress, reduceCtorEq, if_false,
      if_true] at herr ⊢ <;>
    refine ⟨by decide, by decide, by decide, ?_, by decide, by decide⟩ <;>
    first
      | decide
      | (apply shl1_lt; split_ifs at herr <;> omega)

theorem WellFormed.checkAddress_iff {e : EEPROM β} (h : e.WellFormed) (a : Nat) :
    e.checkAddress a = true ↔ a < e._size := by
  rw [checkAddress_eq, h.config.2.2.2.2.1]
  simp

/-- The chip reads the block bits of the device byte back as the block that was folded in. -/
theorem WellFormed.block_bits {e : EEPROM β} (h : e.WellFormed) (hf : e.folded = true)
    (page : Nat) (hp : page < e._page_number) :
    (e.devAddr page >>> 1) &&& (e._page_number - 1) = page := by
  obtain ⟨cs, hcs, herr, ha, hpw, hpn, hsz⟩ := h
  unfold devAddr
  rw [ha]
  rw [hpn] at hp ⊢
  simp only [folded] at hf
  generalize e._type = t at *
  cases t <;>
    simp only [new, TypeEeprom.val, EEPROM_NoError, EEPROM_BadAddress, reduceCtorEq, if_false,
      if_true] at herr hf hp ⊢
  all_goals first
    | exact absurd hf (by decide)
    | (have hc : cs ≤ 7 := by split_ifs at herr <;> omega
       interval_cases cs <;> interval_cases page <;> decide)
    | (interval_cases page <;> decide)

/-- Without block folding the device byte is the base address and the chip-select bits. -/
theorem WellFormed.devAddr_zero {e : EEPROM β} (h : e.WellFormed) :
    e.devAddr 0 = EEPROM_Address ||| e._address := by
  have h16 := h.config.2.2.2.1
  unfold devAddr u8 EEPROM_Address
  have : e._address ∈ Finset.range 16 := Finset.mem_range.mpr h16
  generalize e._address = x at *
  revert x
  decide

theorem new_wellFormed (b : β) (cs : Nat) (t : TypeEeprom) (hcs : cs < 256)
    (h : (new b cs t)._errnum = EEPROM_NoError) : (new b cs t).WellFormed :=
  ⟨cs, hcs, h, rfl, rfl, rfl, rfl⟩

end EEPROM

/-! ## What the chip sees of a data write -/

namespace EEPROM

variable {β : Type}

@[simp] theorem fill_length (data : Nat → Nat) (base n : Nat) : (fill data base n).length = n := by
  simp [fill]

@[simp] theorem fill_zero (data : Nat → Nat) (base : Nat) : fill data base 0 = [] := rfl

theorem wordAddr_length (e : EEPROM β) (page a : Nat) :
    (e.wordAddr page a).length = e.addrBytes := by
  unfold wordAddr addrBytes
  split_ifs <;> rfl

@[simp] theorem payload_write (e : EEPROM β) (d page a : Nat) (bytes : List Nat) (r : Bool) :
    e.payload (Txn.write d (e.wordAddr page a ++ bytes) r) = bytes := by
  simp [payload, ← wordAddr_length e page a]

@[simp] theorem payload_poll (e : EEPROM β) : e.payload e.poll = [] := by
  simp [payload, poll]

theorem WellFormed.pageOf_lt {e : EEPROM β} (h : e.WellFormed) (hf : e.folded = true) (a : Nat)
    (ha : a < e._size) : e.pageOf a = a / 256 ∧ a / 256 < e._page_number ∧ a < 2048 := by
  obtain ⟨h1, h2, h3, h4⟩ := h.config.2.2.2.2.2 hf
  unfold pageOf u8
  rw [if_pos hf]
  omega

/-- The chip decodes the start address of a data write as the address the driver had,
taken modulo 65536 (the two word-address bytes hold no more). -/
theorem WellFormed.target_write {e : EEPROM β} (h : e.WellFormed) (a : Nat) (ha : a < e._size)
    (bytes : List Nat) (r : Bool) :
    e.target (Txn.write (e.devAddr (e.pageOf a)) (e.wordAddr (e.pageOf a) a ++ bytes) r) =
      a % 65536 := by
  by_cases hf : e.folded = true
  · obtain ⟨hp, hlt, h2048⟩ := h.pageOf_lt hf a ha
    simp only [target, hf, if_true, wordAddr, List.singleton_append, List.getD_cons_zero]
    rw [hp, h.block_bits hf _ hlt]
    unfold u8 sub32
    omega
  · have hf2 : e.folded = false := by simpa using hf
    simp only [target, hf2, wordAddr, List.cons_append, List.getD_cons_zero,
      List.getD_cons_succ, Bool.false_eq_true, if_false]
    unfold u8
    rw [Nat.shiftRight_eq_div_pow]
    omega

end EEPROM

/-! ## Byte-run write from a page-aligned address -/

namespace EEPROM

variable {β : Type}

@[simp] theorem payload_write_nil (e : EEPROM β) (d page a : Nat) (r : Bool) :
    e.payload (Txn.write d (e.wordAddr page a) r) = [] := by
  simpa using payload_write e d page a [] r

theorem WellFormed.inOnePage_of_pageAligned {e : EEPROM β} (h : e.WellFormed) (x : Txn)
    (hx : e.pageAligned x = true) : e.inOnePage x = true := by
  simp only [pageAligned, decide_eq_true_eq] at hx
  simp only [inOnePage, decide_eq_true_eq]
  intro h1
  rcases hx with hx | ⟨hx1, hx2⟩
  · omega
  · rcases h.config.1 with hp | hp | hp | hp | hp <;> rw [hp] at hx1 hx2 ⊢ <;> omega

theorem WellFormed.pageAligned_xfer {e : EEPROM β} (h : e.WellFormed) (page a : Nat)
    (bytes : List Nat)
    (hb : bytes = [] ∨ (page = e.pageOf a ∧ a < e._size ∧ a % e._page_write = 0 ∧
      bytes.length ≤ e._page_write)) :
    ∀ x ∈ e.xfer page a bytes, e.pageAligned x = true := by
  intro x hx
  simp only [xfer, List.mem_cons, List.mem_singleton, List.not_mem_nil, or_false] at hx
  rcases hx with rfl | rfl
  · rcases hb with rfl | ⟨rfl, ha, hal, hlen⟩
    · simp [pageAligned]
    · simp only [pageAligned, payload_write, h.target_write a ha, decide_eq_true_eq]
      right
      refine ⟨?_, hlen⟩
      rcases h.config.1 with hp | hp | hp | hp | hp <;> rw [hp] at hal ⊢ <;> omega
  · simp [pageAligned]

theorem WellFormed.blocPlan_aligned {e : EEPROM β} (h : e.WellFormed) (data : Nat → Nat)
    (i a : Nat) (hal : a % e._page_write = 0) (hle : a + e._page_write ≤ e._size) :
    (blocPlan e data i a).2 = a + e._page_write ∧
    ∀ x ∈ (blocPlan e data i a).1, e.pageAligned x = true := by
  obtain ⟨hpw, hsz, hsz2, ha16, hsize, hfold⟩ := h.config
  have hpos : 0 < e._page_write := by omega
  have halt : a < e._size := by omega
  have hfull : ∀ base, ∀ x ∈ e.xfer (e.pageOf a) a (fill data base e._page_write),
      e.pageAligned x = true := fun base =>
    h.pageAligned_xfer _ _ _ (Or.inr ⟨rfl, halt, hal, by simp⟩)
  unfold blocPlan
  by_cases hf : e.folded = true
  · obtain ⟨hp, hlt, h2048⟩ := h.pageOf_lt hf a halt
    obtain ⟨h1, h2, h3, h4⟩ := hfold hf
    rw [if_pos hf]
    have hfp : u8 (u32 (a + e._page_write) / 256) ≠ e.pageOf a → e.fpartOf a = e._page_write := by
      intro hne
      rw [hp] at hne
      unfold fpartOf
      rw [hp]
      unfold u8 u32 at hne
      unfold u8 sub32
      rcases hpw with hp | hp | hp | hp | hp <;> rw [hp] at hal hne h3 ⊢ <;> omega
    have hu : u32 (a + e._page_write) = a + e._page_write := u32_of_lt (by omega)
    split_ifs with hc hn
    · exact ⟨hu, hfull _⟩
    · have hfp2 := hfp hc
      have hs : sub8 e._page_write e._page_write = 0 := by unfold sub8; omega
      rw [hfp2, hs, hu]
      refine ⟨u32_of_lt (by omega), ?_⟩
      intro x hx
      rcases List.mem_append.mp hx with hx | hx
      · exact hfull _ x hx
      · exact h.pageAligned_xfer _ _ _ (Or.inl (by simp)) x hx
    · have hfp2 := hfp hc
      rw [hfp2]
      exact ⟨hu, hfull _⟩
  · rw [if_neg hf]
    exact ⟨u32_of_lt (by omega), hfull _⟩

theorem WellFormed.blocsPlan_aligned {e : EEPROM β} (h : e.WellFormed) (data : Nat → Nat)
    (n : Nat) : ∀ (i a : Nat), a % e._page_write = 0 → a + n * e._page_write ≤ e._size →
    (blocsPlan e data n i a).2 = a + n * e._page_write ∧
    ∀ x ∈ (blocsPlan e data n i a).1, e.pageAligned x = true := by
  induction n with
  | zero => intro i a _ _; simp [blocsPlan]
  | succ n ih =>
    intro i a hal hle
    have hexp : (n + 1) * e._page_write = n * e._page_write + e._page_write := by ring
    obtain ⟨hb1, hb2⟩ := h.blocPlan_aligned data i a hal (by omega)
    have hal2 : (a + e._page_write) % e._page_write = 0 := by
      rw [Nat.add_mod_right]; exact hal
    obtain ⟨hr1, hr2⟩ := ih (i + 1) (a + e._page_write) hal2 (by omega)
    simp only [blocsPlan, hb1]
    refine ⟨by rw [hr1]; omega, ?_⟩
    intro x hx
    rcases List.mem_append.mp hx with hx | hx
    · exact hb2 x hx
    · exact hr2 x hx

end EEPROM

namespace EEPROM

variable {β : Type}

/-- The truncated counters of the byte-run write: `blocs` full pages fit in `length`, and
`remain` is `length` modulo the page size (also when `blocs` lost its high bits). -/
theorem WellFormed.blocs_remain {e : EEPROM β} (h : e.WellFormed) (length : Nat)
    (hlen : length < 2 ^ 32) :
    u8 (length / e._page_write) * e._page_write ≤ length ∧
    u8 (sub32 length (u8 (length / e._page_write) * e._page_write)) = length % e._page_write := by
  unfold u8 sub32
  rcases h.config.1 with hp | hp | hp | hp | hp <;> rw [hp] <;> omega

theorem WellFormed.remainPlan_aligned {e : EEPROM β} (h : e.WellFormed) (data : Nat → Nat)
    (blocs r a : Nat) (hal : a % e._page_write = 0) (hr : r < e._page_write)
    (hle : a + r ≤ e._size) :
    ∀ x ∈ remainPlan e data blocs r a, e.pageAligned x = true := by
  obtain ⟨hpw, hsz, hsz2, ha16, hsize, hfold⟩ := h.config
  unfold remainPlan
  by_cases hr0 : r = 0
  · simp [hr0]
  · have halt : a < e._size := by omega
    have hone : ∀ x ∈ e.xfer (e.pageOf a) a (fill data (blocs * e._page_write) r),
        e.pageAligned x = true :=
      h.pageAligned_xfer _ _ _ (Or.inr ⟨rfl, halt, hal, by simp; omega⟩)
    rw [if_pos hr0]
    by_cases hf : e.folded = true
    · obtain ⟨hp, hlt, h2048⟩ := h.pageOf_lt hf a halt
      obtain ⟨h1, h2, h3, h4⟩ := hfold hf
      have hc : u8 (u32 (a + r) / 256) = e.pageOf a := by
        rw [hp]
        unfold u8 u32
        rcases hpw with hp | hp | hp | hp | hp <;> rw [hp] at hal hr h3 <;> omega
      rw [if_pos hf, if_pos hc]
      exact hone
    · rw [if_neg hf]
      exact hone

/-- The calls of an in-range byte-run write from a page-aligned address. -/
theorem WellFormed.plan_aligned {e : EEPROM β} (h : e.WellFormed) (data : Nat → Nat)
    (address length : Nat) (hal : address % e._page_write = 0)
    (hle : address + length ≤ e._size) :
    ∀ x ∈ plan e address data length, e.pageAligned x = true := by
  obtain ⟨hpw, hsz, hsz2, ha16, hsize, hfold⟩ := h.config
  have hlen : length < 2 ^ 32 := by omega
  obtain ⟨hb, hrem⟩ := h.blocs_remain length hlen
  have hpos : 0 < e._page_write := by omega
  have hmod : length % e._page_write < e._page_write := Nat.mod_lt _ hpos
  obtain ⟨hn, hxs⟩ := h.blocsPlan_aligned data (u8 (length / e._page_write)) 0 address hal
    (by omega)
  have hmul : (length / e._page_write) * e._page_write + length % e._page_write = length := by
    rw [Nat.mul_comm]; exact Nat.div_add_mod _ _
  have hu : u8 (length / e._page_write) ≤ length / e._page_write := by
    unfold u8; exact Nat.mod_le _ _
  have hle2 : u8 (length / e._page_write) * e._page_write ≤
      (length / e._page_write) * e._page_write := Nat.mul_le_mul_right _ hu
  intro x hx
  unfold plan at hx
  rw [hrem, hn] at hx
  rcases List.mem_append.mp hx with hx | hx
  · exact hxs x hx
  · refine h.remainPlan_aligned data _ _ _ ?_ hmod (by omega) x hx
    rw [Nat.add_mul_mod_self_right]
    exact hal

/-- A byte-run write whose range lies in the chip passes the checks of its arguments,
unless it is the empty run at address 0. -/
theorem WellFormed.write_array_in_range {e : EEPROM β} (h : e.WellFormed) (bus : I2C β)
    (hack : AlwaysAck bus) (fuel : Nat) (herr : e._errnum = 0) (address : Nat)
    (data : Nat → Nat) (length : Nat) (ha : e.checkAddress address = true)
    (hle : address + length ≤ e._size) :
    write_array bus (fuel + 1) e address data length =
        some (advance bus e (plan e address data length)) ∨
    (length = 0 ∧
      write_array bus (fuel + 1) e address data length =
        some { e with _errnum := EEPROM_OutOfRange }) := by
  obtain ⟨hpw, hsz, hsz2, ha16, hsize, hfold⟩ := h.config
  have halt : address < e._size := (h.checkAddress_iff address).mp ha
  by_cases h0 : address + length = 0
  · right
    have hl0 : length = 0 := by omega
    have ha0 : address = 0 := by omega
    refine ⟨hl0, ?_⟩
    have hbad : e.checkAddress (sub32 (u32 (address + length)) 1) = false := by
      rw [Bool.eq_false_iff]
      intro hc
      have := (h.checkAddress_iff _).mp hc
      rw [hl0, ha0] at this
      unfold sub32 u32 at this
      omega
    simp [write_array, herr, ha, hbad]
  · left
    apply write_array_eq_plan bus hack fuel e herr address data length ha
    rw [h.checkAddress_iff]
    unfold sub32 u32
    omega

end EEPROM

/-! ## Short byte-run write over a block boundary -/

namespace EEPROM

variable {β : Type}

theorem isData_write (d : Nat) (cmd : List Nat) (r : Bool) (h : cmd ≠ []) :
    (Txn.write d cmd r).isData = true := by
  cases cmd with
  | nil => exact absurd rfl h
  | cons a as => rfl

theorem wordAddr_ne_nil (e : EEPROM β) (page a : Nat) : e.wordAddr page a ≠ [] := by
  unfold wordAddr
  split_ifs <;> simp

/-- The data writes of a data write and its poll: the data write. -/
theorem chunks_xfer (e : EEPROM β) (page a : Nat) (bytes : List Nat) (rest : List Txn) :
    e.chunks (e.xfer page a bytes ++ rest) =
      (e.target (Txn.write (e.devAddr page) (e.wordAddr page a ++ bytes) false), bytes) ::
        e.chunks rest := by
  have h1 : (Txn.write (e.devAddr page) (e.wordAddr page a ++ bytes) false).isData = true :=
    isData_write _ _ _ (by simp [wordAddr_ne_nil])
  have h2 : e.poll.isData = false := rfl
  simp [chunks, dataWrites, xfer, List.filter_cons, h1, h2]

@[simp] theorem chunks_nil (e : EEPROM β) : e.chunks [] = [] := rfl

end EEPROM

/-! ## Byte-run writes that the truncated counters and the wrapped check get wrong -/

namespace EEPROM

variable {β : Type}

/-- C3, failing input: on a 24C64 (8192 bytes, pages of 32 bytes) the byte-run write of the
whole chip, address 0 and length 8192, passes both range checks, computes
`blocs = (uint8_t) 256 = 0` and `remain = 0`, and returns without any bus call and without
an error: none of the 8192 input bytes is sent. -/
theorem write_array_whole_24C64_sends_nothing (bus : I2C β) (fuel : Nat) (b : β)
    (data : Nat → Nat) :
    (new b 0 .T24C64).checkAddress 0 = true ∧
    (new b 0 .T24C64).checkAddress (0 + 8192 - 1) = true ∧
    u8 (8192 / (new b 0 .T24C64)._page_write) = 0 ∧
    write_array bus fuel (new b 0 .T24C64) 0 data 8192 = some (new b 0 .T24C64) ∧
    (new b 0 .T24C64)._errnum = EEPROM_NoError ∧ (new b 0 .T24C64).log = [] := by
  have h1 : (new b 0 .T24C64).checkAddress 0 = true := by
    simp [checkAddress_eq, new_type, TypeEeprom.val]
  have h2 : (new b 0 .T24C64).checkAddress (sub32 (u32 8192) 1) = true := by
    simp [checkAddress_eq, new_type, sub32, u32, TypeEeprom.val]
  have h3 : (new b 0 .T24C64)._errnum = 0 := rfl
  have h4 : (new b 0 .T24C64)._page_write = 32 := rfl
  have h5 : u8 (8192 / 32) = 0 := by decide
  have h6 : u8 (sub32 8192 (0 * 32)) = 0 := by decide
  refine ⟨h1, ?_, ?_, ?_, rfl, rfl⟩
  · simp [checkAddress_eq, new_type, TypeEeprom.val]
  · rw [h4]; exact h5
  · simp only [write_array, h3, h1, h2, h4, h5, h6, Nat.zero_add, ne_eq, not_true_eq_false,
      if_false, Bool.not_true, Bool.false_eq_true, writeBlocs, writeRemain]

set_option maxRecDepth 100000 in
/-- C4, failing input: on a 24C08 (pages of 16 bytes) the in-range write of 266 bytes at
address 250, with `data[k] = k / 256`, crosses the block boundary 512 in the remainder step;
the index `ind = blocs * _page_write + fpart = 262` is stored in a `uint8_t` and becomes 6,
so the last data write, at address 512, carries `data[6 .. 10) = 0,0,0,0` instead of
`data[262 .. 266) = 1,1,1,1`, and the data bytes sent are not the input bytes. -/
theorem write_array_24C08_second_block_wrong_bytes :
    (new () 0 .T24C08 : EEPROM Unit).checkAddress 250 = true ∧
    (new () 0 .T24C08 : EEPROM Unit).checkAddress (250 + 266 - 1) = true ∧
    (write_array ackBus 1 (new () 0 .T24C08) 250 (fun k => k / 256) 266).map
        (fun e1 => e1._errnum) = some EEPROM_NoError ∧
    (write_array ackBus 1 (new () 0 .T24C08) 250 (fun k => k / 256) 266).map
        (fun e1 => ((new () 0 .T24C08 : EEPROM Unit).chunks e1.log).getLast?) =
      some (some (512, [0, 0, 0, 0])) ∧
    (List.range 4).map (fun j => (fun k => k / 256) (262 + j)) = [1, 1, 1, 1] ∧
    (write_array ackBus 1 (new () 0 .T24C08) 250 (fun k => k / 256) 266).map
        (fun e1 => (((new () 0 .T24C08 : EEPROM Unit).chunks e1.log).map Prod.snd).flatten) ≠
      some ((List.range 266).map (fun k => k / 256)) := by
  decide

/-- C5, failing input: on a 24C64 the write at address 8161 of length 4294959136
(`= 2^32 - 8160`) ends, over the integers, at 8161 + 4294959136 - 1 = 4294967296, which is
no valid address; the check computes `address + length - 1` in `uint32_t`, gets 0, and
lets the write pass: the driver sends a data write of 32 bytes at 8161 and reports no
error. -/
theorem write_array_wrapped_length_passes_check :
    (new () 0 .T24C64 : EEPROM Unit).checkAddress (8161 + 4294959136 - 1) = false ∧
    4294959136 < 2 ^ 32 ∧
    sub32 (u32 (8161 + 4294959136)) 1 = 0 ∧
    (write_array ackBus 1 (new () 0 .T24C64) 8161 (fun _ => 0) 4294959136).map
        (fun e1 => (e1._errnum, e1.log)) =
      some (EEPROM_NoError,
        [Txn.write 160 (31 :: 225 :: List.replicate 32 0) false, Txn.write 160 [] false]) := by
  decide

end EEPROM

/-! ## Device byte and word address -/

namespace EEPROM

variable {β : Type}

theorem readyLoop_log (bus : I2C β) (fuel : Nat) : ∀ (e e1 : EEPROM β),
    readyLoop bus fuel e = some e1 → ∃ rest, e1.log = e.log ++ rest := by
  induction fuel with
  | zero => intro e e1 h; simp [readyLoop] at h
  | succ n ih =>
    intro e e1 h
    unfold readyLoop at h
    split_ifs at h with hc
    · obtain ⟨rest, hr⟩ := ih _ _ h
      exact ⟨Txn.write (u8 (EEPROM_Address ||| e._address)) [] false :: rest, by
        rw [hr]; simp [i2c_write]⟩
    · cases h
      exact ⟨[Txn.write (u8 (EEPROM_Address ||| e._address)) [] false], rfl⟩

theorem send_log (bus : I2C β) (fuel : Nat) (e : EEPROM β) (addr : Nat) (cmd : List Nat)
    (r : EEPROM β × Bool) (h : send bus fuel e addr cmd = some r) :
    ∃ rest, r.1.log = e.log ++ Txn.write addr cmd false :: rest := by
  unfold send at h
  split_ifs at h with hc
  · cases h
    exact ⟨[], by simp [i2c_write]⟩
  · unfold ready at h
    split_ifs at h with he
    · cases h
      exact ⟨[], by simp [i2c_write]⟩
    · cases hl : readyLoop bus fuel (i2c_write bus e addr cmd false).1 with
      | none => rw [hl] at h; simp at h
      | some e2 =>
        rw [hl] at h
        cases h
        obtain ⟨rest, hr⟩ := readyLoop_log bus fuel _ _ hl
        exact ⟨rest, by rw [hr]; simp [i2c_write]⟩

/-- The first bus call of a byte write at a valid address is the data write. -/
theorem write_int8_log (bus : I2C β) (fuel : Nat) (e : EEPROM β) (herr : e._errnum = 0)
    (address data : Nat) (ha : e.checkAddress address = true) (e1 : EEPROM β)
    (h : write_int8 bus fuel e address data = some e1) :
    ∃ rest, e1.log = e.log ++
      Txn.write (e.devAddr (e.pageOf address))
        (e.wordAddr (e.pageOf address) address ++ [u8 data]) false :: rest := by
  simp only [write_int8, herr, ne_eq, not_true_eq_false, if_false, ha, Bool.not_true,
    Bool.false_eq_true] at h
  cases hs : send bus fuel e (e.devAddr (e.pageOf address))
      (e.wordAddr (e.pageOf address) address ++ [u8 data]) with
  | none => rw [hs] at h; simp at h
  | some r =>
    rw [hs] at h
    cases h
    exact send_log bus fuel e _ _ r hs

/-- On an acknowledging bus a byte write at a valid address is the data write and one poll. -/
theorem write_int8_ack (bus : I2C β) (hack : AlwaysAck bus) (fuel : Nat) (e : EEPROM β)
    (herr : e._errnum = 0) (address data : Nat) (ha : e.checkAddress address = true) :
    write_int8 bus (fuel + 1) e address data =
      some (advance bus e (e.xfer (e.pageOf address) address [u8 data])) := by
  simp [write_int8, herr, ha, send_ack bus hack, xfer]

/-- The bus calls of an addressed read whose arguments pass the checks: the write of the
word address with the bus kept open and, when it is acknowledged, one read. -/
theorem read_array_log (bus : I2C β) (e : EEPROM β) (herr : e._errnum = 0)
    (address size : Nat) (data : List Nat) (ha : e.checkAddress address = true)
    (hl : e.checkAddress (sub32 (u32 (address + size)) 1) = true) :
    (read_array bus e address data size).1.log = e.log ++
      Txn.write (e.devAddr (e.pageOf address)) (e.wordAddr (e.pageOf address) address) true ::
        (if (bus.write e._i2c (e.devAddr (e.pageOf address))
              (e.wordAddr (e.pageOf address) address) true).2 = 0
          then [Txn.read (e.devAddr (e.pageOf address)) size] else []) := by
  simp only [read_array, herr, ne_eq, not_true_eq_false, if_false, ha, hl, Bool.not_true,
    Bool.false_eq_true]
  by_cases hc : (bus.write e._i2c (e.devAddr (e.pageOf address))
      (e.wordAddr (e.pageOf address) address) true).2 = 0
  · simp only [i2c_write, hc, not_true_eq_false, if_false, if_true]
    split_ifs <;> simp [i2c_read]
  · simp [i2c_write, hc]

theorem read_int8_log (bus : I2C β) (e : EEPROM β) (herr : e._errnum = 0)
    (address : Nat) (data : List Nat) (ha : e.checkAddress address = true) :
    (read_int8 bus e address data).1.log = e.log ++
      Txn.write (e.devAddr (e.pageOf address)) (e.wordAddr (e.pageOf address) address) true ::
        (if (bus.write e._i2c (e.devAddr (e.pageOf address))
              (e.wordAddr (e.pageOf address) address) true).2 = 0
          then [Txn.read (e.devAddr (e.pageOf address)) 1] else []) := by
  simp only [read_int8, herr, ne_eq, not_true_eq_false, if_false, ha, Bool.not_true,
    Bool.false_eq_true]
  by_cases hc : (bus.write e._i2c (e.devAddr (e.pageOf address))
      (e.wordAddr (e.pageOf address) address) true).2 = 0
  · simp only [i2c_write, hc, not_true_eq_false, if_false, if_true]
    split_ifs <;> simp [i2c_read]
  · simp [i2c_write, hc]

theorem WellFormed.poll_eq {e : EEPROM β} (h : e.WellFormed) :
    e.poll = Txn.write (EEPROM_Address ||| e._address) [] false := by
  have h16 := h.config.2.2.2.1
  unfold poll u8 EEPROM_Address
  have : e._address ∈ Finset.range 16 := Finset.mem_range.mpr h16
  generalize e._address = x at *
  revert x
  decide

/-- The device byte of a chip with one word-address byte: base address, chip-select bits
and the block number shifted by one. -/
theorem WellFormed.devAddr_folded {e : EEPROM β} (h : e.WellFormed) (hf : e.folded = true)
    (a : Nat) (ha : a < e._size) :
    e.pageOf a = a / 256 ∧
    e.devAddr (e.pageOf a) = EEPROM_Address ||| e._address ||| ((a / 256) <<< 1) ∧
    e.wordAddr (e.pageOf a) a = [a % 256] := by
  obtain ⟨hp, hlt, h2048⟩ := h.pageOf_lt hf a ha
  have h16 := h.config.2.2.2.1
  obtain ⟨h1, h2, h3, h4⟩ := h.config.2.2.2.2.2 hf
  refine ⟨hp, ?_, ?_⟩
  · rw [hp]
    unfold devAddr u8
    apply Nat.mod_eq_of_lt
    have hx : EEPROM_Address ||| e._address < 2 ^ 8 :=
      Nat.or_lt_two_pow (by decide) (by omega)
    have hy : (a / 256) <<< 1 < 2 ^ 8 := by
      rw [Nat.shiftLeft_eq]; omega
    exact Nat.or_lt_two_pow hx hy
  · rw [hp]
    simp only [wordAddr, hf, if_true]
    unfold u8 sub32
    congr 1
    omega

/-- The device byte and the word address of a chip with two word-address bytes. -/
theorem WellFormed.devAddr_wide {e : EEPROM β} (h : e.WellFormed) (hf : e.folded = false)
    (a : Nat) :
    e.pageOf a = 0 ∧ e.devAddr (e.pageOf a) = EEPROM_Address ||| e._address ∧
    e.wordAddr (e.pageOf a) a = [(a / 256) % 256, a % 256] := by
  have hp : e.pageOf a = 0 := by simp [pageOf, hf]
  refine ⟨hp, ?_, ?_⟩
  · rw [hp]; exact h.devAddr_zero
  · simp [wordAddr, hf, u8, Nat.shiftRight_eq_div_pow]

end EEPROM

namespace EEPROM

variable {β : Type}

theorem WellFormed.xfer_wide_dev {e : EEPROM β} (h : e.WellFormed) (hf : e.folded = false)
    (a : Nat) (bytes : List Nat) :
    ∀ x ∈ e.xfer (e.pageOf a) a bytes,
      ∃ cmd, x = Txn.write (EEPROM_Address ||| e._address) cmd false := by
  intro x hx
  simp only [xfer, List.mem_cons, List.mem_singleton, List.not_mem_nil, or_false] at hx
  rcases hx with rfl | rfl
  · exact ⟨_, by rw [(h.devAddr_wide hf a).2.1]⟩
  · exact ⟨[], h.poll_eq⟩

theorem blocPlan_wide (e : EEPROM β) (hf : e.folded = false) (data : Nat → Nat) (i a : Nat) :
    blocPlan e data i a =
      (e.xfer (e.pageOf a) a (fill data (i * e._page_write) e._page_write),
       u32 (a + e._page_write)) := by
  simp [blocPlan, hf]

/-- The calls of the loop over the blocs on a chip with two word-address bytes: one data
write of a full page per pass, each `_page_write` bytes after the one before. -/
theorem WellFormed.blocsPlan_wide {e : EEPROM β} (h : e.WellFormed) (hf : e.folded = false)
    (data : Nat → Nat) (n : Nat) : ∀ (i a : Nat) (rest : List Txn),
    a + n * e._page_write ≤ e._size →
    (blocsPlan e data n i a).2 = a + n * e._page_write ∧
    (∀ x ∈ (blocsPlan e data n i a).1,
      ∃ cmd, x = Txn.write (EEPROM_Address ||| e._address) cmd false) ∧
    e.chunks ((blocsPlan e data n i a).1 ++ rest) =
      (List.range n).map (fun k => ((a + k * e._page_write) % 65536,
        fill data ((i + k) * e._page_write) e._page_write)) ++ e.chunks rest := by
  obtain ⟨hpw, hsz, hsz2, ha16, hsize, hfold⟩ := h.config
  have hpos : 0 < e._page_write := by omega
  induction n with
  | zero => intro i a rest _; simp [blocsPlan]
  | succ n ih =>
    intro i a rest hle
    have hexp : (n + 1) * e._page_write = n * e._page_write + e._page_write := by ring
    have halt : a < e._size := by omega
    have hu : u32 (a + e._page_write) = a + e._page_write := u32_of_lt (by omega)
    obtain ⟨ih1, ih2, ih3⟩ := ih (i + 1) (a + e._page_write) rest (by omega)
    simp only [blocsPlan, blocPlan_wide e hf, hu]
    refine ⟨by rw [ih1]; omega, ?_, ?_⟩
    · intro x hx
      rcases List.mem_append.mp hx with hx | hx
      · exact h.xfer_wide_dev hf a _ x hx
      · exact ih2 x hx
    · rw [List.append_assoc, chunks_xfer, h.target_write a halt, ih3,
        List.range_succ_eq_map, List.map_cons, List.map_map, List.cons_append]
      congr 2
      · simp
      · apply List.map_congr_left
        intro k _
        simp only [Function.comp, Nat.succ_eq_add_one]
        have e1 : a + e._page_write + k * e._page_write = a + (k + 1) * e._page_write := by ring
        have e2 : i + 1 + k = i + (k + 1) := by ring
        rw [e1, e2]

theorem remainPlan_wide (e : EEPROM β) (hf : e.folded = false) (data : Nat → Nat)
    (blocs r a : Nat) :
    remainPlan e data blocs r a =
      if r = 0 then [] else e.xfer (e.pageOf a) a (fill data (blocs * e._page_write) r) := by
  unfold remainPlan
  by_cases h0 : r = 0
  · simp [h0]
  · simp [h0, hf]

/-- The data writes of an in-range byte-run write on a chip with two word-address bytes. -/
theorem WellFormed.plan_wide {e : EEPROM β} (h : e.WellFormed) (hf : e.folded = false)
    (data : Nat → Nat) (address length : Nat) (hle : address + length ≤ e._size) :
    (∀ x ∈ plan e address data length,
      ∃ cmd, x = Txn.write (EEPROM_Address ||| e._address) cmd false) ∧
    e.chunks (plan e address data length) =
      (List.range (u8 (length / e._page_write))).map (fun k =>
        ((address + k * e._page_write) % 65536,
          fill data (k * e._page_write) e._page_write)) ++
      (if length % e._page_write = 0 then []
       else [((address + u8 (length / e._page_write) * e._page_write) % 65536,
          fill data (u8 (length / e._page_write) * e._page_write) (length % e._page_write))]) := by
  obtain ⟨hpw, hsz, hsz2, ha16, hsize, hfold⟩ := h.config
  have hlen : length < 2 ^ 32 := by omega
  obtain ⟨hb, hrem⟩ := h.blocs_remain length hlen
  have hpos : 0 < e._page_write := by omega
  have hmod : length % e._page_write < e._page_write := Nat.mod_lt _ hpos
  have hmul : (length / e._page_write) * e._page_write + length % e._page_write = length := by
    rw [Nat.mul_comm]; exact Nat.div_add_mod _ _
  have hu : u8 (length / e._page_write) ≤ length / e._page_write := by
    unfold u8; exact Nat.mod_le _ _
  have hle2 : u8 (length / e._page_write) * e._page_write ≤
      (length / e._page_write) * e._page_write := Nat.mul_le_mul_right _ hu
  obtain ⟨hn, hdev, hch⟩ := h.blocsPlan_wide hf data (u8 (length / e._page_write)) 0 address
    (remainPlan e data (u8 (length / e._page_write)) (length % e._page_write)
      (address + u8 (length / e._page_write) * e._page_write)) (by omega)
  unfold plan
  rw [hrem, hn]
  constructor
  · intro x hx
    rcases List.mem_append.mp hx with hx | hx
    · exact hdev x hx
    · rw [remainPlan_wide e hf] at hx
      split_ifs at hx with h0
      · simp at hx
      · exact h.xfer_wide_dev hf _ _ x hx
  · rw [hch]
    simp only [Nat.zero_add]
    congr 1
    rw [remainPlan_wide e hf]
    by_cases h0 : length % e._page_write = 0
    · simp [h0]
    · have hx := chunks_xfer e
        (e.pageOf (address + u8 (length / e._page_write) * e._page_write))
        (address + u8 (length / e._page_write) * e._page_write)
        (fill data (u8 (length / e._page_write) * e._page_write) (length % e._page_write)) []
      rw [List.append_nil] at hx
      rw [if_neg h0, if_neg h0, hx, h.target_write _ (by omega)]
      rfl

end EEPROM

namespace EEPROM

variable {β : Type}

/-- C9, amended: for a chip with two word-address bytes (capacity 4096 or more), an
error-free driver and a valid address below 65536, the byte write and the addressed reads
present the device byte `EEPROM_Address | _address` (0xA0 and the chip-select bits,
whatever the address) and send the word address as the two bytes `address / 256` and
`address % 256`, most significant first; the byte-run write whose range ends at or below
65536 sends every call to that device byte, and its data writes start, by their two
word-address bytes `hi * 256 + lo`, at `address`, `address + _page_write`, and so on. -/
theorem wide_device_byte_and_word_address (bus : I2C β) (fuel : Nat) (e : EEPROM β)
    (hwf : e.WellFormed) (herr : e._errnum = EEPROM_NoError) (hw : 4096 ≤ e._type.val)
    (address : Nat) (ha : e.checkAddress address = true) (h64 : address < 65536)
    (data : Nat) (buf : List Nat) :
    (∀ (d hi lo : Nat) (rest : List Nat) (r : Bool),
      e.target (Txn.write d (hi :: lo :: rest) r) = hi * 256 + lo) ∧
    (address / 256 < 256 ∧ address / 256 * 256 + address % 256 = address) ∧
    (∀ e1, write_int8 bus fuel e address data = some e1 →
      ∃ rest, e1.log = e.log ++
        Txn.write (EEPROM_Address ||| e._address)
          [address / 256, address % 256, u8 data] false :: rest) ∧
    (AlwaysAck bus → ∃ e1, write_int8 bus (fuel + 1) e address data = some e1 ∧
      e1._errnum = EEPROM_NoError ∧
      e1.log = e.log ++
        [Txn.write (EEPROM_Address ||| e._address) [address / 256, address % 256, u8 data] false,
         Txn.write (EEPROM_Address ||| e._address) [] false]) ∧
    ((read_int8 bus e address buf).1.log = e.log ++
      Txn.write (EEPROM_Address ||| e._address) [address / 256, address % 256] true ::
        (if (bus.write e._i2c (EEPROM_Address ||| e._address)
              [address / 256, address % 256] true).2 = 0
          then [Txn.read (EEPROM_Address ||| e._address) 1] else [])) ∧
    (∀ size : Nat, e.checkAddress (sub32 (u32 (address + size)) 1) = true →
      (read_array bus e address buf size).1.log = e.log ++
        Txn.write (EEPROM_Address ||| e._address) [address / 256, address % 256] true ::
          (if (bus.write e._i2c (EEPROM_Address ||| e._address)
                [address / 256, address % 256] true).2 = 0
            then [Txn.read (EEPROM_Address ||| e._address) size] else [])) ∧
    (∀ (bytes : Nat → Nat) (length : Nat), AlwaysAck bus → address + length ≤ e.getSize →
      address + length ≤ 65536 →
      ∃ e1 txns, write_array bus (fuel + 1) e address bytes length = some e1 ∧
        e1.log = e.log ++ txns ∧
        (∀ x ∈ txns, ∃ cmd, x = Txn.write (EEPROM_Address ||| e._address) cmd false) ∧
        e.chunks txns =
          (List.range (u8 (length / e._page_write))).map (fun k =>
            (address + k * e._page_write, fill bytes (k * e._page_write) e._page_write)) ++
          (if length % e._page_write = 0 then []
           else [(address + u8 (length / e._page_write) * e._page_write,
              fill bytes (u8 (length / e._page_write) * e._page_write)
                (length % e._page_write))])) := by
  have hf : e.folded = false := by
    have h32 : TypeEeprom.T24C32.val = 4096 := rfl
    simp only [folded, h32, decide_eq_false_iff_not]; omega
  have herr0 : e._errnum = 0 := herr
  obtain ⟨hp, hd, hwa⟩ := hwf.devAddr_wide hf address
  have hhi : address / 256 % 256 = address / 256 := Nat.mod_eq_of_lt (by omega)
  rw [hhi] at hwa
  refine ⟨?_, ⟨by omega, by omega⟩, ?_, ?_, ?_, ?_, ?_⟩
  · intro d hi lo rest r
    simp [target, hf]
  · intro e1 h1
    have := write_int8_log bus fuel e herr0 address data ha e1 h1
    rwa [hd, hwa] at this
  · intro hack
    refine ⟨_, write_int8_ack bus hack fuel e herr0 address data ha, herr, ?_⟩
    simp [xfer, hd, hwa, hwf.poll_eq]
  · have := read_int8_log bus e herr0 address buf ha
    rwa [hd, hwa] at this
  · intro size hl
    have := read_array_log bus e herr0 address size buf ha hl
    rwa [hd, hwa] at this
  · intro bytes length hack hle h65
    obtain ⟨hdev, hch⟩ := hwf.plan_wide hf bytes address length hle
    obtain ⟨hpw, -, -, -, -, -⟩ := hwf.config
    have hlen : length < 2 ^ 32 := by omega
    obtain ⟨hb, -⟩ := hwf.blocs_remain length hlen
    have hpos : 0 < e._page_write := by omega
    have hchunks : e.chunks (plan e address bytes length) =
        (List.range (u8 (length / e._page_write))).map (fun k =>
          (address + k * e._page_write, fill bytes (k * e._page_write) e._page_write)) ++
        (if length % e._page_write = 0 then []
         else [(address + u8 (length / e._page_write) * e._page_write,
            fill bytes (u8 (length / e._page_write) * e._page_write)
              (length % e._page_write))]) := by
      rw [hch]
      congr 1
      · apply List.map_congr_left
        intro k hk
        have hk2 : k + 1 ≤ u8 (length / e._page_write) := by
          have := List.mem_range.mp hk; omega
        have hk3 : (k + 1) * e._page_write ≤ u8 (length / e._page_write) * e._page_write :=
          Nat.mul_le_mul_right _ hk2
        have hk4 : (k + 1) * e._page_write = k * e._page_write + e._page_write := by ring
        rw [Nat.mod_eq_of_lt (by omega)]
      · split_ifs with h0
        · rfl
        · have hr : 0 < length % e._page_write := Nat.pos_of_ne_zero h0
          have hmul : (length / e._page_write) * e._page_write + length % e._page_write =
              length := by
            rw [Nat.mul_comm]; exact Nat.div_add_mod _ _
          have hu : u8 (length / e._page_write) ≤ length / e._page_write := by
            unfold u8; exact Nat.mod_le _ _
          have hle2 : u8 (length / e._page_write) * e._page_write ≤
              (length / e._page_write) * e._page_write := Nat.mul_le_mul_right _ hu
          rw [Nat.mod_eq_of_lt (by omega)]
    rcases hwf.write_array_in_range bus hack fuel herr0 address bytes length ha hle with
      hwr | ⟨h0, hwr⟩
    · exact ⟨_, plan e address bytes length, hwr, rfl, hdev, hchunks⟩
    · refine ⟨_, [], hwr, by simp, by simp, ?_⟩
      subst h0
      simp [u8]

theorem wide_device_byte_and_word_address_witness :
    (∀ (d hi lo : Nat) (rest : List Nat) (r : Bool),
      (new () 1 .T24C256 : EEPROM Unit).target (Txn.write d (hi :: lo :: rest) r) =
        hi * 256 + lo) ∧
    (300 / 256 < 256 ∧ 300 / 256 * 256 + 300 % 256 = 300) ∧
    (∀ e1, write_int8 ackBus 0 (new () 1 .T24C256) 300 7 = some e1 →
      ∃ rest, e1.log = (new () 1 .T24C256 : EEPROM Unit).log ++
        Txn.write (EEPROM_Address ||| (new () 1 .T24C256 : EEPROM Unit)._address)
          [300 / 256, 300 % 256, u8 7] false :: rest) ∧
    (AlwaysAck ackBus → ∃ e1, write_int8 ackBus (0 + 1) (new () 1 .T24C256) 300 7 = some e1 ∧
      e1._errnum = EEPROM_NoError ∧
      e1.log = (new () 1 .T24C256 : EEPROM Unit).log ++
        [Txn.write (EEPROM_Address ||| (new () 1 .T24C256 : EEPROM Unit)._address)
           [300 / 256, 300 % 256, u8 7] false,
         Txn.write (EEPROM_Address ||| (new () 1 .T24C256 : EEPROM Unit)._address) [] false]) ∧
    ((read_int8 ackBus (new () 1 .T24C256) 300 []).1.log =
      (new () 1 .T24C256 : EEPROM Unit).log ++
      Txn.write (EEPROM_Address ||| (new () 1 .T24C256 : EEPROM Unit)._address)
          [300 / 256, 300 % 256] true ::
        (if (ackBus.write (new () 1 .T24C256 : EEPROM Unit)._i2c
              (EEPROM_Address ||| (new () 1 .T24C256 : EEPROM Unit)._address)
              [300 / 256, 300 % 256] true).2 = 0
          then [Txn.read (EEPROM_Address ||| (new () 1 .T24C256 : EEPROM Unit)._address) 1]
          else [])) ∧
    (∀ size : Nat,
      (new () 1 .T24C256 : EEPROM Unit).checkAddress (sub32 (u32 (300 + size)) 1) = true →
      (read_array ackBus (new () 1 .T24C256) 300 [] size).1.log =
        (new () 1 .T24C256 : EEPROM Unit).log ++
        Txn.write (EEPROM_Address ||| (new () 1 .T24C256 : EEPROM Unit)._address)
            [300 / 256, 300 % 256] true ::
          (if (ackBus.write (new () 1 .T24C256 : EEPROM Unit)._i2c
                (EEPROM_Address ||| (new () 1 .T24C256 : EEPROM Unit)._address)
                [300 / 256, 300 % 256] true).2 = 0
            then [Txn.read (EEPROM_Address ||| (new () 1 .T24C256 : EEPROM Unit)._address) size]
            else [])) ∧
    (∀ (bytes : Nat → Nat) (length : Nat), AlwaysAck ackBus →
      300 + length ≤ (new () 1 .T24C256 : EEPROM Unit).getSize →
      300 + length ≤ 65536 →
      ∃ e1 txns, write_array ackBus (0 + 1) (new () 1 .T24C256) 300 bytes length = some e1 ∧
        e1.log = (new () 1 .T24C256 : EEPROM Unit).log ++ txns ∧
        (∀ x ∈ txns, ∃ cmd,
          x = Txn.write (EEPROM_Address ||| (new () 1 .T24C256 : EEPROM Unit)._address) cmd
            false) ∧
        (new () 1 .T24C256 : EEPROM Unit).chunks txns =
          (List.range (u8 (length / (new () 1 .T24C256 : EEPROM Unit)._page_write))).map
            (fun k => (300 + k * (new () 1 .T24C256 : EEPROM Unit)._page_write,
              fill bytes (k * (new () 1 .T24C256 : EEPROM Unit)._page_write)
                (new () 1 .T24C256 : EEPROM Unit)._page_write)) ++
          (if length % (new () 1 .T24C256 : EEPROM Unit)._page_write = 0 then []
           else [(300 + u8 (length / (new () 1 .T24C256 : EEPROM Unit)._page_write) *
                (new () 1 .T24C256 : EEPROM Unit)._page_write,
              fill bytes (u8 (length / (new () 1 .T24C256 : EEPROM Unit)._page_write) *
                  (new () 1 .T24C256 : EEPROM Unit)._page_write)
                (length % (new () 1 .T24C256 : EEPROM Unit)._page_write))])) :=
  wide_device_byte_and_word_address ackBus 0 (new () 1 .T24C256)
    (new_wellFormed () 1 .T24C256 (by decide) (by decide)) (by decide) (by decide) 300
    (by decide) (by decide) 7 []

/-- C9, as stated, fails: on a 24C1024 the address 65536 is valid, and the byte write sends
the word-address bytes 0 and 0 to the device byte 0xA0, so `hi * 256 + lo` is 0 and not the
address: the chip is addressed at 0. -/
theorem wide_word_address_drops_bit_16 :
    (new () 0 .T24C1024 : EEPROM Unit)._errnum = EEPROM_NoError ∧
    4096 ≤ (new () 0 .T24C1024 : EEPROM Unit)._type.val ∧
    (new () 0 .T24C1024 : EEPROM Unit).checkAddress 65536 = true ∧
    (write_int8 ackBus 1 (new () 0 .T24C1024) 65536 7).map (fun e1 => e1.log) =
      some [Txn.write 0xA0 [0, 0, 7] false, Txn.write 0xA0 [] false] ∧
    0 * 256 + 0 ≠ 65536 ∧
    (write_int8 ackBus 1 (new () 0 .T24C1024) 65536 7).map
      (fun e1 => (new () 0 .T24C1024 : EEPROM Unit).chunks e1.log) = some [(0, [7])] := by
  decide

end EEPROM

namespace EEPROM

variable {β : Type}

/-- C10: for a chip with one word-address byte (capacity below 4096), an error-free driver
and a valid address, the byte write and the addressed reads present the device byte
`EEPROM_Address | _address | (page << 1)` with `page = address / 256` (0xA0, the
chip-select bits kept at construction and the block number) and send the single
word-address byte `address % 256`; so every valid address of the same 256-byte block gets
the same page and device byte, and its own low byte as word address. -/
theorem folded_device_byte_and_word_address (bus : I2C β) (fuel : Nat) (e : EEPROM β)
    (hwf : e.WellFormed) (herr : e._errnum = EEPROM_NoError) (hf : e._type.val < 4096)
    (address : Nat) (ha : e.checkAddress address = true) (data : Nat) (buf : List Nat) :
    (∀ e1, write_int8 bus fuel e address data = some e1 →
      ∃ rest, e1.log = e.log ++
        Txn.write (EEPROM_Address ||| e._address ||| ((address / 256) <<< 1))
          [address % 256, u8 data] false :: rest) ∧
    (AlwaysAck bus → ∃ e1, write_int8 bus (fuel + 1) e address data = some e1 ∧
      e1._errnum = EEPROM_NoError ∧
      e1.log = e.log ++
        [Txn.write (EEPROM_Address ||| e._address ||| ((address / 256) <<< 1))
           [address % 256, u8 data] false,
         Txn.write (EEPROM_Address ||| e._address) [] false]) ∧
    ((read_int8 bus e address buf).1.log = e.log ++
      Txn.write (EEPROM_Address ||| e._address ||| ((address / 256) <<< 1))
          [address % 256] true ::
        (if (bus.write e._i2c (EEPROM_Address ||| e._address ||| ((address / 256) <<< 1))
              [address % 256] true).2 = 0
          then [Txn.read (EEPROM_Address ||| e._address ||| ((address / 256) <<< 1)) 1]
          else [])) ∧
    (∀ size : Nat, e.checkAddress (sub32 (u32 (address + size)) 1) = true →
      (read_array bus e address buf size).1.log = e.log ++
        Txn.write (EEPROM_Address ||| e._address ||| ((address / 256) <<< 1))
            [address % 256] true ::
          (if (bus.write e._i2c (EEPROM_Address ||| e._address ||| ((address / 256) <<< 1))
                [address % 256] true).2 = 0
            then [Txn.read (EEPROM_Address ||| e._address ||| ((address / 256) <<< 1)) size]
            else [])) ∧
    (∀ a2 : Nat, e.checkAddress a2 = true → a2 / 256 = address / 256 →
      e.pageOf a2 = address / 256 ∧
      e.devAddr (e.pageOf a2) = EEPROM_Address ||| e._address ||| ((address / 256) <<< 1) ∧
      e.wordAddr (e.pageOf a2) a2 = [a2 % 256]) := by
  have h32 : TypeEeprom.T24C32.val = 4096 := rfl
  have hfd : e.folded = true := by
    simp only [folded, h32, decide_eq_true_eq]; exact hf
  have herr0 : e._errnum = 0 := herr
  have halt : address < e._size := (hwf.checkAddress_iff address).mp ha
  obtain ⟨hp, hd, hwa⟩ := hwf.devAddr_folded hfd address halt
  refine ⟨?_, ?_, ?_, ?_, ?_⟩
  · intro e1 h1
    have := write_int8_log bus fuel e herr0 address data ha e1 h1
    rwa [hd, hwa] at this
  · intro hack
    refine ⟨_, write_int8_ack bus hack fuel e herr0 address data ha, herr, ?_⟩
    simp [xfer, hd, hwa, hwf.poll_eq]
  · have := read_int8_log bus e herr0 address buf ha
    rwa [hd, hwa] at this
  · intro size hl
    have := read_array_log bus e herr0 address size buf ha hl
    rwa [hd, hwa] at this
  · intro a2 ha2 hblock
    obtain ⟨hp2, hd2, hwa2⟩ := hwf.devAddr_folded hfd a2 ((hwf.checkAddress_iff a2).mp ha2)
    rw [hblock] at hp2 hd2
    exact ⟨hp2, hd2, hwa2⟩

theorem folded_device_byte_and_word_address_witness :
    (∀ e1, write_int8 ackBus 0 (new () 4 .T24C08) 700 7 = some e1 →
      ∃ rest, e1.log = (new () 4 .T24C08 : EEPROM Unit).log ++
        Txn.write (EEPROM_Address ||| (new () 4 .T24C08 : EEPROM Unit)._address |||
            ((700 / 256) <<< 1))
          [700 % 256, u8 7] false :: rest) ∧
    (AlwaysAck ackBus → ∃ e1, write_int8 ackBus (0 + 1) (new () 4 .T24C08) 700 7 = some e1 ∧
      e1._errnum = EEPROM_NoError ∧
      e1.log = (new () 4 .T24C08 : EEPROM Unit).log ++
        [Txn.write (EEPROM_Address ||| (new () 4 .T24C08 : EEPROM Unit)._address |||
             ((700 / 256) <<< 1))
           [700 % 256, u8 7] false,
         Txn.write (EEPROM_Address ||| (new () 4 .T24C08 : EEPROM Unit)._address) [] false]) ∧
    ((read_int8 ackBus (new () 4 .T24C08) 700 []).1.log =
      (new () 4 .T24C08 : EEPROM Unit).log ++
      Txn.write (EEPROM_Address ||| (new () 4 .T24C08 : EEPROM Unit)._address |||
            ((700 / 256) <<< 1))
          [700 % 256] true ::
        (if (ackBus.write (new () 4 .T24C08 : EEPROM Unit)._i2c
              (EEPROM_Address ||| (new () 4 .T24C08 : EEPROM Unit)._address |||
                ((700 / 256) <<< 1))
              [700 % 256] true).2 = 0
          then [Txn.read (EEPROM_Address ||| (new () 4 .T24C08 : EEPROM Unit)._address |||
            ((700 / 256) <<< 1)) 1]
          else [])) ∧
    (∀ size : Nat,
      (new () 4 .T24C08 : EEPROM Unit).checkAddress (sub32 (u32 (700 + size)) 1) = true →
      (read_array ackBus (new () 4 .T24C08) 700 [] size).1.log =
        (new () 4 .T24C08 : EEPROM Unit).log ++
        Txn.write (EEPROM_Address ||| (new () 4 .T24C08 : EEPROM Unit)._address |||
              ((700 / 256) <<< 1))
            [700 % 256] true ::
          (if (ackBus.write (new () 4 .T24C08 : EEPROM Unit)._i2c
                (EEPROM_Address ||| (new () 4 .T24C08 : EEPROM Unit)._address |||
                  ((700 / 256) <<< 1))
                [700 % 256] true).2 = 0
            then [Txn.read (EEPROM_Address ||| (new () 4 .T24C08 : EEPROM Unit)._address |||
              ((700 / 256) <<< 1)) size]
            else [])) ∧
    (∀ a2 : Nat, (new () 4 .T24C08 : EEPROM Unit).checkAddress a2 = true →
      a2 / 256 = 700 / 256 →
      (new () 4 .T24C08 : EEPROM Unit).pageOf a2 = 700 / 256 ∧
      (new () 4 .T24C08 : EEPROM Unit).devAddr ((new () 4 .T24C08 : EEPROM Unit).pageOf a2) =
        EEPROM_Address ||| (new () 4 .T24C08 : EEPROM Unit)._address ||| ((700 / 256) <<< 1) ∧
      (new () 4 .T24C08 : EEPROM Unit).wordAddr ((new () 4 .T24C08 : EEPROM Unit).pageOf a2) a2 =
        [a2 % 256]) :=
  folded_device_byte_and_word_address ackBus 0 (new () 4 .T24C08)
    (new_wellFormed () 4 .T24C08 (by decide) (by decide)) (by decide) (by decide) 700
    (by decide) 7 []

end EEPROM

/-! ## Construction, typed writes and the addressed read -/

namespace EEPROM

variable {β : Type}

/-- C17: construction issues no bus call; for the chip types 24C01, 24C02, 24C04, 24C08,
24C32, 24C64 and 24C1024 it leaves `EEPROM_BadAddress` (bad chip select) exactly when the
chip-select value is greater than 7, for 24C128, 24C256, 24C512 and 24C1025 exactly when it
is greater than 3, and `EEPROM_NoError` otherwise. -/
theorem new_chip_select_check (b : β) (cs : Nat) (t : TypeEeprom) :
    (new b cs t).log = [] ∧
    (t ∈ [TypeEeprom.T24C01, .T24C02, .T24C04, .T24C08, .T24C32, .T24C64, .T24C1024] →
      (7 < cs → (new b cs t)._errnum = EEPROM_BadAddress) ∧
      (cs ≤ 7 → (new b cs t)._errnum = EEPROM_NoError)) ∧
    (t ∈ [TypeEeprom.T24C128, .T24C256, .T24C512, .T24C1025] →
      (3 < cs → (new b cs t)._errnum = EEPROM_BadAddress) ∧
      (cs ≤ 3 → (new b cs t)._errnum = EEPROM_NoError)) := by
  refine ⟨rfl, ?_, ?_⟩
  · intro ht
    cases t <;> simp at ht <;> simp only [new] <;>
      exact ⟨fun h => if_pos h, fun h => if_neg (by omega)⟩
  · intro ht
    cases t <;> simp at ht <;> simp only [new] <;>
      exact ⟨fun h => if_pos h, fun h => if_neg (by omega)⟩

/-- C18, as stated, fails: constructing a 24C16 with the non-zero chip-select value 5
leaves the error state `EEPROM_NoError`. -/
theorem new_24C16_nonzero_chip_select_no_error :
    (5 : Nat) ≠ 0 ∧ (new () 5 .T24C16 : EEPROM Unit)._errnum = EEPROM_NoError ∧
    (new () 5 .T24C16 : EEPROM Unit)._errnum ≠ EEPROM_BadAddress := by
  decide

/-- C18, amended: for the 24C16 the constructor ignores the chip-select value: whatever
the value, it leaves the error state `EEPROM_NoError` and keeps no chip-select bits
(`_address = 0`), so the device byte holds the base address and the three block bits
only. -/
theorem new_24C16_ignores_chip_select (b : β) (cs : Nat) :
    (new b cs .T24C16)._errnum = EEPROM_NoError ∧ (new b cs .T24C16)._address = 0 ∧
    (new b cs .T24C16)._page_number = 8 ∧
    ∀ page : Nat, (new b cs .T24C16).devAddr page = u8 (EEPROM_Address ||| (page <<< 1)) := by
  refine ⟨rfl, rfl, rfl, ?_⟩
  intro page
  simp [devAddr, new]

theorem sub32_add_one (a n : Nat) : sub32 (u32 (a + (n + 1))) 1 = u32 (a + n) := by
  unfold sub32 u32
  omega

/-- C19: in every driver state, for every address and value, `write(address, int16_t)`,
`write(address, int32_t)` and `write(address, float)` end in the same driver state, log of
bus calls and error slot included, as the byte-run write of the 2, 4 and 4 bytes of the
value, least significant first, at the same address (and run out of polls exactly when it
does). -/
theorem typed_write_eq_write_array (bus : I2C β) (fuel : Nat) (e : EEPROM β)
    (address data : Nat) :
    write_int16 bus fuel e address data = write_array bus fuel e address (leBytes data) 2 ∧
    write_int32 bus fuel e address data = write_array bus fuel e address (leBytes data) 4 ∧
    write_float bus fuel e address data = write_array bus fuel e address (leBytes data) 4 := by
  have h2 := sub32_add_one address 1
  have h4 := sub32_add_one address 3
  refine ⟨?_, ?_, ?_⟩
  · unfold write_int16 write_array
    rw [h2]
    by_cases he : e._errnum ≠ 0
    · simp [he]
    · by_cases h1 : e.checkAddress (u32 (address + 1)) = true
      · simp [he, h1, write_array, h2]
      · by_cases h0 : e.checkAddress address = true <;> simp [he, h1, h0]
  · unfold write_int32 write_array
    rw [h4]
    by_cases he : e._errnum ≠ 0
    · simp [he]
    · by_cases h1 : e.checkAddress (u32 (address + 3)) = true
      · simp [he, h1, write_array, h4]
      · by_cases h0 : e.checkAddress address = true <;> simp [he, h1, h0]
  · unfold write_float write_array
    rw [h4]
    by_cases he : e._errnum ≠ 0
    · simp [he]
    · by_cases h1 : e.checkAddress (u32 (address + 3)) = true
      · simp [he, h1, write_array, h4]
      · by_cases h0 : e.checkAddress address = true <;> simp [he, h1, h0]

end EEPROM

namespace EEPROM

variable {β : Type}

/-- The addressed read whose arguments pass the checks, call by call. -/
theorem read_array_eq (bus : I2C β) (e : EEPROM β) (herr : e._errnum = 0)
    (address size : Nat) (data : List Nat) (ha : e.checkAddress address = true)
    (hl : e.checkAddress (sub32 (u32 (address + size)) 1) = true) :
    read_array bus e address data size =
      if (bus.write e._i2c (e.devAddr (e.pageOf address))
          (e.wordAddr (e.pageOf address) address) true).2 ≠ 0 then
        ({ advance bus e [Txn.write (e.devAddr (e.pageOf address))
              (e.wordAddr (e.pageOf address) address) true] with
            _errnum := EEPROM_I2cError }, data)
      else if (bus.read (bus.write e._i2c (e.devAddr (e.pageOf address))
          (e.wordAddr (e.pageOf address) address) true).1
            (e.devAddr (e.pageOf address)) size).2.1 ≠ 0 then
        ({ advance bus e [Txn.write (e.devAddr (e.pageOf address))
              (e.wordAddr (e.pageOf address) address) true,
              Txn.read (e.devAddr (e.pageOf address)) size] with
            _errnum := EEPROM_I2cError },
         (bus.read (bus.write e._i2c (e.devAddr (e.pageOf address))
          (e.wordAddr (e.pageOf address) address) true).1
            (e.devAddr (e.pageOf address)) size).2.2)
      else
        (advance bus e [Txn.write (e.devAddr (e.pageOf address))
              (e.wordAddr (e.pageOf address) address) true,
              Txn.read (e.devAddr (e.pageOf address)) size],
         (bus.read (bus.write e._i2c (e.devAddr (e.pageOf address))
          (e.wordAddr (e.pageOf address) address) true).1
            (e.devAddr (e.pageOf address)) size).2.2) := by
  simp only [read_array, herr, ne_eq, not_true_eq_false, if_false, ha, hl, Bool.not_true,
    Bool.false_eq_true]
  split_ifs <;> simp_all [i2c_write, i2c_read, advance, busAfter]

/-- C20: on an error-free driver of any chip type, the addressed byte-run read whose
arguments pass the range checks first writes, with the bus kept open, the word-address
bytes alone to the translated device byte: one byte `address % 256` to
`EEPROM_Address | _address | ((address / 256) << 1)` for a capacity below 4096, otherwise
the two bytes `(address >> 8) % 256` and `address % 256` to `EEPROM_Address | _address`.
When this write is acknowledged it issues one read of `size` bytes from the same device
byte, whatever the number of pages in the range, and nothing else; the error state is
`EEPROM_NoError` when the read is acknowledged too and the destination then holds the bytes
read. When the write is refused, no read is issued, the error state is `EEPROM_I2cError`
and the destination is left as it was. -/
theorem read_array_two_calls (bus : I2C β) (e : EEPROM β) (hwf : e.WellFormed)
    (herr : e._errnum = EEPROM_NoError) (address size : Nat) (buf : List Nat)
    (ha : e.checkAddress address = true)
    (hl : e.checkAddress (sub32 (u32 (address + size)) 1) = true) :
    (e._type.val < 4096 →
      e.devAddr (e.pageOf address) = EEPROM_Address ||| e._address ||| ((address / 256) <<< 1) ∧
      e.wordAddr (e.pageOf address) address = [address % 256]) ∧
    (4096 ≤ e._type.val →
      e.devAddr (e.pageOf address) = EEPROM_Address ||| e._address ∧
      e.wordAddr (e.pageOf address) address = [(address / 256) % 256, address % 256]) ∧
    ((bus.write e._i2c (e.devAddr (e.pageOf address))
        (e.wordAddr (e.pageOf address) address) true).2 = 0 →
      (read_array bus e address buf size).1.log = e.log ++
        [Txn.write (e.devAddr (e.pageOf address)) (e.wordAddr (e.pageOf address) address) true,
         Txn.read (e.devAddr (e.pageOf address)) size] ∧
      ((bus.read (bus.write e._i2c (e.devAddr (e.pageOf address))
          (e.wordAddr (e.pageOf address) address) true).1
            (e.devAddr (e.pageOf address)) size).2.1 = 0 →
        (read_array bus e address buf size).1._errnum = EEPROM_NoError ∧
        (read_array bus e address buf size).2 =
          (bus.read (bus.write e._i2c (e.devAddr (e.pageOf address))
            (e.wordAddr (e.pageOf address) address) true).1
              (e.devAddr (e.pageOf address)) size).2.2) ∧
      ((bus.read (bus.write e._i2c (e.devAddr (e.pageOf address))
          (e.wordAddr (e.pageOf address) address) true).1
            (e.devAddr (e.pageOf address)) size).2.1 ≠ 0 →
        (read_array bus e address buf size).1._errnum = EEPROM_I2cError)) ∧
    ((bus.write e._i2c (e.devAddr (e.pageOf address))
        (e.wordAddr (e.pageOf address) address) true).2 ≠ 0 →
      (read_array bus e address buf size).1.log = e.log ++
        [Txn.write (e.devAddr (e.pageOf address)) (e.wordAddr (e.pageOf address) address)
          true] ∧
      (read_array bus e address buf size).1._errnum = EEPROM_I2cError ∧
      (read_array bus e address buf size).2 = buf) := by
  have herr0 : e._errnum = 0 := herr
  have h32 : TypeEeprom.T24C32.val = 4096 := rfl
  have halt : address < e._size := (hwf.checkAddress_iff address).mp ha
  rw [read_array_eq bus e herr0 address size buf ha hl]
  refine ⟨?_, ?_, ?_, ?_⟩
  · intro hf
    have hfd : e.folded = true := by
      simp only [folded, h32, decide_eq_true_eq]; exact hf
    exact (hwf.devAddr_folded hfd address halt).2
  · intro hw
    have hfd : e.folded = false := by
      simp only [folded, h32, decide_eq_false_iff_not]; omega
    exact (hwf.devAddr_wide hfd address).2
  · intro hack
    refine ⟨?_, ?_, ?_⟩
    · split_ifs <;> simp_all
    · intro hr
      simp [hack, hr, herr]
    · intro hr
      simp [hack, hr]
  · intro hnack
    simp [hnack]

theorem read_array_two_calls_witness :
    ((new () 0 .T24C64 : EEPROM Unit)._type.val < 4096 →
      (new () 0 .T24C64 : EEPROM Unit).devAddr ((new () 0 .T24C64 : EEPROM Unit).pageOf 8000) =
        EEPROM_Address ||| (new () 0 .T24C64 : EEPROM Unit)._address ||| ((8000 / 256) <<< 1) ∧
      (new () 0 .T24C64 : EEPROM Unit).wordAddr
        ((new () 0 .T24C64 : EEPROM Unit).pageOf 8000) 8000 = [8000 % 256]) ∧
    (4096 ≤ (new () 0 .T24C64 : EEPROM Unit)._type.val →
      (new () 0 .T24C64 : EEPROM Unit).devAddr ((new () 0 .T24C64 : EEPROM Unit).pageOf 8000) =
        EEPROM_Address ||| (new () 0 .T24C64 : EEPROM Unit)._address ∧
      (new () 0 .T24C64 : EEPROM Unit).wordAddr
        ((new () 0 .T24C64 : EEPROM Unit).pageOf 8000) 8000 = [(8000 / 256) % 256, 8000 % 256]) ∧
    ((ackBus.write (new () 0 .T24C64 : EEPROM Unit)._i2c
        ((new () 0 .T24C64 : EEPROM Unit).devAddr ((new () 0 .T24C64 : EEPROM Unit).pageOf 8000))
        ((new () 0 .T24C64 : EEPROM Unit).wordAddr
          ((new () 0 .T24C64 : EEPROM Unit).pageOf 8000) 8000) true).2 = 0 →
      (read_array ackBus (new () 0 .T24C64) 8000 [] 100).1.log =
        (new () 0 .T24C64 : EEPROM Unit).log ++
        [Txn.write
          ((new () 0 .T24C64 : EEPROM Unit).devAddr ((new () 0 .T24C64 : EEPROM Unit).pageOf 8000))
          ((new () 0 .T24C64 : EEPROM Unit).wordAddr
            ((new () 0 .T24C64 : EEPROM Unit).pageOf 8000) 8000) true,
         Txn.read
          ((new () 0 .T24C64 : EEPROM Unit).devAddr ((new () 0 .T24C64 : EEPROM Unit).pageOf 8000))
          100] ∧
      ((ackBus.read (ackBus.write (new () 0 .T24C64 : EEPROM Unit)._i2c
          ((new () 0 .T24C64 : EEPROM Unit).devAddr
            ((new () 0 .T24C64 : EEPROM Unit).pageOf 8000))
          ((new () 0 .T24C64 : EEPROM Unit).wordAddr
            ((new () 0 .T24C64 : EEPROM Unit).pageOf 8000) 8000) true).1
            ((new () 0 .T24C64 : EEPROM Unit).devAddr
              ((new () 0 .T24C64 : EEPROM Unit).pageOf 8000)) 100).2.1 = 0 →
        (read_array ackBus (new () 0 .T24C64) 8000 [] 100).1._errnum = EEPROM_NoError ∧
        (read_array ackBus (new () 0 .T24C64) 8000 [] 100).2 =
          (ackBus.read (ackBus.write (new () 0 .T24C64 : EEPROM Unit)._i2c
            ((new () 0 .T24C64 : EEPROM Unit).devAddr
              ((new () 0 .T24C64 : EEPROM Unit).pageOf 8000))
            ((new () 0 .T24C64 : EEPROM Unit).wordAddr
              ((new () 0 .T24C64 : EEPROM Unit).pageOf 8000) 8000) true).1
              ((new () 0 .T24C64 : EEPROM Unit).devAddr
                ((new () 0 .T24C64 : EEPROM Unit).pageOf 8000)) 100).2.2) ∧
      ((ackBus.read (ackBus.write (new () 0 .T24C64 : EEPROM Unit)._i2c
          ((new () 0 .T24C64 : EEPROM Unit).devAddr
            ((new () 0 .T24C64 : EEPROM Unit).pageOf 8000))
          ((new () 0 .T24C64 : EEPROM Unit).wordAddr
            ((new () 0 .T24C64 : EEPROM Unit).pageOf 8000) 8000) true).1
            ((new () 0 .T24C64 : EEPROM Unit).devAddr
              ((new () 0 .T24C64 : EEPROM Unit).pageOf 8000)) 100).2.1 ≠ 0 →
        (read_array ackBus (new () 0 .T24C64) 8000 [] 100).1._errnum = EEPROM_I2cError)) ∧
    ((ackBus.write (new () 0 .T24C64 : EEPROM Unit)._i2c
        ((new () 0 .T24C64 : EEPROM Unit).devAddr ((new () 0 .T24C64 : EEPROM Unit).pageOf 8000))
        ((new () 0 .T24C64 : EEPROM Unit).wordAddr
          ((new () 0 .T24C64 : EEPROM Unit).pageOf 8000) 8000) true).2 ≠ 0 →
      (read_array ackBus (new () 0 .T24C64) 8000 [] 100).1.log =
        (new () 0 .T24C64 : EEPROM Unit).log ++
        [Txn.write
          ((new () 0 .T24C64 : EEPROM Unit).devAddr ((new () 0 .T24C64 : EEPROM Unit).pageOf 8000))
          ((new () 0 .T24C64 : EEPROM Unit).wordAddr
            ((new () 0 .T24C64 : EEPROM Unit).pageOf 8000) 8000) true] ∧
      (read_array ackBus (new () 0 .T24C64) 8000 [] 100).1._errnum = EEPROM_I2cError ∧
      (read_array ackBus (new () 0 .T24C64) 8000 [] 100).2 = []) :=
  read_array_two_calls ackBus (new () 0 .T24C64)
    (new_wellFormed () 0 .T24C64 (by decide) (by decide)) (by decide) 8000 100 []
    (by decide) (by decide)

end EEPROM

/-! ## Runs that end on a block boundary -/

namespace EEPROM

/-- C13, failing input: on a 24C04 (pages of 16 bytes, 2 blocks) the in-range write of
6 bytes at address 250 lies in the one page 240..255, but the test
`(address + remain) / 256 == page` fails because the run ends on the block boundary 256:
the driver splits, sends the 6 bytes to block 0 and then a second bus write of non-zero
length to block 1 that carries the word-address byte 0 and no data. Two bus writes of
non-zero length are issued, not one. -/
theorem write_array_one_page_two_bus_writes :
    (new () 0 .T24C04 : EEPROM Unit)._page_write = 16 ∧
    (new () 0 .T24C04 : EEPROM Unit).checkAddress 250 = true ∧
    (new () 0 .T24C04 : EEPROM Unit).checkAddress (250 + 6 - 1) = true ∧
    250 / 16 = (250 + 6 - 1) / 16 ∧
    (write_array ackBus 1 (new () 0 .T24C04) 250 (fun k => k + 1) 6).map
        (fun e1 => (e1._errnum, dataWrites e1.log)) =
      some (EEPROM_NoError,
        [Txn.write 0xA0 [250, 1, 2, 3, 4, 5, 6] false, Txn.write 0xA2 [0] false]) ∧
    (write_array ackBus 1 (new () 0 .T24C04) 250 (fun k => k + 1) 6).map
        (fun e1 => (dataWrites e1.log).length) ≠ some 1 := by
  decide

set_option maxRecDepth 1000000 in
/-- C16, failing input: on a 24C04 (512 bytes) `clear()` performs 128 long-word writes, but
the one at address 252 ends on the block boundary 256 and is followed by a bus write of
non-zero length to block 1 that carries the word-address byte 0 and no data: the driver
issues 129 bus writes of non-zero length, not 128, and the 64th is not a write of four
zero bytes. -/
theorem clear_24C04_extra_bus_write :
    (new () 0 .T24C04 : EEPROM Unit).getSize / 4 = 128 ∧
    (clear ackBus 1 (new () 0 .T24C04)).map (fun e1 => e1._errnum) = some EEPROM_NoError ∧
    (clear ackBus 1 (new () 0 .T24C04)).map (fun e1 => (dataWrites e1.log).length) = some 129 ∧
    (clear ackBus 1 (new () 0 .T24C04)).map (fun e1 => (dataWrites e1.log).get? 63) =
      some (some (Txn.write 0xA0 [252, 0, 0, 0, 0] false)) ∧
    (clear ackBus 1 (new () 0 .T24C04)).map (fun e1 => (dataWrites e1.log).get? 64) =
      some (some (Txn.write 0xA2 [0] false)) := by
  decide

end EEPROM

/-! ## Byte-run write on any bus -/

namespace EEPROM

variable {β : Type}

theorem i2c_write_fst (bus : I2C β) (e : EEPROM β) (addr : Nat) (cmd : List Nat) (r : Bool) :
    (i2c_write bus e addr cmd r).1 = advance bus e [Txn.write addr cmd r] := by
  simp [i2c_write, advance, busAfter]

theorem i2c_write_snd (bus : I2C β) (e : EEPROM β) (addr : Nat) (cmd : List Nat) (r : Bool) :
    (i2c_write bus e addr cmd r).2 = busAck bus e._i2c (Txn.write addr cmd r) := rfl

@[simp] theorem advance_i2c (bus : I2C β) (e : EEPROM β) (xs : List Txn) :
    (advance bus e xs)._i2c = xs.foldl (busAfter bus) e._i2c := rfl

/-- The polls of one call of `ready()`: the driver after them, and what they are to the
shape of the log. -/
theorem readyLoop_advance (bus : I2C β) (fuel : Nat) : ∀ (e e1 : EEPROM β),
    readyLoop bus fuel e = some e1 →
    ∃ polls, e1 = advance bus e polls ∧
      ∀ rest, waits bus true e._i2c (polls ++ rest) = waits bus false e1._i2c rest := by
  induction fuel with
  | zero => intro e e1 h; simp [readyLoop] at h
  | succ n ih =>
    intro e e1 h
    unfold readyLoop at h
    rw [i2c_write_fst, i2c_write_snd] at h
    split_ifs at h with hc
    · obtain ⟨polls, hp, hw⟩ := ih _ _ h
      refine ⟨e.poll :: polls, ?_, ?_⟩
      · rw [hp]; simp [poll]
      · intro rest
        rw [← hw rest]
        simp [waits, poll, Txn.isPoll, hc, busAfter]
    · cases h
      refine ⟨[e.poll], rfl, ?_⟩
      intro rest
      have hc0 : busAck bus e._i2c (Txn.write (u8 (EEPROM_Address ||| e._address)) [] false) = 0 := by
        simpa using hc
      simp [waits, poll, Txn.isPoll, hc0, busAfter]

theorem send_run (bus : I2C β) (fuel : Nat) (e : EEPROM β) (herr : e._errnum = 0) (addr : Nat)
    (cmd : List Nat) (hcmd : cmd ≠ []) :
    send bus fuel e addr cmd = run bus fuel [Txn.write addr cmd false, e.poll] e := by
  unfold send
  simp only [run, poll, hcmd, if_false, if_true]
  split_ifs with hc
  · rfl
  · have h0 : (i2c_write bus e addr cmd false).1._errnum = 0 := herr
    simp only [ready, h0, ne_eq, not_true_eq_false, if_false]

theorem run_append (bus : I2C β) (fuel : Nat) (xs ys : List Txn) : ∀ e : EEPROM β,
    run bus fuel (xs ++ ys) e =
      match run bus fuel xs e with
      | none => none
      | some (e1, false) => some (e1, false)
      | some (e1, true) => run bus fuel ys e1 := by
  induction xs with
  | nil => intro e; simp [run]
  | cons x xs ih =>
    intro e
    cases x with
    | read a n => simp only [List.cons_append, run]; exact ih e
    | write addr cmd r =>
      simp only [List.cons_append, run]
      split_ifs with h1 h2
      · cases readyLoop bus fuel e with
        | none => rfl
        | some e1 => exact ih e1
      · rfl
      · exact ih _

/-- A run that was not stopped leaves the driver as it was, but for the bus and the log. -/
theorem run_true (bus : I2C β) (fuel : Nat) (xs : List Txn) : ∀ (e e1 : EEPROM β),
    run bus fuel xs e = some (e1, true) → ∃ txns, e1 = advance bus e txns := by
  induction xs with
  | nil => intro e e1 h; simp only [run, Option.some.injEq, Prod.mk.injEq] at h
           exact ⟨[], by rw [advance_nil]; exact h.1.symm⟩
  | cons x xs ih =>
    intro e e1 h
    cases x with
    | read a n => exact ih e e1 (by simpa [run] using h)
    | write addr cmd r =>
      simp only [run] at h
      split_ifs at h with h1 h2
      · cases hl : readyLoop bus fuel e with
        | none => rw [hl] at h; simp at h
        | some e2 =>
          rw [hl] at h
          obtain ⟨polls, hp, -⟩ := readyLoop_advance bus fuel e e2 hl
          obtain ⟨txns, ht⟩ := ih e2 e1 h
          exact ⟨polls ++ txns, by rw [ht, hp, advance_advance]⟩
      · simp at h
      · rw [i2c_write_fst] at h
        obtain ⟨txns, ht⟩ := ih _ e1 h
        exact ⟨_ :: txns, by rw [ht, advance_advance]; rfl⟩

end EEPROM

namespace EEPROM

variable {β : Type}

theorem xfer_eq (e : EEPROM β) (page a : Nat) (bytes : List Nat) :
    e.xfer page a bytes =
      [Txn.write (e.devAddr page) (e.wordAddr page a ++ bytes) false, e.poll] := rfl

theorem send_run_xfer (bus : I2C β) (fuel : Nat) (e : EEPROM β) (herr : e._errnum = 0)
    (page a : Nat) (bytes : List Nat) :
    send bus fuel e (e.devAddr page) (e.wordAddr page a ++ bytes) =
      run bus fuel (e.xfer page a bytes) e :=
  send_run bus fuel e herr _ _ (by simp [wordAddr_ne_nil])

/-- One pass of the loop over the blocs is the run of its calls. -/
theorem writeBloc_run (bus : I2C β) (fuel : Nat) (data : Nat → Nat) (i : Nat) (e : EEPROM β)
    (herr : e._errnum = 0) (address : Nat) :
    writeBloc bus fuel data i e address =
      (run bus fuel (blocPlan e data i address).1 e).map
        (fun p => (p.1, if p.2 then some (blocPlan e data i address).2 else none)) := by
  unfold writeBloc blocPlan
  by_cases hf : e.folded = true
  · rw [if_pos hf, if_pos hf]
    by_cases hc : u8 (u32 (address + e._page_write) / 256) = e.pageOf address
    · rw [if_pos hc, if_pos hc, send_run_xfer bus fuel e herr]
      rcases hr : run bus fuel (e.xfer (e.pageOf address) address
        (fill data (i * e._page_write) e._page_write)) e with _ | ⟨e1, _ | _⟩ <;> simp
    · rw [if_neg hc, if_neg hc]
      rw [show u8 (sub32 ((e.pageOf address + 1) * 256) address) = e.fpartOf address from rfl]
      rw [send_run_xfer bus fuel e herr]
      by_cases hn : e.pageOf address + 1 < e._page_number
      · rw [if_pos hn]
        simp only [run_append]
        rcases hr : run bus fuel (e.xfer (e.pageOf address) address
          (fill data (i * e._page_write) (e.fpartOf address))) e with _ | ⟨e1, _ | _⟩
        · simp
        · simp
        · obtain ⟨txns, rfl⟩ := run_true bus fuel _ e e1 hr
          have herr1 : (advance bus e txns)._errnum = 0 := herr
          simp only [advance_page_number, hn, if_true, advance_page_write]
          rw [send_run_xfer bus fuel _ herr1]
          simp only [xfer_eq, advance_devAddr, advance_wordAddr, advance_poll]
          rcases hr2 : run bus fuel [Txn.write (e.devAddr (u8 (e.pageOf address + 1)))
            (e.wordAddr (u8 (e.pageOf address + 1)) (u32 (address + e.fpartOf address)) ++
              fill data (u8 (i * e._page_write + e.fpartOf address))
                (sub8 e._page_write (e.fpartOf address))) false, e.poll]
            (advance bus e txns) with _ | ⟨e2, _ | _⟩ <;> simp
      · rw [if_neg hn]
        rcases hr : run bus fuel (e.xfer (e.pageOf address) address
          (fill data (i * e._page_write) (e.fpartOf address))) e with _ | ⟨e1, _ | _⟩
        · simp
        · simp
        · obtain ⟨txns, rfl⟩ := run_true bus fuel _ e e1 hr
          simp [hn]
  · rw [if_neg hf, if_neg hf, send_run_xfer bus fuel e herr]
    rcases hr : run bus fuel (e.xfer (e.pageOf address) address
      (fill data (i * e._page_write) e._page_write)) e with _ | ⟨e1, _ | _⟩ <;> simp

end EEPROM

namespace EEPROM

variable {β : Type}

/-- The loop over the blocs is the run of its calls. -/
theorem writeBlocs_run (bus : I2C β) (fuel : Nat) (data : Nat → Nat) (n : Nat) :
    ∀ (i : Nat) (e : EEPROM β), e._errnum = 0 → ∀ address : Nat,
    writeBlocs bus fuel data n i e address =
      (run bus fuel (blocsPlan e data n i address).1 e).map
        (fun p => (p.1, if p.2 then some (blocsPlan e data n i address).2 else none)) := by
  induction n with
  | zero => intro i e _ address; simp [writeBlocs, blocsPlan, run]
  | succ n ih =>
    intro i e herr address
    simp only [writeBlocs, blocsPlan, writeBloc_run bus fuel data i e herr, run_append]
    rcases hr : run bus fuel (blocPlan e data i address).1 e with _ | ⟨e1, _ | _⟩
    · simp
    · simp
    · obtain ⟨txns, rfl⟩ := run_true bus fuel _ e e1 hr
      have herr1 : (advance bus e txns)._errnum = 0 := herr
      simp only [Option.map_some', if_true]
      rw [ih (i + 1) _ herr1, blocsPlan_advance]

/-- The statement `if(remain) { ... }` is the run of its calls. -/
theorem writeRemain_run (bus : I2C β) (fuel : Nat) (data : Nat → Nat) (blocs remain : Nat)
    (e : EEPROM β) (herr : e._errnum = 0) (address : Nat) :
    writeRemain bus fuel data blocs remain e address =
      (run bus fuel (remainPlan e data blocs remain address) e).map Prod.fst := by
  unfold writeRemain remainPlan
  by_cases h0 : remain ≠ 0
  · rw [if_pos h0, if_pos h0]
    by_cases hf : e.folded = true
    · rw [if_pos hf, if_pos hf]
      by_cases hc : u8 (u32 (address + remain) / 256) = e.pageOf address
      · rw [if_pos hc, if_pos hc, send_run_xfer bus fuel e herr]
        rcases hr : run bus fuel (e.xfer (e.pageOf address) address
          (fill data (blocs * e._page_write) remain)) e with _ | ⟨e1, _ | _⟩ <;> simp
      · rw [if_neg hc, if_neg hc]
        rw [show u8 (sub32 ((e.pageOf address + 1) * 256) address) = e.fpartOf address from rfl]
        rw [send_run_xfer bus fuel e herr]
        by_cases hn : e.pageOf address + 1 < e._page_number
        · rw [if_pos hn]
          simp only [run_append]
          rcases hr : run bus fuel (e.xfer (e.pageOf address) address
            (fill data (blocs * e._page_write) (e.fpartOf address))) e with _ | ⟨e1, _ | _⟩
          · simp
          · simp
          · obtain ⟨txns, rfl⟩ := run_true bus fuel _ e e1 hr
            have herr1 : (advance bus e txns)._errnum = 0 := herr
            simp only [advance_page_number, hn, if_true, advance_page_write]
            rw [send_run_xfer bus fuel _ herr1]
            simp only [xfer_eq, advance_devAddr, advance_wordAddr, advance_poll]
            rcases hr2 : run bus fuel [Txn.write (e.devAddr (u8 (e.pageOf address + 1)))
              (e.wordAddr (u8 (e.pageOf address + 1)) (u32 (address + e.fpartOf address)) ++
                fill data (u8 (blocs * e._page_write + e.fpartOf address))
                  (sub8 remain (e.fpartOf address))) false, e.poll]
              (advance bus e txns) with _ | ⟨e2, _ | _⟩ <;> simp
        · rw [if_neg hn]
          rcases hr : run bus fuel (e.xfer (e.pageOf address) address
            (fill data (blocs * e._page_write) (e.fpartOf address))) e with _ | ⟨e1, _ | _⟩
          · simp
          · simp
          · obtain ⟨txns, rfl⟩ := run_true bus fuel _ e e1 hr
            simp [hn]
    · rw [if_neg hf, if_neg hf, send_run_xfer bus fuel e herr]
      rcases hr : run bus fuel (e.xfer (e.pageOf address) address
        (fill data (blocs * e._page_write) remain)) e with _ | ⟨e1, _ | _⟩ <;> simp
  · rw [if_neg h0, if_neg h0]
    simp [run]

/-- On any bus, a byte-run write that passes the checks of its arguments is the run of the
calls of `plan`: it returns when every call of `ready()` is answered within `fuel` polls,
and stops at the first data write that is refused. -/
theorem write_array_eq_run (bus : I2C β) (fuel : Nat) (e : EEPROM β) (h : e._errnum = 0)
    (address : Nat) (data : Nat → Nat) (length : Nat)
    (h1 : e.checkAddress address = true)
    (h2 : e.checkAddress (sub32 (u32 (address + length)) 1) = true) :
    write_array bus fuel e address data length =
      (run bus fuel (plan e address data length) e).map Prod.fst := by
  simp only [write_array, h, ne_eq, not_true_eq_false, if_false, h1, h2, Bool.not_true,
    Bool.false_eq_true, writeBlocs_run bus fuel data _ 0 e h, plan, run_append]
  rcases hr : run bus fuel (blocsPlan e data (u8 (length / e._page_write)) 0 address).1 e with
    _ | ⟨e1, _ | _⟩
  · simp
  · simp
  · obtain ⟨txns, rfl⟩ := run_true bus fuel _ e e1 hr
    have herr1 : (advance bus e txns)._errnum = 0 := h
    simp only [Option.map_some', if_true]
    rw [writeRemain_run bus fuel data _ _ _ herr1, remainPlan_advance]

end EEPROM

/-! ## The shape of the log of a write -/

namespace EEPROM

variable {β : Type}

theorem paired_xfer (e : EEPROM β) (page a : Nat) (bytes : List Nat) :
    Paired e.poll (e.xfer page a bytes) :=
  Paired.cons _ _ _ [] (by simp [wordAddr_ne_nil]) Paired.nil

theorem paired_append {p : Txn} {xs ys : List Txn} (hx : Paired p xs) (hy : Paired p ys) :
    Paired p (xs ++ ys) := by
  induction hx with
  | nil => exact hy
  | cons addr cmd r rest hcmd _ ih => exact Paired.cons addr cmd r _ hcmd ih

theorem blocPlan_paired (e : EEPROM β) (data : Nat → Nat) (i a : Nat) :
    Paired e.poll (blocPlan e data i a).1 := by
  unfold blocPlan
  split_ifs <;> first
    | exact paired_xfer e _ _ _
    | exact paired_append (paired_xfer e _ _ _) (paired_xfer e _ _ _)

theorem blocsPlan_paired (e : EEPROM β) (data : Nat → Nat) (n : Nat) : ∀ i a : Nat,
    Paired e.poll (blocsPlan e data n i a).1 := by
  induction n with
  | zero => intro i a; exact Paired.nil
  | succ n ih => intro i a; exact paired_append (blocPlan_paired e data i a) (ih _ _)

theorem remainPlan_paired (e : EEPROM β) (data : Nat → Nat) (blocs r a : Nat) :
    Paired e.poll (remainPlan e data blocs r a) := by
  unfold remainPlan
  split_ifs <;> first
    | exact Paired.nil
    | exact paired_xfer e _ _ _
    | exact paired_append (paired_xfer e _ _ _) (paired_xfer e _ _ _)

/-- The calls of a byte-run write are data writes, each followed by one poll. -/
theorem plan_paired (e : EEPROM β) (address : Nat) (data : Nat → Nat) (length : Nat) :
    Paired e.poll (plan e address data length) :=
  paired_append (blocsPlan_paired e data _ _ _) (remainPlan_paired e data _ _ _)

theorem Paired.mem {p : Txn} {xs : List Txn} (h : Paired p xs) :
    ∀ y ∈ xs, (∃ addr cmd r, cmd ≠ [] ∧ y = Txn.write addr cmd r) ∨ y = p := by
  induction h with
  | nil => intro y hy; simp at hy
  | cons addr cmd r rest hcmd _ ih =>
    intro y hy
    simp only [List.mem_cons] at hy
    rcases hy with rfl | rfl | hy
    · exact Or.inl ⟨addr, cmd, r, hcmd, rfl⟩
    · exact Or.inr rfl
    · exact ih y hy

/-- The log that a run of paired calls adds has the shape `waits` describes: no data write
without the wait for the chip after it, unless it was refused and ended the run. -/
theorem run_waits (bus : I2C β) (fuel : Nat) {p : Txn} {xs : List Txn} (hp : Paired p xs) :
    ∀ (e e1 : EEPROM β) (flag : Bool), e.poll = p → run bus fuel xs e = some (e1, flag) →
    ∃ txns, e1.log = e.log ++ txns ∧ waits bus false e._i2c txns = true := by
  induction hp with
  | nil =>
    intro e e1 flag _ h
    simp only [run, Option.some.injEq, Prod.mk.injEq] at h
    exact ⟨[], by rw [← h.1]; simp, rfl⟩
  | cons addr cmd r rest hcmd _ ih =>
    intro e e1 flag hpoll h
    simp only [run, hcmd, if_false] at h
    rw [i2c_write_fst, i2c_write_snd] at h
    split_ifs at h with hc
    · simp only [Option.some.injEq, Prod.mk.injEq] at h
      refine ⟨[Txn.write addr cmd r], by rw [← h.1]; rfl, ?_⟩
      have hd : (Txn.write addr cmd r).isData = true := isData_write _ _ _ hcmd
      simp [waits, hd, hc]
    · have hc0 : busAck bus e._i2c (Txn.write addr cmd r) = 0 := by simpa using hc
      subst hpoll
      simp only [poll, run, if_true] at h
      cases hl : readyLoop bus fuel (advance bus e [Txn.write addr cmd r]) with
      | none => rw [hl] at h; simp at h
      | some e2 =>
        rw [hl] at h
        obtain ⟨polls, he2, hw⟩ := readyLoop_advance bus fuel _ e2 hl
        obtain ⟨txns, hlog, hwt⟩ := ih e2 e1 flag (by rw [he2]; rfl) h
        refine ⟨Txn.write addr cmd r :: (polls ++ txns), ?_, ?_⟩
        · rw [hlog, he2]; simp
        · have hd : (Txn.write addr cmd r).isData = true := isData_write _ _ _ hcmd
          have := hw txns
          simp only [advance_i2c, List.foldl_cons, List.foldl_nil] at this
          simp only [waits, hd, hc0, if_true, Bool.true_and]
          rw [this]
          exact hwt

/-- In a log of the shape `waits` no two data writes are adjacent, and a data write that
is not the last call is followed by a poll. -/
theorem waits_no_adjacent_data (bus : I2C β) : ∀ (txns : List Txn) (flag : Bool) (b : β),
    waits bus flag b txns = true →
    ∀ (pre post : List Txn) (x y : Txn), txns = pre ++ x :: y :: post →
      x.isData = true → y.isPoll = true := by
  intro txns
  induction txns with
  | nil => intro flag b _ pre post x y h; simp at h
  | cons z zs ih =>
    intro flag b hw pre post x y h hx
    cases pre with
    | nil =>
      simp only [List.nil_append, List.cons.injEq] at h
      obtain ⟨rfl, rfl⟩ := h
      cases flag with
      | true =>
        simp only [waits, Bool.and_eq_true] at hw
        cases z with
        | read a n => simp [Txn.isPoll] at hw
        | write a c r =>
          cases c with
          | nil => simp [Txn.isData] at hx
          | cons c0 cs => simp [Txn.isPoll] at hw
      | false =>
        simp only [waits, Bool.and_eq_true] at hw
        obtain ⟨-, hw2⟩ := hw
        by_cases hc : busAck bus b z = 0
        · rw [if_pos hc] at hw2
          simp only [waits, Bool.and_eq_true] at hw2
          exact hw2.1
        · rw [if_neg hc] at hw2
          simp at hw2
    | cons q qs =>
      simp only [List.cons_append, List.cons.injEq] at h
      obtain ⟨rfl, rfl⟩ := h
      cases flag with
      | true =>
        simp only [waits, Bool.and_eq_true] at hw
        obtain ⟨-, hw2⟩ := hw
        split_ifs at hw2 with hc
        · exact ih _ _ hw2 qs post x y rfl hx
        · exact ih _ _ hw2 qs post x y rfl hx
      | false =>
        simp only [waits, Bool.and_eq_true] at hw
        obtain ⟨-, hw2⟩ := hw
        split_ifs at hw2 with hc
        · exact ih _ _ hw2 qs post x y rfl hx
        · cases qs <;> simp at hw2

end EEPROM

namespace EEPROM

variable {β : Type}

theorem write_array_returns_ack (bus : I2C β) (hack : AlwaysAck bus) (fuel : Nat)
    (e : EEPROM β) (address : Nat) (data : Nat → Nat) (length : Nat) :
    ∃ e1, write_array bus (fuel + 1) e address data length = some e1 := by
  by_cases he : e._errnum = 0
  · by_cases h1 : e.checkAddress address = true
    · by_cases h2 : e.checkAddress (sub32 (u32 (address + length)) 1) = true
      · exact ⟨_, write_array_eq_plan bus hack fuel e he address data length h1 h2⟩
      · exact ⟨{ e with _errnum := EEPROM_OutOfRange }, by simp [write_array, he, h1, h2]⟩
    · exact ⟨{ e with _errnum := EEPROM_OutOfRange }, by simp [write_array, he, h1]⟩
  · exact ⟨_, write_array_of_error bus _ e address data length he⟩

theorem write_int8_returns_ack (bus : I2C β) (hack : AlwaysAck bus) (fuel : Nat)
    (e : EEPROM β) (address data : Nat) :
    ∃ e1, write_int8 bus (fuel + 1) e address data = some e1 := by
  by_cases he : e._errnum = 0
  · by_cases h1 : e.checkAddress address = true
    · exact ⟨_, write_int8_ack bus hack fuel e he address data h1⟩
    · exact ⟨{ e with _errnum := EEPROM_OutOfRange }, by simp [write_int8, he, h1]⟩
  · exact ⟨e, by simp [write_int8, he]⟩

/-- C12: on an error-free driver and any bus, the bus calls that a byte write or a byte-run
write has added to the log when it returns have the shape `waits`: every data write that
the bus acknowledges is followed by the polls of `ready()`, one or more writes of length
zero up to the first acknowledged one, before the next data write and before the end of
the log; a refused data write ends the log. So a data write that is not the last call is
followed by a poll, and no two data writes are adjacent. On an acknowledging bus both
operations return. -/
theorem write_waits_after_each_data_write (bus : I2C β) (fuel : Nat) (e : EEPROM β)
    (herr : e._errnum = EEPROM_NoError) (address : Nat) :
    (∀ (data : Nat) (e1 : EEPROM β), write_int8 bus fuel e address data = some e1 →
      ∃ txns, e1.log = e.log ++ txns ∧ waits bus false e._i2c txns = true ∧
        ∀ (pre post : List Txn) (x y : Txn), txns = pre ++ x :: y :: post →
          x.isData = true → y.isPoll = true ∧ y.isData = false) ∧
    (∀ (data : Nat → Nat) (length : Nat) (e1 : EEPROM β),
      write_array bus fuel e address data length = some e1 →
      ∃ txns, e1.log = e.log ++ txns ∧ waits bus false e._i2c txns = true ∧
        ∀ (pre post : List Txn) (x y : Txn), txns = pre ++ x :: y :: post →
          x.isData = true → y.isPoll = true ∧ y.isData = false) ∧
    (AlwaysAck bus →
      (∀ data : Nat, ∃ e1, write_int8 bus (fuel + 1) e address data = some e1) ∧
      (∀ (data : Nat → Nat) (length : Nat),
        ∃ e1, write_array bus (fuel + 1) e address data length = some e1)) := by
  have herr0 : e._errnum = 0 := herr
  have hpd : ∀ y : Txn, y.isPoll = true → y.isData = false := by
    intro y hy
    cases y with
    | read a n => rfl
    | write a c r => cases c <;> simp_all [Txn.isPoll, Txn.isData]
  have key : ∀ (xs : List Txn) (e1 : EEPROM β) (flag : Bool), Paired e.poll xs →
      run bus fuel xs e = some (e1, flag) →
      ∃ txns, e1.log = e.log ++ txns ∧ waits bus false e._i2c txns = true ∧
        ∀ (pre post : List Txn) (x y : Txn), txns = pre ++ x :: y :: post →
          x.isData = true → y.isPoll = true ∧ y.isData = false := by
    intro xs e1 flag hp hr
    obtain ⟨txns, hlog, hw⟩ := run_waits bus fuel hp e e1 flag rfl hr
    refine ⟨txns, hlog, hw, ?_⟩
    intro pre post x y ht hx
    have := waits_no_adjacent_data bus txns false e._i2c hw pre post x y ht hx
    exact ⟨this, hpd y this⟩
  have hnil : ∀ e1 : EEPROM β, e1.log = e.log →
      ∃ txns, e1.log = e.log ++ txns ∧ waits bus false e._i2c txns = true ∧
        ∀ (pre post : List Txn) (x y : Txn), txns = pre ++ x :: y :: post →
          x.isData = true → y.isPoll = true ∧ y.isData = false := by
    intro e1 h
    exact ⟨[], by simp [h], rfl, by intro pre post x y h; simp at h⟩
  refine ⟨?_, ?_, ?_⟩
  · intro data e1 h
    by_cases h1 : e.checkAddress address = true
    · simp only [write_int8, herr0, ne_eq, not_true_eq_false, if_false, h1, Bool.not_true,
        Bool.false_eq_true] at h
      rw [send_run_xfer bus fuel e herr0] at h
      cases hr : run bus fuel (e.xfer (e.pageOf address) address [u8 data]) e with
      | none => rw [hr] at h; simp at h
      | some r =>
        rw [hr] at h
        simp only [Option.some.injEq] at h
        subst h
        exact key _ r.1 r.2 (paired_xfer e _ _ _) hr
    · simp only [write_int8, herr0, ne_eq, not_true_eq_false, if_false, h1, Bool.not_false,
        if_true, Option.some.injEq] at h
      exact hnil e1 (by rw [← h])
  · intro data length e1 h
    by_cases h1 : e.checkAddress address = true
    · by_cases h2 : e.checkAddress (sub32 (u32 (address + length)) 1) = true
      · rw [write_array_eq_run bus fuel e herr0 address data length h1 h2] at h
        cases hr : run bus fuel (plan e address data length) e with
        | none => rw [hr] at h; simp at h
        | some r =>
          rw [hr] at h
          simp only [Option.map_some', Option.some.injEq] at h
          subst h
          exact key _ r.1 r.2 (plan_paired e _ _ _) hr
      · simp only [write_array, herr0, ne_eq, not_true_eq_false, if_false, h1, h2,
          Bool.not_true, Bool.false_eq_true, Bool.not_false, if_true, Option.some.injEq] at h
        exact hnil e1 (by rw [← h])
    · simp only [write_array, herr0, ne_eq, not_true_eq_false, if_false, h1, Bool.not_false,
        if_true, Option.some.injEq] at h
      exact hnil e1 (by rw [← h])
  · intro hack
    exact ⟨fun data => write_int8_returns_ack bus hack fuel e address data,
      fun data length => write_array_returns_ack bus hack fuel e address data length⟩

theorem write_waits_after_each_data_write_witness :
    (∀ (data : Nat) (e1 : EEPROM Nat), write_int8 (refuseBus 2) 3 (new 0 0 .T24C04) 250 data =
        some e1 →
      ∃ txns, e1.log = (new 0 0 .T24C04 : EEPROM Nat).log ++ txns ∧
        waits (refuseBus 2) false (new 0 0 .T24C04 : EEPROM Nat)._i2c txns = true ∧
        ∀ (pre post : List Txn) (x y : Txn), txns = pre ++ x :: y :: post →
          x.isData = true → y.isPoll = true ∧ y.isData = false) ∧
    (∀ (data : Nat → Nat) (length : Nat) (e1 : EEPROM Nat),
      write_array (refuseBus 2) 3 (new 0 0 .T24C04) 250 data length = some e1 →
      ∃ txns, e1.log = (new 0 0 .T24C04 : EEPROM Nat).log ++ txns ∧
        waits (refuseBus 2) false (new 0 0 .T24C04 : EEPROM Nat)._i2c txns = true ∧
        ∀ (pre post : List Txn) (x y : Txn), txns = pre ++ x :: y :: post →
          x.isData = true → y.isPoll = true ∧ y.isData = false) ∧
    (AlwaysAck (refuseBus 2) →
      (∀ data : Nat, ∃ e1, write_int8 (refuseBus 2) (3 + 1) (new 0 0 .T24C04) 250 data =
        some e1) ∧
      (∀ (data : Nat → Nat) (length : Nat),
        ∃ e1, write_array (refuseBus 2) (3 + 1) (new 0 0 .T24C04) 250 data length = some e1)) :=
  write_waits_after_each_data_write (refuseBus 2) 3 (new 0 0 .T24C04) (by decide) 250

end EEPROM

/-! ## A refused data write -/

namespace EEPROM

variable {β : Type}

/-- A run whose calls are acknowledged up to a data write that is refused stops at this
data write. -/
theorem run_cut (bus : I2C β) (fuel : Nat) (p : Txn) (x : Txn) (post : List Txn)
    (hx : x.isData = true) (pre : List Txn) : ∀ (e : EEPROM β), e.poll = p →
    (∀ y ∈ pre, (∃ addr cmd r, cmd ≠ [] ∧ y = Txn.write addr cmd r) ∨ y = p) →
    acked bus e._i2c pre = true →
    busAck bus (pre.foldl (busAfter bus) e._i2c) x ≠ 0 →
    run bus (fuel + 1) (pre ++ x :: post) e =
      some ({ advance bus e (pre ++ [x]) with _errnum := EEPROM_I2cError }, false) := by
  induction pre with
  | nil =>
    intro e _ _ _ hr
    cases x with
    | read a n => simp [Txn.isData] at hx
    | write addr cmd r =>
      have hcmd : cmd ≠ [] := by
        intro h; subst h; simp [Txn.isData] at hx
      simp only [List.foldl_nil] at hr
      simp [run, hcmd, i2c_write_fst, i2c_write_snd, hr]
  | cons y pre ih =>
    intro e hpoll hshape hack hr
    simp only [acked, Bool.and_eq_true, decide_eq_true_eq] at hack
    obtain ⟨hy, hrest⟩ := hack
    have hshape2 : ∀ z ∈ pre, (∃ addr cmd r, cmd ≠ [] ∧ z = Txn.write addr cmd r) ∨ z = p :=
      fun z hz => hshape z (List.mem_cons_of_mem _ hz)
    have hstep : run bus (fuel + 1) (pre ++ x :: post) (advance bus e [y]) =
        some ({ advance bus (advance bus e [y]) (pre ++ [x]) with
          _errnum := EEPROM_I2cError }, false) :=
      ih (advance bus e [y]) hpoll hshape2 hrest hr
    rw [advance_advance] at hstep
    rcases hshape y (List.mem_cons_self _ _) with ⟨addr, cmd, r, hcmd, rfl⟩ | rfl
    · have hy0 : (bus.write e._i2c addr cmd r).2 = 0 := hy
      simp only [List.cons_append, run, hcmd, if_false, i2c_write_fst, i2c_write_snd, busAck,
        hy0, ne_eq, not_true_eq_false]
      exact hstep
    · subst hpoll
      have hy0 : (bus.write e._i2c (u8 (EEPROM_Address ||| e._address)) [] false).2 = 0 := hy
      simp only [List.cons_append, poll, run, if_true, readyLoop, i2c_write_fst, i2c_write_snd,
        busAck, hy0, ne_eq, not_true_eq_false, if_false]
      exact hstep

end EEPROM

/-! ## Write and read back on the model chip -/

namespace EEPROM

variable {β : Type}

/-- Bytes that fit in the rest of the page are stored one after the other. -/
theorem storePage_fit (pw base : Nat) (bs : List Nat) : ∀ (mem : Nat → Nat) (off : Nat),
    off + bs.length ≤ pw → ∀ x : Nat,
    storePage pw base mem off bs x =
      if base + off ≤ x ∧ x < base + off + bs.length then bs.getD (x - (base + off)) 0
      else mem x := by
  induction bs with
  | nil =>
    intro mem off _ x
    have h2 : ¬ (base + off ≤ x ∧ x < base + off + ([] : List Nat).length) := by
      simp only [List.length_nil]; omega
    rw [if_neg h2]
    rfl
  | cons b bs ih =>
    intro mem off hfit x
    simp only [List.length_cons] at hfit
    have hoff : off % pw = off := Nat.mod_eq_of_lt (by omega)
    simp only [storePage, hoff, List.length_cons]
    rw [ih _ (off + 1) (by omega) x]
    by_cases h1 : base + (off + 1) ≤ x ∧ x < base + (off + 1) + bs.length
    · have h2 : base + off ≤ x ∧ x < base + off + (bs.length + 1) := by omega
      rw [if_pos h1, if_pos h2]
      have h3 : x - (base + off) = (x - (base + (off + 1))) + 1 := by omega
      rw [h3, List.getD_cons_succ]
    · rw [if_neg h1]
      by_cases h4 : x = base + off
      · have h2 : base + off ≤ x ∧ x < base + off + (bs.length + 1) := by omega
        rw [if_pos h4, if_pos h2, h4]
        simp
      · have h2 : ¬ (base + off ≤ x ∧ x < base + off + (bs.length + 1)) := by omega
        rw [if_neg h4, if_neg h2]

theorem chipBus_ack (cfg : EEPROM β) : AlwaysAck (chipBus cfg) := by
  intro b addr cmd r
  simp only [chipBus]
  split_ifs <;> rfl

theorem addrBytes_pos (e : EEPROM β) : 0 < e.addrBytes := by
  unfold addrBytes
  split_ifs <;> omega

theorem chip_poll (e : EEPROM β) (c : Chip) :
    busAfter (chipBus e) c e.poll = c := by
  simp [busAfter, poll, chipBus, addrBytes_pos]

/-- What a data write for address `a` does to the model chip when its data bytes fit in
the rest of the page of `a`: they are stored from `a % 65536` on, and the address pointer
is behind them. -/
theorem WellFormed.chip_write {e : EEPROM β} (h : e.WellFormed) (a : Nat) (ha : a < e._size)
    (bytes : List Nat) (r : Bool) (c : Chip)
    (hfit : a % 65536 % e._page_write + bytes.length ≤ e._page_write) :
    (∀ x, (busAfter (chipBus e) c (Txn.write (e.devAddr (e.pageOf a))
        (e.wordAddr (e.pageOf a) a ++ bytes) r)).mem x =
      if a % 65536 ≤ x ∧ x < a % 65536 + bytes.length then bytes.getD (x - a % 65536) 0
      else c.mem x) ∧
    (bytes = [] → (busAfter (chipBus e) c (Txn.write (e.devAddr (e.pageOf a))
        (e.wordAddr (e.pageOf a) a ++ bytes) r)).ptr = a % 65536) := by
  have hlen : ¬ (e.wordAddr (e.pageOf a) a ++ bytes).length < e.addrBytes := by
    rw [List.length_append, wordAddr_length]; omega
  have ht := h.target_write a ha bytes false
  have hp := payload_write e (e.devAddr (e.pageOf a)) (e.pageOf a) a bytes false
  have hdm : a % 65536 / e._page_write * e._page_write + a % 65536 % e._page_write =
      a % 65536 := by
    rw [Nat.mul_comm]; exact Nat.div_add_mod _ _
  constructor
  · intro x
    simp only [busAfter, chipBus, hlen, if_false, ht, hp]
    rw [storePage_fit _ _ _ _ _ hfit x, hdm]
  · intro hb
    subst hb
    simp only [busAfter, chipBus, hlen, if_false, ht, hp, List.length_nil, Nat.add_zero]
    rw [Nat.mod_mod, hdm]

/-- A data write without data bytes leaves the memory of the model chip as it is. -/
theorem chip_write_empty (e : EEPROM β) (page a : Nat) (r : Bool) (c : Chip) :
    (busAfter (chipBus e) c (Txn.write (e.devAddr page) (e.wordAddr page a ++ []) r)).mem =
      c.mem := by
  have hlen : ¬ (e.wordAddr page a ++ []).length < e.addrBytes := by
    rw [List.length_append, wordAddr_length]; simp
  have hp := payload_write e (e.devAddr page) page a [] false
  simp only [busAfter, chipBus, hlen, if_false, hp, storePage]

theorem chip_xfer_empty (e : EEPROM β) (page a : Nat) (c : Chip) :
    ((e.xfer page a []).foldl (busAfter (chipBus e)) c).mem = c.mem := by
  simp only [xfer, List.foldl_cons, List.foldl_nil, chip_poll]
  exact chip_write_empty e page a false c

/-- The memory of the model chip after a data write whose bytes fit in the page, and the
poll behind it. -/
theorem WellFormed.chip_xfer {e : EEPROM β} (h : e.WellFormed) (a : Nat) (ha : a < e._size)
    (bytes : List Nat) (c : Chip)
    (hfit : a % 65536 % e._page_write + bytes.length ≤ e._page_write) (x : Nat) :
    ((e.xfer (e.pageOf a) a bytes).foldl (busAfter (chipBus e)) c).mem x =
      if a % 65536 ≤ x ∧ x < a % 65536 + bytes.length then bytes.getD (x - a % 65536) 0
      else c.mem x := by
  simp only [xfer, List.foldl_cons, List.foldl_nil, chip_poll]
  exact (h.chip_write a ha bytes false c hfit).1 x

theorem fill_getD (data : Nat → Nat) (base n k : Nat) (hk : k < n) :
    (fill data base n).getD k 0 = u8 (data (base + k)) := by
  simp [fill, List.getD_eq_getElem?_getD, List.getElem?_map, List.getElem?_range hk]

end EEPROM

namespace EEPROM

variable {β : Type}

/-- One pass of the loop from a page-aligned address: the data write of a full page at this
address and, when the page ends a 256-byte block that is not the last one, a data write
without data to the next block. -/
theorem WellFormed.blocPlan_aligned_shape {e : EEPROM β} (h : e.WellFormed)
    (data : Nat → Nat) (i a : Nat) (hal : a % e._page_write = 0)
    (hle : a + e._page_write ≤ e._size) :
    (blocPlan e data i a).2 = a + e._page_write ∧
    ∃ extra, (blocPlan e data i a).1 =
        e.xfer (e.pageOf a) a (fill data (i * e._page_write) e._page_write) ++ extra ∧
      (extra = [] ∨ ∃ pg a1, extra = e.xfer pg a1 []) := by
  obtain ⟨hpw, hsz, hsz2, ha16, hsize, hfold⟩ := h.config
  have hpos : 0 < e._page_write := by omega
  have halt : a < e._size := by omega
  unfold blocPlan
  by_cases hf : e.folded = true
  · obtain ⟨hp, hlt, h2048⟩ := h.pageOf_lt hf a halt
    obtain ⟨h1, h2, h3, h4⟩ := hfold hf
    rw [if_pos hf]
    have hfp : u8 (u32 (a + e._page_write) / 256) ≠ e.pageOf a → e.fpartOf a = e._page_write := by
      intro hne
      rw [hp] at hne
      unfold fpartOf
      rw [hp]
      unfold u8 u32 at hne
      unfold u8 sub32
      rcases hpw with hp | hp | hp | hp | hp <;> rw [hp] at hal hne h3 ⊢ <;> omega
    have hu : u32 (a + e._page_write) = a + e._page_write := u32_of_lt (by omega)
    split_ifs with hc hn
    · exact ⟨hu, [], by simp, Or.inl rfl⟩
    · have hfp2 := hfp hc
      have hs : sub8 e._page_write e._page_write = 0 := by unfold sub8; omega
      rw [hfp2, hs, hu]
      exact ⟨u32_of_lt (by omega), _, rfl, Or.inr ⟨_, _, rfl⟩⟩
    · have hfp2 := hfp hc
      rw [hfp2]
      exact ⟨hu, [], by simp, Or.inl rfl⟩
  · rw [if_neg hf]
    exact ⟨u32_of_lt (by omega), [], by simp, Or.inl rfl⟩

/-- The remainder step for bytes that lie in one page: one data write with these bytes and,
when they end a 256-byte block that is not the last one, a data write without data to the
next block. -/
theorem WellFormed.remainPlan_within_shape {e : EEPROM β} (h : e.WellFormed)
    (data : Nat → Nat) (blocs r a : Nat) (hr0 : r ≠ 0) (hfit : a % e._page_write + r ≤ e._page_write)
    (hle : a + r ≤ e._size) :
    ∃ extra, remainPlan e data blocs r a =
        e.xfer (e.pageOf a) a (fill data (blocs * e._page_write) r) ++ extra ∧
      (extra = [] ∨ ∃ pg a1, extra = e.xfer pg a1 []) := by
  obtain ⟨hpw, hsz, hsz2, ha16, hsize, hfold⟩ := h.config
  have halt : a < e._size := by omega
  unfold remainPlan
  rw [if_pos hr0]
  by_cases hf : e.folded = true
  · obtain ⟨hp, hlt, h2048⟩ := h.pageOf_lt hf a halt
    obtain ⟨h1, h2, h3, h4⟩ := hfold hf
    rw [if_pos hf]
    have hfp : u8 (u32 (a + r) / 256) ≠ e.pageOf a → e.fpartOf a = r := by
      intro hne
      rw [hp] at hne
      unfold fpartOf
      rw [hp]
      unfold u8 u32 at hne
      unfold u8 sub32
      rcases hpw with hp | hp | hp | hp | hp <;> rw [hp] at hfit h3 <;> omega
    split_ifs with hc hn
    · exact ⟨[], by simp, Or.inl rfl⟩
    · have hfp2 := hfp hc
      have hs : sub8 r r = 0 := by unfold sub8; omega
      rw [hfp2, hs]
      exact ⟨_, rfl, Or.inr ⟨_, _, rfl⟩⟩
    · have hfp2 := hfp hc
      rw [hfp2]
      exact ⟨[], by simp, Or.inl rfl⟩
  · rw [if_neg hf]
    exact ⟨[], by simp, Or.inl rfl⟩

/-- The memory of the model chip after a data write whose bytes fit in the page, its poll,
and a data write without data. -/
theorem WellFormed.chip_xfer_extra {e : EEPROM β} (h : e.WellFormed) (a : Nat)
    (ha : a < e._size) (bytes : List Nat) (c : Chip) (extra : List Txn)
    (hextra : extra = [] ∨ ∃ pg a1, extra = e.xfer pg a1 [])
    (hfit : a % 65536 % e._page_write + bytes.length ≤ e._page_write) (x : Nat) :
    ((e.xfer (e.pageOf a) a bytes ++ extra).foldl (busAfter (chipBus e)) c).mem x =
      if a % 65536 ≤ x ∧ x < a % 65536 + bytes.length then bytes.getD (x - a % 65536) 0
      else c.mem x := by
  rw [List.foldl_append]
  rcases hextra with rfl | ⟨pg, a1, rfl⟩
  · exact h.chip_xfer a ha bytes c hfit x
  · rw [chip_xfer_empty]
    exact h.chip_xfer a ha bytes c hfit x

theorem WellFormed.mod_page {e : EEPROM β} (h : e.WellFormed) (a : Nat) :
    a % 65536 % e._page_write = a % e._page_write := by
  rcases h.config.1 with hp | hp | hp | hp | hp <;> rw [hp] <;> omega

/-- The memory of the model chip after the loop over the blocs from a page-aligned address,
when the pages written do not straddle a multiple of 65536: they hold the bytes of `data`,
and the rest of the memory is as before. -/
theorem WellFormed.chip_blocsPlan {e : EEPROM β} (h : e.WellFormed) (data : Nat → Nat)
    (n : Nat) : ∀ (i a : Nat) (c : Chip) (t : Nat), a % e._page_write = 0 →
    a + n * e._page_write ≤ e._size → t + n * e._page_write ≤ 65536 →
    (n = 0 ∨ a % 65536 = t) →
    (blocsPlan e data n i a).2 = a + n * e._page_write ∧
    ∀ x, ((blocsPlan e data n i a).1.foldl (busAfter (chipBus e)) c).mem x =
      if t ≤ x ∧ x < t + n * e._page_write then
        u8 (data (i * e._page_write + (x - t)))
      else c.mem x := by
  obtain ⟨hpw, -, -, -, -, -⟩ := h.config
  have hpos : 0 < e._page_write := by omega
  induction n with
  | zero =>
    intro i a c t _ _ _ _
    refine ⟨by simp [blocsPlan], ?_⟩
    intro x
    have h2 : ¬ (t ≤ x ∧ x < t + 0 * e._page_write) := by omega
    rw [if_neg h2]
    rfl
  | succ n ih =>
    intro i a c t hal hle h64 hat
    have hat2 : a % 65536 = t := by omega
    have hexp : (n + 1) * e._page_write = n * e._page_write + e._page_write := by ring
    have hexp2 : (i + 1) * e._page_write = i * e._page_write + e._page_write := by ring
    obtain ⟨hb2, extra, hb1, hextra⟩ := h.blocPlan_aligned_shape data i a hal (by omega)
    have hal2 : (a + e._page_write) % e._page_write = 0 := by
      rw [Nat.add_mod_right]; exact hal
    have hnext : n = 0 ∨ (a + e._page_write) % 65536 = t + e._page_write := by
      by_cases hn : n = 0
      · exact Or.inl hn
      · right
        have h1n : 1 ≤ n := Nat.one_le_iff_ne_zero.mpr hn
        have : e._page_write ≤ n * e._page_write := Nat.le_mul_of_pos_left _ h1n
        omega
    obtain ⟨hr1, hr2⟩ := ih (i + 1) (a + e._page_write)
      ((e.xfer (e.pageOf a) a (fill data (i * e._page_write) e._page_write) ++ extra).foldl
        (busAfter (chipBus e)) c) (t + e._page_write) hal2 (by omega) (by omega) hnext
    simp only [blocsPlan, hb2, hb1]
    refine ⟨by rw [hr1]; omega, ?_⟩
    intro x
    rw [List.foldl_append, hr2 x,
      h.chip_xfer_extra a (by omega) _ c extra hextra (by
        rw [h.mod_page, hal, fill_length]; omega) x, fill_length, hat2]
    by_cases c1 : t ≤ x ∧ x < t + e._page_write
    · have c2 : ¬ (t + e._page_write ≤ x ∧
          x < t + e._page_write + n * e._page_write) := by omega
      have c3 : t ≤ x ∧ x < t + (n + 1) * e._page_write := by omega
      rw [if_neg c2, if_pos c1, if_pos c3, fill_getD _ _ _ _ (by omega)]
    · rw [if_neg c1]
      by_cases c2 : t + e._page_write ≤ x ∧
          x < t + e._page_write + n * e._page_write
      · have c3 : t ≤ x ∧ x < t + (n + 1) * e._page_write := by omega
        rw [if_pos c2, if_pos c3]
        congr 2
        omega
      · have c3 : ¬ (t ≤ x ∧ x < t + (n + 1) * e._page_write) := by omega
        rw [if_neg c2, if_neg c3]

end EEPROM

namespace EEPROM

variable {β : Type}

theorem WellFormed.advance {e : EEPROM β} (h : e.WellFormed) (bus : I2C β) (xs : List Txn) :
    (advance bus e xs).WellFormed := h

/-- The addressed read on the model chip: no error, and the bytes of the memory from the
address (modulo 65536) on. -/
theorem WellFormed.read_array_chip {e : EEPROM Chip} (h : e.WellFormed) (cfg : EEPROM Chip)
    (hcfg : chipBus cfg = chipBus e) (herr : e._errnum = 0) (address size : Nat)
    (buf : List Nat) (ha : e.checkAddress address = true)
    (hl : e.checkAddress (sub32 (u32 (address + size)) 1) = true) :
    (read_array (chipBus cfg) e address buf size).1._errnum = 0 ∧
    (read_array (chipBus cfg) e address buf size).2 =
      (List.range size).map (fun j => e._i2c.mem (address % 65536 + j)) := by
  rw [hcfg]
  have halt : address < e._size := (h.checkAddress_iff address).mp ha
  have hw := h.chip_write address halt [] true e._i2c (by
    simp only [List.length_nil, Nat.add_zero]
    exact Nat.le_of_lt (Nat.mod_lt _ (by rcases h.config.1 with hp | hp | hp | hp | hp <;> omega)))
  simp only [List.append_nil, busAfter] at hw
  obtain ⟨hmem, hptr⟩ := hw
  have hptr := hptr trivial
  rw [read_array_eq (chipBus e) e herr address size buf ha hl]
  have hack := chipBus_ack e e._i2c (e.devAddr (e.pageOf address))
    (e.wordAddr (e.pageOf address) address) true
  have hrd : ∀ (c : Chip) (d n : Nat), ((chipBus e).read c d n).2.1 = 0 := fun _ _ _ => rfl
  have hbytes : ∀ (c : Chip) (d n : Nat), ((chipBus e).read c d n).2.2 =
      (List.range n).map (fun j => c.mem (c.ptr + j)) := fun _ _ _ => rfl
  simp only [hack, hrd, ne_eq, not_true_eq_false, if_false, hbytes, hptr]
  refine ⟨herr, ?_⟩
  apply List.map_congr_left
  intro j _
  rw [hmem]
  simp

theorem leValue_leBytes (v base : Nat) (hv : v < 2 ^ 32) :
    leValue ([u8 (leBytes v (base * 0 + 0)), u8 (leBytes v (base * 0 + 1)),
      u8 (leBytes v (base * 0 + 2)), u8 (leBytes v (base * 0 + 3))]) = v := by
  simp only [leValue, leBytes, u8, List.foldr, Nat.mul_zero, Nat.zero_add,
    Nat.shiftRight_eq_div_pow]
  omega

end EEPROM

namespace EEPROM

/-- C14, amended: on the model chip, for every chip type, every error-free driver, every
valid address that is a multiple of the page size and every byte sequence of length
`3 * _page_write` whose range lies in the chip and does not straddle a multiple of 65536,
the byte-run write returns without error and the byte-run read of the same range then
returns exactly the bytes written, without error. -/
theorem write_read_round_trip_aligned (e : EEPROM Chip) (hwf : e.WellFormed)
    (herr : e._errnum = EEPROM_NoError) (fuel : Nat) (address : Nat) (data : Nat → Nat)
    (buf : List Nat) (ha : e.checkAddress address = true)
    (hle : address + 3 * e._page_write ≤ e.getSize)
    (hal : address % e._page_write = 0)
    (h64 : address % 65536 + 3 * e._page_write ≤ 65536) :
    ∃ e1, write_array (chipBus e) (fuel + 1) e address data (3 * e._page_write) = some e1 ∧
      e1._errnum = EEPROM_NoError ∧
      (read_array (chipBus e) e1 address buf (3 * e._page_write)).1._errnum = EEPROM_NoError ∧
      (read_array (chipBus e) e1 address buf (3 * e._page_write)).2 =
        (List.range (3 * e._page_write)).map (fun j => u8 (data j)) := by
  obtain ⟨hpw, hsz, hsz2, ha16, hsize, hfold⟩ := hwf.config
  have herr0 : e._errnum = 0 := herr
  have hpos : 0 < e._page_write := by omega
  have hle' : address + 3 * e._page_write ≤ e._size := hle
  have hblocs : u8 (3 * e._page_write / e._page_write) = 3 := by
    rw [Nat.mul_div_cancel _ hpos]; rfl
  have hrem : u8 (sub32 (3 * e._page_write) (3 * e._page_write)) = 0 := by
    unfold u8 sub32; omega
  rcases hwf.write_array_in_range (chipBus e) (chipBus_ack e) fuel herr0 address data
    (3 * e._page_write) ha hle' with hw | ⟨h0, -⟩
  swap
  · omega
  obtain ⟨hn, hmem⟩ := hwf.chip_blocsPlan data 3 0 address e._i2c (address % 65536) hal
    hle' h64 (Or.inr rfl)
  have hplan : plan e address data (3 * e._page_write) = (blocsPlan e data 3 0 address).1 := by
    unfold plan
    rw [hblocs, hrem]
    simp [remainPlan]
  have hl : (advance (chipBus e) e (plan e address data (3 * e._page_write))).checkAddress
      (sub32 (u32 (address + 3 * e._page_write)) 1) = true := by
    show e.checkAddress _ = true
    rw [hwf.checkAddress_iff]
    unfold sub32 u32
    omega
  obtain ⟨hr1, hr2⟩ := (hwf.advance (chipBus e) (plan e address data (3 * e._page_write))).read_array_chip
    e rfl herr0 address (3 * e._page_write) buf ha hl
  refine ⟨_, hw, herr, hr1, ?_⟩
  rw [hr2]
  apply List.map_congr_left
  intro j hj
  have hj2 := List.mem_range.mp hj
  rw [advance_i2c, hplan, hmem]
  have c1 : address % 65536 ≤ address % 65536 + j ∧
      address % 65536 + j < address % 65536 + 3 * e._page_write := by omega
  rw [if_pos c1]
  congr 2
  omega

theorem write_read_round_trip_aligned_witness :
    ∃ e1, write_array (chipBus (new blankChip 0 .T24C04)) (0 + 1) (new blankChip 0 .T24C04) 240
        (fun k => k + 1) (3 * (new blankChip 0 .T24C04)._page_write) = some e1 ∧
      e1._errnum = EEPROM_NoError ∧
      (read_array (chipBus (new blankChip 0 .T24C04)) e1 240 []
        (3 * (new blankChip 0 .T24C04)._page_write)).1._errnum = EEPROM_NoError ∧
      (read_array (chipBus (new blankChip 0 .T24C04)) e1 240 []
        (3 * (new blankChip 0 .T24C04)._page_write)).2 =
        (List.range (3 * (new blankChip 0 .T24C04)._page_write)).map
          (fun j => u8 ((fun k => k + 1) j)) :=
  write_read_round_trip_aligned (new blankChip 0 .T24C04)
    (new_wellFormed blankChip 0 .T24C04 (by decide) (by decide)) (by decide) 0 240
    (fun k => k + 1) [] (by decide) (by decide) (by decide) (by decide)

set_option maxRecDepth 1000000 in
set_option maxHeartbeats 4000000 in
/-- C14, as stated, fails: on the model chip of a 24C01 (pages of 8 bytes) the write of the
24 bytes 1, 2, ..., 24 at the valid address 6, which is not page-aligned, and the read of
the same range return without error, but the bytes read are not the bytes written: the
third byte read is 11, not 3, because each bus write of 8 bytes from an address two bytes
before a page boundary wraps inside its page. -/
theorem write_read_round_trip_unaligned_fails :
    (new blankChip 0 .T24C01)._page_write = 8 ∧ 6 % 8 ≠ 0 ∧
    (new blankChip 0 .T24C01).checkAddress 6 = true ∧
    (new blankChip 0 .T24C01).checkAddress (6 + 24 - 1) = true ∧
    (write_array (chipBus (new blankChip 0 .T24C01)) 1 (new blankChip 0 .T24C01) 6
        (fun k => k + 1) 24).map (fun e1 =>
      (e1._errnum,
       (read_array (chipBus (new blankChip 0 .T24C01)) e1 6 [] 24).1._errnum,
       (read_array (chipBus (new blankChip 0 .T24C01)) e1 6 [] 24).2.take 3)) =
      some (EEPROM_NoError, EEPROM_NoError, [1, 2, 11]) ∧
    (write_array (chipBus (new blankChip 0 .T24C01)) 1 (new blankChip 0 .T24C01) 6
        (fun k => k + 1) 24).map (fun e1 =>
      (read_array (chipBus (new blankChip 0 .T24C01)) e1 6 [] 24).2.take 3) ≠
      some (((List.range 24).map (fun k => k + 1)).take 3) := by
  decide

/-- C15, amended: on the model chip, for every chip type, every error-free driver, every
address `A` with `A + 3` valid whose four bytes lie in one write page
(`A % _page_write + 4 ≤ _page_write`) and every 32-bit pattern `v`, `write(A, float)`
returns without error and `read(A, float&)` then yields exactly `v`, without error. -/
theorem float_round_trip_within_page (e : EEPROM Chip) (hwf : e.WellFormed)
    (herr : e._errnum = EEPROM_NoError) (fuel : Nat) (A v data0 : Nat) (cmd0 : List Nat)
    (hv : v < 2 ^ 32) (hvalid : e.checkAddress (A + 3) = true)
    (hpage : A % e._page_write + 4 ≤ e._page_write) :
    ∃ e1, write_float (chipBus e) (fuel + 1) e A v = some e1 ∧
      e1._errnum = EEPROM_NoError ∧
      (read_float (chipBus e) e1 A data0 cmd0).1._errnum = EEPROM_NoError ∧
      (read_float (chipBus e) e1 A data0 cmd0).2 = v := by
  obtain ⟨hpw, hsz, hsz2, ha16, hsize, hfold⟩ := hwf.config
  have herr0 : e._errnum = 0 := herr
  have hpos : 0 < e._page_write := by omega
  have hlt : A + 3 < e._size := (hwf.checkAddress_iff _).mp hvalid
  have ha : e.checkAddress A = true := (hwf.checkAddress_iff _).mpr (by omega)
  have hu3 : u32 (A + 3) = A + 3 := u32_of_lt (by omega)
  have hblocs : u8 (4 / e._page_write) = 0 := by
    rw [Nat.div_eq_of_lt (by omega)]; rfl
  have hrem : u8 (sub32 4 (0 * e._page_write)) = 4 := by
    unfold u8 sub32; omega
  rcases hwf.write_array_in_range (chipBus e) (chipBus_ack e) fuel herr0 A (leBytes v) 4 ha
    (by omega) with hw | ⟨h0, -⟩
  swap
  · omega
  obtain ⟨extra, hshape, hextra⟩ := hwf.remainPlan_within_shape (leBytes v) 0 4 A (by omega)
    hpage (by omega)
  have hplan : plan e A (leBytes v) 4 =
      e.xfer (e.pageOf A) A (fill (leBytes v) (0 * e._page_write) 4) ++ extra := by
    unfold plan
    rw [hblocs, hrem]
    simp only [blocsPlan, List.nil_append]
    exact hshape
  have hmem := hwf.chip_xfer_extra A (by omega) (fill (leBytes v) (0 * e._page_write) 4)
    e._i2c extra hextra (by rw [hwf.mod_page, fill_length]; exact hpage)
  have hl : (advance (chipBus e) e (plan e A (leBytes v) 4)).checkAddress
      (sub32 (u32 (A + 4)) 1) = true := by
    show e.checkAddress _ = true
    rw [hwf.checkAddress_iff]
    unfold sub32 u32
    omega
  obtain ⟨hr1, hr2⟩ := (hwf.advance (chipBus e) (plan e A (leBytes v) 4)).read_array_chip
    e rfl herr0 A 4 cmd0 ha hl
  have hwf' : write_float (chipBus e) (fuel + 1) e A v =
      some (advance (chipBus e) e (plan e A (leBytes v) 4)) := by
    simp only [write_float, herr0, ne_eq, not_true_eq_false, if_false, hu3, hvalid,
      Bool.not_true, Bool.false_eq_true]
    exact hw
  have hc3 : (advance (chipBus e) e (plan e A (leBytes v) 4)).checkAddress (u32 (A + 3)) =
      true := by
    rw [hu3]; exact hvalid
  refine ⟨_, hwf', herr, ?_, ?_⟩
  · simp only [read_float, advance_errnum, herr0, ne_eq, not_true_eq_false, if_false, hc3,
      Bool.not_true, Bool.false_eq_true]
    exact hr1
  · simp only [read_float, advance_errnum, herr0, ne_eq, not_true_eq_false, if_false, hc3,
      Bool.not_true, Bool.false_eq_true]
    rw [hr2, advance_i2c, hplan]
    have h4 : List.range 4 = [0, 1, 2, 3] := rfl
    have hb : ∀ j, j < 4 →
        ((e.xfer (e.pageOf A) A (fill (leBytes v) (0 * e._page_write) 4) ++ extra).foldl
          (busAfter (chipBus e)) e._i2c).mem (A % 65536 + j) =
        u8 (leBytes v (e._page_write * 0 + j)) := by
      intro j hj
      rw [hmem, fill_length]
      have c1 : A % 65536 ≤ A % 65536 + j ∧ A % 65536 + j < A % 65536 + 4 := by omega
      rw [if_pos c1, Nat.add_sub_cancel_left, fill_getD _ _ _ _ hj, Nat.zero_mul, Nat.mul_zero]
    rw [h4]
    simp only [List.map_cons, List.map_nil, Nat.add_zero]
    have hb0 := hb 0 (by omega)
    rw [Nat.add_zero] at hb0
    rw [hb0, hb 1 (by omega), hb 2 (by omega), hb 3 (by omega)]
    have htake : ∀ a b c d : Nat, List.take 4 [a, b, c, d] = [a, b, c, d] := fun _ _ _ _ => rfl
    rw [htake]
    exact leValue_leBytes v e._page_write hv

theorem float_round_trip_within_page_witness :
    ∃ e1, write_float (chipBus (new blankChip 0 .T24C64)) (0 + 1) (new blankChip 0 .T24C64)
        ((new blankChip 0 .T24C64).getSize - 8) 0xC1442910 = some e1 ∧
      e1._errnum = EEPROM_NoError ∧
      (read_float (chipBus (new blankChip 0 .T24C64)) e1
        ((new blankChip 0 .T24C64).getSize - 8) 0 []).1._errnum = EEPROM_NoError ∧
      (read_float (chipBus (new blankChip 0 .T24C64)) e1
        ((new blankChip 0 .T24C64).getSize - 8) 0 []).2 = 0xC1442910 :=
  float_round_trip_within_page (new blankChip 0 .T24C64)
    (new_wellFormed blankChip 0 .T24C64 (by decide) (by decide)) (by decide) 0
    ((new blankChip 0 .T24C64).getSize - 8) 0xC1442910 0 [] (by decide) (by decide) (by decide)

/-- C15, as stated, fails: on the model chip of a 24C64 (pages of 32 bytes) the address 30
has 30 + 3 valid; `write(30, float)` of the pattern 0x04030201 is sent as one bus write of
four bytes that crosses the page boundary 32 and wraps, and `read(30, float&)` then yields
0x0201 = 513, without error. -/
theorem float_round_trip_across_page_fails :
    (new blankChip 0 .T24C64).checkAddress (30 + 3) = true ∧
    (0x04030201 : Nat) < 2 ^ 32 ∧
    (write_float (chipBus (new blankChip 0 .T24C64)) 1 (new blankChip 0 .T24C64) 30
        0x04030201).map (fun e1 =>
      (e1._errnum,
       (read_float (chipBus (new blankChip 0 .T24C64)) e1 30 0 []).1._errnum,
       (read_float (chipBus (new blankChip 0 .T24C64)) e1 30 0 []).2)) =
      some (EEPROM_NoError, EEPROM_NoError, 513) ∧
    (513 : Nat) ≠ 0x04030201 := by
  decide

end EEPROM

/-! ## Reads that fail the address check, and the current-address read -/

namespace EEPROM

variable {β : Type}

theorem checkAddress_two_pow (e : EEPROM β) (a : Nat) (h : 2 ^ 32 - 4 ≤ a) :
    e.checkAddress a = false := by
  rw [checkAddress_eq]
  cases e._type <;> simp [TypeEeprom.val] <;> omega

theorem read_array_of_bad_address (bus : I2C β) (e : EEPROM β) (herr : e._errnum = 0)
    (address size : Nat) (data : List Nat)
    (h : e.checkAddress address = false ∨
      e.checkAddress (sub32 (u32 (address + size)) 1) = false) :
    read_array bus e address data size = ({ e with _errnum := EEPROM_OutOfRange }, data) := by
  unfold read_array
  rcases h with h | h
  · simp [herr, h]
  · by_cases h1 : e.checkAddress address = true <;> simp [herr, h, h1]

/-- A typed read of `n + 1` bytes whose last address `address + n`, over the integers, is
not valid: either the check of the typed read fails, or `address + n` has wrapped and the
check of `address` in the byte-run read fails. -/
theorem read_array_of_bad_last (bus : I2C β) (e : EEPROM β) (herr : e._errnum = 0)
    (address n : Nat) (haddr : address < 2 ^ 32) (hn : n < 4) (cmd : List Nat)
    (h : e.checkAddress (address + n) = false) :
    (if !e.checkAddress (u32 (address + n)) then { e with _errnum := EEPROM_OutOfRange }
      else (read_array bus e address cmd (n + 1)).1) = { e with _errnum := EEPROM_OutOfRange } := by
  by_cases hw : address + n < 2 ^ 32
  · rw [u32_of_lt hw, h]
    rfl
  · have hbad : e.checkAddress address = false := checkAddress_two_pow e address (by omega)
    rw [read_array_of_bad_address bus e herr address (n + 1) cmd (Or.inl hbad)]
    split_ifs <;> rfl

/-- The reads that a check of the arguments stops. On an error-free driver of any chip
type, the addressed byte-run read whose `address` is not valid, or whose last address, as
the check computes it in `uint32_t`, is not valid, sets the error state to
`EEPROM_OutOfRange`, issues no bus call (the driver is unchanged but for the error slot)
and leaves the buffer as it was; for a run that does not pass the end of the 32-bit
address space the last address is the integer `address + size - 1`. The reads of a short,
a long and a float do the same when `address + 1`, respectively `address + 3`, taken over
the integers, is not valid. A byte-run read from a valid address whose end passes `2^32`
is not stopped: see `read_array_wrapped_size_passes_check`. -/
theorem read_out_of_range_no_bus_call (bus : I2C β) (e : EEPROM β)
    (herr : e._errnum = EEPROM_NoError) (address : Nat) (haddr : address < 2 ^ 32) :
    (∀ (size : Nat) (data : List Nat),
      (e.checkAddress address = false ∨
        e.checkAddress (sub32 (u32 (address + size)) 1) = false ∨
        (address + size ≤ 2 ^ 32 ∧ 1 ≤ address + size ∧
          e.checkAddress (address + size - 1) = false)) →
      read_array bus e address data size = ({ e with _errnum := EEPROM_OutOfRange }, data)) ∧
    (∀ (data : Nat) (cmd : List Nat), e.checkAddress (address + 1) = false →
      (read_int16 bus e address data cmd).1 = { e with _errnum := EEPROM_OutOfRange }) ∧
    (∀ (data : Nat) (cmd : List Nat), e.checkAddress (address + 3) = false →
      (read_int32 bus e address data cmd).1 = { e with _errnum := EEPROM_OutOfRange }) ∧
    (∀ (data : Nat) (cmd : List Nat), e.checkAddress (address + 3) = false →
      (read_float bus e address data cmd).1 = { e with _errnum := EEPROM_OutOfRange }) := by
  have herr0 : e._errnum = 0 := herr
  refine ⟨?_, ?_, ?_, ?_⟩
  · intro size data h
    apply read_array_of_bad_address bus e herr0
    rcases h with h | h | ⟨h1, h2, h3⟩
    · exact Or.inl h
    · exact Or.inr h
    · right
      have : sub32 (u32 (address + size)) 1 = address + size - 1 := by
        unfold sub32 u32
        omega
      rw [this]
      exact h3
  · intro data cmd h
    have := read_array_of_bad_last bus e herr0 address 1 haddr (by omega) cmd h
    simp only [read_int16, herr0, ne_eq, not_true_eq_false, if_false]
    split_ifs at this ⊢ with hc <;> exact this
  · intro data cmd h
    have := read_array_of_bad_last bus e herr0 address 3 haddr (by omega) cmd h
    simp only [read_int32, herr0, ne_eq, not_true_eq_false, if_false]
    split_ifs at this ⊢ with hc <;> exact this
  · intro data cmd h
    have := read_array_of_bad_last bus e herr0 address 3 haddr (by omega) cmd h
    simp only [read_float, herr0, ne_eq, not_true_eq_false, if_false]
    split_ifs at this ⊢ with hc <;> exact this

theorem read_out_of_range_no_bus_call_witness :
    (new () 0 .T24C02 : EEPROM Unit).checkAddress (255 + 1) = false ∧
    ((∀ (size : Nat) (data : List Nat),
      ((new () 0 .T24C02 : EEPROM Unit).checkAddress 255 = false ∨
        (new () 0 .T24C02 : EEPROM Unit).checkAddress (sub32 (u32 (255 + size)) 1) = false ∨
        (255 + size ≤ 2 ^ 32 ∧ 1 ≤ 255 + size ∧
          (new () 0 .T24C02 : EEPROM Unit).checkAddress (255 + size - 1) = false)) →
      read_array ackBus (new () 0 .T24C02) 255 data size =
        ({ (new () 0 .T24C02 : EEPROM Unit) with _errnum := EEPROM_OutOfRange }, data)) ∧
    (∀ (data : Nat) (cmd : List Nat),
      (new () 0 .T24C02 : EEPROM Unit).checkAddress (255 + 1) = false →
      (read_int16 ackBus (new () 0 .T24C02) 255 data cmd).1 =
        { (new () 0 .T24C02 : EEPROM Unit) with _errnum := EEPROM_OutOfRange }) ∧
    (∀ (data : Nat) (cmd : List Nat),
      (new () 0 .T24C02 : EEPROM Unit).checkAddress (255 + 3) = false →
      (read_int32 ackBus (new () 0 .T24C02) 255 data cmd).1 =
        { (new () 0 .T24C02 : EEPROM Unit) with _errnum := EEPROM_OutOfRange }) ∧
    (∀ (data : Nat) (cmd : List Nat),
      (new () 0 .T24C02 : EEPROM Unit).checkAddress (255 + 3) = false →
      (read_float ackBus (new () 0 .T24C02) 255 data cmd).1 =
        { (new () 0 .T24C02 : EEPROM Unit) with _errnum := EEPROM_OutOfRange })) :=
  ⟨by decide,
    read_out_of_range_no_bus_call ackBus (new () 0 .T24C02) (by decide) 255 (by decide)⟩

/-- C21, failing input: on a 24C64 the addressed read at the valid address 8161 of size
4294959136 (`= 2^32 - 8160`) ends, over the integers, at 8161 + 4294959136 - 1 =
4294967296, which is no valid address; the check computes `address + size - 1` in
`uint32_t`, gets 0, and lets the read pass: the driver sends the word address 8161 and
issues the bus read of 4294959136 bytes, and reports no error. -/
theorem read_array_wrapped_size_passes_check :
    (new () 0 .T24C64 : EEPROM Unit)._errnum = EEPROM_NoError ∧
    (new () 0 .T24C64 : EEPROM Unit).checkAddress 8161 = true ∧
    (new () 0 .T24C64 : EEPROM Unit).checkAddress (8161 + 4294959136 - 1) = false ∧
    4294959136 < 2 ^ 32 ∧
    sub32 (u32 (8161 + 4294959136)) 1 = 0 ∧
    ((read_array ackBus (new () 0 .T24C64) 8161 [] 4294959136).1._errnum,
      (read_array ackBus (new () 0 .T24C64) 8161 [] 4294959136).1.log) =
      (EEPROM_NoError, [Txn.write 160 [31, 225] true, Txn.read 160 4294959136]) ∧
    (read_array ackBus (new () 0 .T24C64) 8161 [] 4294959136).1._errnum ≠
      EEPROM_OutOfRange := by
  decide

/-- C22: on an error-free driver the current-address read issues one bus call, a read of
one byte from the device byte `EEPROM_Address | _address` (base address and chip-select
bits, no block bits), without a write of a word address before it and whatever the state
of the driver besides the error slot; when the bus acknowledges the read the error state
stays `EEPROM_NoError` and the byte read is returned, otherwise the error state becomes
`EEPROM_I2cError`. -/
theorem read_current_one_bus_read (bus : I2C β) (e : EEPROM β) (hwf : e.WellFormed)
    (herr : e._errnum = EEPROM_NoError) (data : List Nat) :
    (read_current bus e data).1.log =
      e.log ++ [Txn.read (EEPROM_Address ||| e._address) 1] ∧
    (read_current bus e data).1._i2c =
      (bus.read e._i2c (EEPROM_Address ||| e._address) 1).1 ∧
    (read_current bus e data).2 = (bus.read e._i2c (EEPROM_Address ||| e._address) 1).2.2 ∧
    ((bus.read e._i2c (EEPROM_Address ||| e._address) 1).2.1 = 0 →
      (read_current bus e data).1._errnum = EEPROM_NoError) ∧
    ((bus.read e._i2c (EEPROM_Address ||| e._address) 1).2.1 ≠ 0 →
      (read_current bus e data).1._errnum = EEPROM_I2cError) := by
  have herr0 : e._errnum = 0 := herr
  have hp := hwf.poll_eq
  simp only [poll, Txn.write.injEq, and_true] at hp
  simp only [read_current, herr0, ne_eq, not_true_eq_false, if_false, hp]
  by_cases hc : (bus.read e._i2c (EEPROM_Address ||| e._address) 1).2.1 = 0
  · simp [i2c_read, hc, herr]
  · simp [i2c_read, hc]

theorem read_current_one_bus_read_witness :
    (read_current ackBus (new () 5 .T24C02) [7]).1.log =
      (new () 5 .T24C02 : EEPROM Unit).log ++
        [Txn.read (EEPROM_Address ||| (new () 5 .T24C02 : EEPROM Unit)._address) 1] ∧
    (read_current ackBus (new () 5 .T24C02) [7]).1._i2c =
      (ackBus.read (new () 5 .T24C02 : EEPROM Unit)._i2c
        (EEPROM_Address ||| (new () 5 .T24C02 : EEPROM Unit)._address) 1).1 ∧
    (read_current ackBus (new () 5 .T24C02) [7]).2 =
      (ackBus.read (new () 5 .T24C02 : EEPROM Unit)._i2c
        (EEPROM_Address ||| (new () 5 .T24C02 : EEPROM Unit)._address) 1).2.2 ∧
    ((ackBus.read (new () 5 .T24C02 : EEPROM Unit)._i2c
        (EEPROM_Address ||| (new () 5 .T24C02 : EEPROM Unit)._address) 1).2.1 = 0 →
      (read_current ackBus (new () 5 .T24C02) [7]).1._errnum = EEPROM_NoError) ∧
    ((ackBus.read (new () 5 .T24C02 : EEPROM Unit)._i2c
        (EEPROM_Address ||| (new () 5 .T24C02 : EEPROM Unit)._address) 1).2.1 ≠ 0 →
      (read_current ackBus (new () 5 .T24C02) [7]).1._errnum = EEPROM_I2cError) :=
  read_current_one_bus_read ackBus (new () 5 .T24C02)
    (new_wellFormed () 5 .T24C02 (by decide) (by decide)) (by decide) [7]

end EEPROM

/-! ## The wait for the chip -/

namespace EEPROM

variable {β : Type}

theorem foldl_replicate_succ (bus : I2C β) (p : Txn) (k : Nat) (b : β) :
    (List.replicate (k + 1) p).foldl (busAfter bus) b =
      (List.replicate k p).foldl (busAfter bus) (busAfter bus b p) := by
  simp [List.replicate_succ]

/-- The loop of `ready()` on a bus that refuses `n` polls and acknowledges the next one:
with `n + 1` polls or more allowed it ends after `n + 1` polls, with fewer it has not
ended. -/
theorem readyLoop_polls (bus : I2C β) (n : Nat) : ∀ (e : EEPROM β),
    (∀ k < n, busAck bus ((List.replicate k e.poll).foldl (busAfter bus) e._i2c) e.poll ≠ 0) →
    busAck bus ((List.replicate n e.poll).foldl (busAfter bus) e._i2c) e.poll = 0 →
    (∀ fuel, n + 1 ≤ fuel →
      readyLoop bus fuel e = some (advance bus e (List.replicate (n + 1) e.poll))) ∧
    (∀ fuel, fuel ≤ n → readyLoop bus fuel e = none) := by
  induction n with
  | zero =>
    intro e _ hack
    constructor
    · intro fuel hf
      obtain ⟨f, rfl⟩ : ∃ f, fuel = f + 1 := ⟨fuel - 1, by omega⟩
      have hack0 : busAck bus e._i2c (Txn.write (u8 (EEPROM_Address ||| e._address)) [] false)
          = 0 := hack
      simp only [readyLoop, i2c_write_fst, i2c_write_snd, hack0, ne_eq, not_true_eq_false,
        if_false]
      rfl
    · intro fuel hf
      have : fuel = 0 := by omega
      subst this
      rfl
  | succ n ih =>
    intro e href hack
    have h0 : busAck bus e._i2c (Txn.write (u8 (EEPROM_Address ||| e._address)) [] false)
        ≠ 0 := href 0 (by omega)
    have hstep := ih (advance bus e [e.poll])
      (by
        intro k hk
        have := href (k + 1) (by omega)
        rw [foldl_replicate_succ] at this
        exact this)
      (by
        rw [foldl_replicate_succ] at hack
        exact hack)
    constructor
    · intro fuel hf
      obtain ⟨f, rfl⟩ : ∃ f, fuel = f + 1 := ⟨fuel - 1, by omega⟩
      simp only [readyLoop, i2c_write_fst, i2c_write_snd, h0, ne_eq, not_false_eq_true, if_true]
      have := hstep.1 f (by omega)
      simp only [advance_poll, advance_advance] at this
      exact this
    · intro fuel hf
      cases fuel with
      | zero => rfl
      | succ f =>
        simp only [readyLoop, i2c_write_fst, i2c_write_snd, h0, ne_eq, not_false_eq_true,
          if_true]
        exact hstep.2 f (by omega)

/-- C23: on an error-free driver and a bus that, from its state at the call, refuses the
first `n` polls and acknowledges the next one, `ready()` returns as soon as `n + 1` polls
are allowed, after exactly `n + 1` bus calls (with `n` polls or fewer allowed it has not
returned); each call is a write of length zero to the device byte
`EEPROM_Address | _address`, the base address with the chip-select bits and without
block bits, whatever was written before; the error state stays `EEPROM_NoError`. On a
driver in an error state `ready()` returns at once and issues no bus call. -/
theorem ready_polls_until_acknowledged (bus : I2C β) (e : EEPROM β) (hwf : e.WellFormed)
    (herr : e._errnum = EEPROM_NoError) (n : Nat)
    (hrefuse : ∀ k < n,
      busAck bus ((List.replicate k e.poll).foldl (busAfter bus) e._i2c) e.poll ≠ 0)
    (hack : busAck bus ((List.replicate n e.poll).foldl (busAfter bus) e._i2c) e.poll = 0) :
    e.poll = Txn.write (EEPROM_Address ||| e._address) [] false ∧
    (∀ fuel, n + 1 ≤ fuel → ∃ e1, ready bus fuel e = some e1 ∧
      e1.log = e.log ++ List.replicate (n + 1) e.poll ∧ e1._errnum = EEPROM_NoError ∧
      e1._i2c = (List.replicate (n + 1) e.poll).foldl (busAfter bus) e._i2c) ∧
    (∀ fuel, fuel ≤ n → ready bus fuel e = none) ∧
    (∀ (fuel : Nat) (e2 : EEPROM β), e2._errnum ≠ EEPROM_NoError →
      ready bus fuel e2 = some e2) := by
  have herr0 : e._errnum = 0 := herr
  obtain ⟨h1, h2⟩ := readyLoop_polls bus n e hrefuse hack
  refine ⟨hwf.poll_eq, ?_, ?_, ?_⟩
  · intro fuel hf
    refine ⟨advance bus e (List.replicate (n + 1) e.poll), ?_, rfl, herr, rfl⟩
    simp only [ready, herr0, ne_eq, not_true_eq_false, if_false]
    exact h1 fuel hf
  · intro fuel hf
    simp only [ready, herr0, ne_eq, not_true_eq_false, if_false]
    exact h2 fuel hf
  · intro fuel e2 h
    have h0 : e2._errnum ≠ 0 := h
    simp [ready, h0]

theorem ready_polls_until_acknowledged_witness :
    (new 0 5 .T24C04 : EEPROM Nat).poll =
      Txn.write (EEPROM_Address ||| (new 0 5 .T24C04 : EEPROM Nat)._address) [] false ∧
    (∀ fuel, 2 + 1 ≤ fuel → ∃ e1, ready (slowBus 2) fuel (new 0 5 .T24C04) = some e1 ∧
      e1.log = (new 0 5 .T24C04 : EEPROM Nat).log ++
        List.replicate (2 + 1) (new 0 5 .T24C04 : EEPROM Nat).poll ∧
      e1._errnum = EEPROM_NoError ∧
      e1._i2c = (List.replicate (2 + 1) (new 0 5 .T24C04 : EEPROM Nat).poll).foldl
        (busAfter (slowBus 2)) (new 0 5 .T24C04 : EEPROM Nat)._i2c) ∧
    (∀ fuel, fuel ≤ 2 → ready (slowBus 2) fuel (new 0 5 .T24C04) = none) ∧
    (∀ (fuel : Nat) (e2 : EEPROM Nat), e2._errnum ≠ EEPROM_NoError →
      ready (slowBus 2) fuel e2 = some e2) :=
  ready_polls_until_acknowledged (slowBus 2) (new 0 5 .T24C04)
    (new_wellFormed 0 5 .T24C04 (by decide) (by decide)) (by decide) 2
    (by decide) (by decide)

end EEPROM

/-! ## What the operations keep of the driver -/

namespace EEPROM

variable {β : Type}

theorem Kept.refl (e : EEPROM β) : Kept e e :=
  ⟨rfl, rfl, rfl, rfl, rfl, Or.inl rfl⟩

theorem Kept.trans {e e1 e2 : EEPROM β} (h1 : Kept e e1) (h2 : Kept e1 e2) : Kept e e2 := by
  obtain ⟨a1, b1, c1, d1, s1, r1⟩ := h1
  obtain ⟨a2, b2, c2, d2, s2, r2⟩ := h2
  refine ⟨a2.trans a1, b2.trans b1, c2.trans c1, d2.trans d1, s2.trans s1, ?_⟩
  rcases r2 with r2 | r2 | r2 | r2
  · rw [r2]; exact r1
  · exact Or.inr (Or.inl r2)
  · exact Or.inr (Or.inr (Or.inl r2))
  · exact Or.inr (Or.inr (Or.inr r2))

theorem Kept.of_advance (bus : I2C β) (e : EEPROM β) (xs : List Txn) : Kept e (advance bus e xs) :=
  ⟨rfl, rfl, rfl, rfl, rfl, Or.inl rfl⟩

theorem Kept.outOfRange (e : EEPROM β) : Kept e { e with _errnum := EEPROM_OutOfRange } :=
  ⟨rfl, rfl, rfl, rfl, rfl, Or.inr (Or.inr (Or.inl rfl))⟩

theorem Kept.malloc (e : EEPROM β) : Kept e { e with _errnum := EEPROM_MallocError } :=
  ⟨rfl, rfl, rfl, rfl, rfl, Or.inr (Or.inr (Or.inr rfl))⟩

theorem Kept.i2c (e : EEPROM β) : Kept e { e with _errnum := EEPROM_I2cError } :=
  ⟨rfl, rfl, rfl, rfl, rfl, Or.inr (Or.inl rfl)⟩

theorem readyLoop_kept (bus : I2C β) (fuel : Nat) (e e1 : EEPROM β)
    (h : readyLoop bus fuel e = some e1) : Kept e e1 := by
  obtain ⟨polls, hp, -⟩ := readyLoop_advance bus fuel e e1 h
  rw [hp]
  exact Kept.of_advance bus e polls

theorem ready_kept (bus : I2C β) (fuel : Nat) (e e1 : EEPROM β)
    (h : ready bus fuel e = some e1) : Kept e e1 := by
  unfold ready at h
  split_ifs at h
  · cases h; exact Kept.refl e
  · exact readyLoop_kept bus fuel e e1 h

theorem run_kept (bus : I2C β) (fuel : Nat) (xs : List Txn) : ∀ (e e1 : EEPROM β) (flag : Bool),
    run bus fuel xs e = some (e1, flag) → Kept e e1 := by
  induction xs with
  | nil =>
    intro e e1 flag h
    simp only [run, Option.some.injEq, Prod.mk.injEq] at h
    rw [← h.1]
    exact Kept.refl e
  | cons x xs ih =>
    intro e e1 flag h
    cases x with
    | read a n => exact ih e e1 flag (by simpa [run] using h)
    | write addr cmd r =>
      simp only [run] at h
      split_ifs at h with h1 h2
      · cases hl : readyLoop bus fuel e with
        | none => rw [hl] at h; simp at h
        | some e2 =>
          rw [hl] at h
          exact (readyLoop_kept bus fuel e e2 hl).trans (ih e2 e1 flag h)
      · simp only [Option.some.injEq, Prod.mk.injEq] at h
        rw [← h.1, i2c_write_fst]
        exact (Kept.of_advance bus e _).trans (Kept.i2c _)
      · rw [i2c_write_fst] at h
        exact (Kept.of_advance bus e _).trans (ih _ e1 flag h)

theorem write_array_kept (bus : I2C β) (fuel : Nat) (e : EEPROM β) (address : Nat)
    (data : Nat → Nat) (length : Nat) (e1 : EEPROM β)
    (h : write_array bus fuel e address data length = some e1) : Kept e e1 := by
  by_cases he : e._errnum = 0
  · by_cases h1 : e.checkAddress address = true
    · by_cases h2 : e.checkAddress (sub32 (u32 (address + length)) 1) = true
      · rw [write_array_eq_run bus fuel e he address data length h1 h2] at h
        cases hr : run bus fuel (plan e address data length) e with
        | none => rw [hr] at h; simp at h
        | some r =>
          rw [hr] at h
          simp only [Option.map_some', Option.some.injEq] at h
          subst h
          exact run_kept bus fuel _ e r.1 r.2 hr
      · simp only [write_array, he, ne_eq, not_true_eq_false, if_false, h1, h2,
          Bool.not_true, Bool.false_eq_true, Bool.not_false, if_true, Option.some.injEq] at h
        rw [← h]
        exact Kept.outOfRange e
    · simp only [write_array, he, ne_eq, not_true_eq_false, if_false, h1, Bool.not_false,
        if_true, Option.some.injEq] at h
      rw [← h]
      exact Kept.outOfRange e
  · rw [write_array_of_error bus fuel e address data length he] at h
    cases h
    exact Kept.refl e

theorem write_int8_kept (bus : I2C β) (fuel : Nat) (e : EEPROM β) (address data : Nat)
    (e1 : EEPROM β) (h : write_int8 bus fuel e address data = some e1) : Kept e e1 := by
  by_cases he : e._errnum = 0
  · by_cases h1 : e.checkAddress address = true
    · simp only [write_int8, he, ne_eq, not_true_eq_false, if_false, h1, Bool.not_true,
        Bool.false_eq_true] at h
      rw [send_run_xfer bus fuel e he] at h
      cases hr : run bus fuel (e.xfer (e.pageOf address) address [u8 data]) e with
      | none => rw [hr] at h; simp at h
      | some r =>
        rw [hr] at h
        simp only [Option.some.injEq] at h
        subst h
        exact run_kept bus fuel _ e r.1 r.2 hr
    · simp only [write_int8, he, ne_eq, not_true_eq_false, if_false, h1, Bool.not_false,
        if_true, Option.some.injEq] at h
      rw [← h]
      exact Kept.outOfRange e
  · simp only [write_int8, he, ne_eq, not_false_eq_true, if_true, Option.some.injEq] at h
    rw [← h]
    exact Kept.refl e

theorem read_array_kept (bus : I2C β) (e : EEPROM β) (address : Nat) (data : List Nat)
    (size : Nat) : Kept e (read_array bus e address data size).1 := by
  unfold read_array
  dsimp only
  split_ifs
  · exact Kept.refl e
  · exact Kept.outOfRange e
  · exact Kept.outOfRange e
  · exact ⟨rfl, rfl, rfl, rfl, rfl, Or.inr (Or.inl rfl)⟩
  · exact ⟨rfl, rfl, rfl, rfl, rfl, Or.inr (Or.inl rfl)⟩
  · exact ⟨rfl, rfl, rfl, rfl, rfl, Or.inl rfl⟩

theorem read_int8_kept (bus : I2C β) (e : EEPROM β) (address : Nat) (data : List Nat) :
    Kept e (read_int8 bus e address data).1 := by
  unfold read_int8
  dsimp only
  split_ifs
  · exact Kept.refl e
  · exact Kept.outOfRange e
  · exact ⟨rfl, rfl, rfl, rfl, rfl, Or.inr (Or.inl rfl)⟩
  · exact ⟨rfl, rfl, rfl, rfl, rfl, Or.inr (Or.inl rfl)⟩
  · exact ⟨rfl, rfl, rfl, rfl, rfl, Or.inl rfl⟩

theorem read_current_kept (bus : I2C β) (e : EEPROM β) (data : List Nat) :
    Kept e (read_current bus e data).1 := by
  unfold read_current
  split_ifs
  · exact Kept.refl e
  · exact ⟨rfl, rfl, rfl, rfl, rfl, Or.inr (Or.inl rfl)⟩
  · exact ⟨rfl, rfl, rfl, rfl, rfl, Or.inl rfl⟩

theorem write_int16_kept (bus : I2C β) (fuel : Nat) (e : EEPROM β) (address data : Nat)
    (e1 : EEPROM β) (h : write_int16 bus fuel e address data = some e1) : Kept e e1 := by
  unfold write_int16 at h
  split_ifs at h
  · cases h; exact Kept.refl e
  · cases h; exact Kept.outOfRange e
  · exact write_array_kept bus fuel e _ _ _ e1 h

theorem write_int32_kept (bus : I2C β) (fuel : Nat) (e : EEPROM β) (address data : Nat)
    (e1 : EEPROM β) (h : write_int32 bus fuel e address data = some e1) : Kept e e1 := by
  unfold write_int32 at h
  split_ifs at h
  · cases h; exact Kept.refl e
  · cases h; exact Kept.outOfRange e
  · exact write_array_kept bus fuel e _ _ _ e1 h

theorem write_float_kept (bus : I2C β) (fuel : Nat) (e : EEPROM β) (address data : Nat)
    (e1 : EEPROM β) (h : write_float bus fuel e address data = some e1) : Kept e e1 := by
  unfold write_float at h
  split_ifs at h
  · cases h; exact Kept.refl e
  · cases h; exact Kept.outOfRange e
  · exact write_array_kept bus fuel e _ _ _ e1 h

theorem write_void_kept (bus : I2C β) (fuel : Nat) (alloc : Bool) (e : EEPROM β)
    (address : Nat) (data : Nat → Nat) (size : Nat) (e1 : EEPROM β)
    (h : write_void bus fuel alloc e address data size = some e1) : Kept e e1 := by
  unfold write_void at h
  split_ifs at h
  · cases h; exact Kept.refl e
  · cases h; exact Kept.outOfRange e
  · cases h; exact Kept.malloc e
  · exact write_array_kept bus fuel e _ _ _ e1 h

theorem read_int16_kept (bus : I2C β) (e : EEPROM β) (address data : Nat) (cmd : List Nat) :
    Kept e (read_int16 bus e address data cmd).1 := by
  unfold read_int16
  split_ifs
  · exact Kept.refl e
  · exact Kept.outOfRange e
  · exact read_array_kept bus e _ _ _

theorem read_int32_kept (bus : I2C β) (e : EEPROM β) (address data : Nat) (cmd : List Nat) :
    Kept e (read_int32 bus e address data cmd).1 := by
  unfold read_int32
  split_ifs
  · exact Kept.refl e
  · exact Kept.outOfRange e
  · exact read_array_kept bus e _ _ _

theorem read_float_kept (bus : I2C β) (e : EEPROM β) (address data : Nat) (cmd : List Nat) :
    Kept e (read_float bus e address data cmd).1 := by
  unfold read_float
  split_ifs
  · exact Kept.refl e
  · exact Kept.outOfRange e
  · exact read_array_kept bus e _ _ _

theorem read_void_kept (bus : I2C β) (alloc : Bool) (e : EEPROM β) (address : Nat)
    (data cmd : List Nat) (size : Nat) :
    Kept e (read_void bus alloc e address data cmd size).1 := by
  unfold read_void
  split_ifs
  · exact Kept.refl e
  · exact Kept.outOfRange e
  · exact Kept.malloc e
  · exact read_array_kept bus e _ _ _

theorem clearLoop_kept (bus : I2C β) (fuel : Nat) (n : Nat) : ∀ (i : Nat) (e e1 : EEPROM β),
    clearLoop bus fuel n i e = some e1 → Kept e e1 := by
  induction n with
  | zero =>
    intro i e e1 h
    simp only [clearLoop, Option.some.injEq] at h
    rw [← h]
    exact Kept.refl e
  | succ n ih =>
    intro i e e1 h
    simp only [clearLoop] at h
    cases hw : write_int32 bus fuel e (u32 (i * 4)) 0 with
    | none => rw [hw] at h; simp at h
    | some e2 =>
      rw [hw] at h
      exact (write_int32_kept bus fuel e _ _ e2 hw).trans (ih (i + 1) e2 e1 h)

/-- Every public operation keeps the configuration of the driver, and changes the error
slot only by storing `EEPROM_I2cError`, `EEPROM_OutOfRange` or `EEPROM_MallocError`. -/
theorem perform_kept (bus : I2C β) (fuel : Nat) (e e1 : EEPROM β) (op : Op)
    (h : perform bus fuel e op = some e1) : Kept e e1 := by
  cases op with
  | write_int8 address data => exact write_int8_kept bus fuel e address data e1 h
  | write_array address data length => exact write_array_kept bus fuel e address data length e1 h
  | write_int16 address data => exact write_int16_kept bus fuel e address data e1 h
  | write_int32 address data => exact write_int32_kept bus fuel e address data e1 h
  | write_float address data => exact write_float_kept bus fuel e address data e1 h
  | write_void alloc address data size =>
    exact write_void_kept bus fuel alloc e address data size e1 h
  | read_int8 address data =>
    simp only [perform, Option.some.injEq] at h
    rw [← h]; exact read_int8_kept bus e address data
  | read_array address data size =>
    simp only [perform, Option.some.injEq] at h
    rw [← h]; exact read_array_kept bus e address data size
  | read_current data =>
    simp only [perform, Option.some.injEq] at h
    rw [← h]; exact read_current_kept bus e data
  | read_int16 address data cmd =>
    simp only [perform, Option.some.injEq] at h
    rw [← h]; exact read_int16_kept bus e address data cmd
  | read_int32 address data cmd =>
    simp only [perform, Option.some.injEq] at h
    rw [← h]; exact read_int32_kept bus e address data cmd
  | read_float address data cmd =>
    simp only [perform, Option.some.injEq] at h
    rw [← h]; exact read_float_kept bus e address data cmd
  | read_void alloc address data cmd size =>
    simp only [perform, Option.some.injEq] at h
    rw [← h]; exact read_void_kept bus alloc e address data cmd size
  | clear => exact clearLoop_kept bus fuel _ 0 e e1 h
  | ready => exact ready_kept bus fuel e e1 h

theorem performAll_kept (bus : I2C β) (fuel : Nat) (ops : List Op) : ∀ (e e1 : EEPROM β),
    performAll bus fuel ops e = some e1 → Kept e e1 := by
  induction ops with
  | nil =>
    intro e e1 h
    simp only [performAll, Option.some.injEq] at h
    rw [← h]; exact Kept.refl e
  | cons op ops ih =>
    intro e e1 h
    simp only [performAll] at h
    cases hp : perform bus fuel e op with
    | none => rw [hp] at h; simp at h
    | some e2 =>
      rw [hp] at h
      exact (perform_kept bus fuel e e2 op hp).trans (ih e2 e1 h)

theorem new_errnum (b : β) (cs : Nat) (t : TypeEeprom) :
    (new b cs t)._errnum = EEPROM_NoError ∨ (new b cs t)._errnum = EEPROM_BadAddress := by
  cases t <;> simp only [new] <;> first | (split_ifs <;> simp) | simp

/-- C24: the driver `e1` reached from construction (any bus state, chip-select value and
chip type) by any sequence of public operations that have returned holds in its error
slot `EEPROM_NoError` (0), `EEPROM_BadAddress` (1, bad chip select), `EEPROM_I2cError` (2),
`EEPROM_OutOfRange` (4) or `EEPROM_MallocError` (5); it never holds `EEPROM_ParamError`
(3); it holds `EEPROM_BadAddress` only when the constructor has set it; the code is below
`EEPROM_MaxError`, so `getErrorMessage` finds its entry in the table. No single operation,
from any driver state, stores another code than `EEPROM_I2cError`, `EEPROM_OutOfRange` or
`EEPROM_MallocError`. -/
theorem error_slot_codes (bus : I2C β) (fuel : Nat) (b : β) (cs : Nat) (t : TypeEeprom)
    (ops : List Op) (e1 : EEPROM β) (h : performAll bus fuel ops (new b cs t) = some e1) :
    (e1._errnum = EEPROM_NoError ∨ e1._errnum = EEPROM_BadAddress ∨
      e1._errnum = EEPROM_I2cError ∨ e1._errnum = EEPROM_OutOfRange ∨
      e1._errnum = EEPROM_MallocError) ∧
    e1._errnum ≠ EEPROM_ParamError ∧
    (e1._errnum = EEPROM_BadAddress → (new b cs t)._errnum = EEPROM_BadAddress) ∧
    e1._errnum < EEPROM_MaxError ∧
    e1.getErrorMessage = some (_ErrorMessageEEPROM.getD e1._errnum "") ∧
    (∀ (e2 e3 : EEPROM β) (op : Op), perform bus fuel e2 op = some e3 →
      e3._errnum = e2._errnum ∨ e3._errnum = EEPROM_I2cError ∨
      e3._errnum = EEPROM_OutOfRange ∨ e3._errnum = EEPROM_MallocError) := by
  have hk := (performAll_kept bus fuel ops _ e1 h).2.2.2.2.2
  have hn := new_errnum b cs t
  have hcodes : e1._errnum = EEPROM_NoError ∨ e1._errnum = EEPROM_BadAddress ∨
      e1._errnum = EEPROM_I2cError ∨ e1._errnum = EEPROM_OutOfRange ∨
      e1._errnum = EEPROM_MallocError := by
    rcases hk with hk | hk | hk | hk
    · rw [hk]
      rcases hn with hn | hn
      · exact Or.inl hn
      · exact Or.inr (Or.inl hn)
    · exact Or.inr (Or.inr (Or.inl hk))
    · exact Or.inr (Or.inr (Or.inr (Or.inl hk)))
    · exact Or.inr (Or.inr (Or.inr (Or.inr hk)))
  refine ⟨hcodes, ?_, ?_, ?_, ?_, ?_⟩
  · rcases hcodes with hc | hc | hc | hc | hc <;> rw [hc] <;> decide
  · intro hb
    rcases hk with hk | hk | hk | hk
    · rw [← hk]; exact hb
    · rw [hb] at hk; exact absurd hk (by decide)
    · rw [hb] at hk; exact absurd hk (by decide)
    · rw [hb] at hk; exact absurd hk (by decide)
  · rcases hcodes with hc | hc | hc | hc | hc <;> rw [hc] <;> decide
  · unfold getErrorMessage
    rcases hcodes with hc | hc | hc | hc | hc <;> rw [hc] <;> rfl
  · intro e2 e3 op hp
    exact (perform_kept bus fuel e2 e3 op hp).2.2.2.2.2

theorem error_slot_codes_witness :
    ∃ e1 : EEPROM Unit,
      performAll ackBus 1 [Op.write_int8 300 1, Op.read_current []] (new () 0 .T24C02) =
        some e1 ∧
      e1._errnum = EEPROM_OutOfRange ∧
      ((e1._errnum = EEPROM_NoError ∨ e1._errnum = EEPROM_BadAddress ∨
        e1._errnum = EEPROM_I2cError ∨ e1._errnum = EEPROM_OutOfRange ∨
        e1._errnum = EEPROM_MallocError) ∧
      e1._errnum ≠ EEPROM_ParamError ∧
      (e1._errnum = EEPROM_BadAddress →
        (new () 0 .T24C02 : EEPROM Unit)._errnum = EEPROM_BadAddress) ∧
      e1._errnum < EEPROM_MaxError ∧
      e1.getErrorMessage = some (_ErrorMessageEEPROM.getD e1._errnum "") ∧
      (∀ (e2 e3 : EEPROM Unit) (op : Op), perform ackBus 1 e2 op = some e3 →
        e3._errnum = e2._errnum ∨ e3._errnum = EEPROM_I2cError ∨
        e3._errnum = EEPROM_OutOfRange ∨ e3._errnum = EEPROM_MallocError)) :=
  ⟨{ (new () 0 .T24C02 : EEPROM Unit) with _errnum := EEPROM_OutOfRange }, rfl, rfl,
    error_slot_codes ackBus 1 () 0 .T24C02 [Op.write_int8 300 1, Op.read_current []]
      { (new () 0 .T24C02 : EEPROM Unit) with _errnum := EEPROM_OutOfRange } rfl⟩

end EEPROM

/-! ## The size of the chip -/

namespace EEPROM

variable {β : Type}

theorem checkAddress_iff_of_size (e : EEPROM β)
    (hs : e._size = if e._type = .T24C1025 then TypeEeprom.T24C1024.val else e._type.val)
    (a : Nat) : e.checkAddress a = true ↔ a < e.getSize := by
  rw [checkAddress_eq, getSize, hs]
  simp [TypeEeprom.val]

/-- C25: `getSize()` returns the capacity of the chip in bytes as the constructor has
stored it: 128, 256, 512, 1024, 2048, 4096, 8192, 16384, 32768, 65536 and 131072 for
24C01 ... 24C1024, and for the 24C1025 the value of the 24C1024, 131072 and not 131073;
the operations do not change it; and for every chip type, at construction and after any
sequence of operations, `checkAddress(a)` holds exactly when `a < getSize()`. -/
theorem getSize_is_capacity (b : β) (cs : Nat) (t : TypeEeprom) :
    (new b cs t).getSize =
      (match t with
        | .T24C01 => 128 | .T24C02 => 256 | .T24C04 => 512 | .T24C08 => 1024
        | .T24C16 => 2048 | .T24C32 => 4096 | .T24C64 => 8192 | .T24C128 => 16384
        | .T24C256 => 32768 | .T24C512 => 65536 | .T24C1024 => 131072
        | .T24C1025 => 131072) ∧
    (new b cs .T24C1025).getSize = (new b cs .T24C1024).getSize ∧
    (new b cs .T24C1025).getSize ≠ 131073 ∧
    (∀ a : Nat, (new b cs t).checkAddress a = true ↔ a < (new b cs t).getSize) ∧
    (∀ (bus : I2C β) (fuel : Nat) (ops : List Op) (e1 : EEPROM β),
      performAll bus fuel ops (new b cs t) = some e1 →
      e1.getSize = (new b cs t).getSize ∧
      ∀ a : Nat, e1.checkAddress a = true ↔ a < e1.getSize) := by
  refine ⟨by cases t <;> rfl, rfl, by simp [getSize, new_size], ?_, ?_⟩
  · intro a
    exact checkAddress_iff_of_size _ rfl a
  · intro bus fuel ops e1 h
    obtain ⟨-, ht, -, -, hs, -⟩ := performAll_kept bus fuel ops _ e1 h
    refine ⟨hs, ?_⟩
    intro a
    apply checkAddress_iff_of_size
    rw [hs, ht]
    rfl

end EEPROM

/-! ## The staging array of the byte-run write -/

namespace EEPROM

variable {β : Type}

/-- C26, failing input: on a 24C512 (pages of 128 bytes, two word-address bytes) the
in-range byte-run write of one page, address 0 and length 128, assembles in `cmd` the two
word-address bytes and the 128 data bytes: the loop `cmd[j + 2] = data[j]` runs up to
`j = 127` and stores `data[127]` at index 129, and the bus write hands over
`_page_write + 2 = 130` bytes, one more than the 129 bytes of `cmd`. The same holds for
the 24C1024 and the 24C1025, the other chips with pages of 128 bytes. -/
theorem write_array_24C512_page_overruns_cmd (t : TypeEeprom)
    (ht : t = .T24C512 ∨ t = .T24C1024 ∨ t = .T24C1025) (data : Nat → Nat) :
    (new () 0 t : EEPROM Unit).checkAddress 0 = true ∧
    (new () 0 t : EEPROM Unit).checkAddress (0 + 128 - 1) = true ∧
    (new () 0 t : EEPROM Unit)._page_write = 128 ∧
    (new () 0 t : EEPROM Unit).addrBytes = 2 ∧
    write_array ackBus 1 (new () 0 t) 0 data 128 =
      some (advance ackBus (new () 0 t)
        [Txn.write 160 (0 :: 0 :: fill data 0 128) false, Txn.write 160 [] false]) ∧
    (Txn.write 160 (0 :: 0 :: fill data 0 128) false).length = 130 ∧
    (0 :: 0 :: fill data 0 128).get? 129 = some (u8 (data 127)) ∧
    cmdSize = 129 := by
  have hack : AlwaysAck ackBus := fun _ _ _ _ => rfl
  have h1 : (new () 0 t : EEPROM Unit).checkAddress 0 = true := by
    rcases ht with rfl | rfl | rfl <;> simp [checkAddress_eq, new_type, TypeEeprom.val]
  have h2 : (new () 0 t : EEPROM Unit).checkAddress (sub32 (u32 (0 + 128)) 1) = true := by
    have : sub32 (u32 (0 + 128)) 1 = 127 := by decide
    rw [this]
    rcases ht with rfl | rfl | rfl <;> simp [checkAddress_eq, new_type, TypeEeprom.val]
  have h3 : (new () 0 t : EEPROM Unit).checkAddress (0 + 128 - 1) = true := by
    rcases ht with rfl | rfl | rfl <;> simp [checkAddress_eq, new_type, TypeEeprom.val]
  have hpw : (new () 0 t : EEPROM Unit)._page_write = 128 := by
    rcases ht with rfl | rfl | rfl <;> rfl
  have hf : (new () 0 t : EEPROM Unit).folded = false := by
    rcases ht with rfl | rfl | rfl <;> rfl
  have hdev : (new () 0 t : EEPROM Unit).devAddr 0 = 160 := by
    rcases ht with rfl | rfl | rfl <;> rfl
  have hpoll : (new () 0 t : EEPROM Unit).poll = Txn.write 160 [] false := by
    rcases ht with rfl | rfl | rfl <;> rfl
  have hplan : plan (new () 0 t : EEPROM Unit) 0 data 128 =
      [Txn.write 160 (0 :: 0 :: fill data 0 128) false, Txn.write 160 [] false] := by
    have hb : u8 (128 / 128) = 1 := by decide
    have hr : u8 (sub32 128 (1 * 128)) = 0 := by decide
    simp only [plan, hpw, hb, hr, blocsPlan, blocPlan_wide _ hf, remainPlan_wide _ hf, if_true,
      List.append_nil, xfer, pageOf, hf, hdev, hpoll, wordAddr, Nat.zero_mul, Bool.false_eq_true,
      if_false, List.cons_append, List.nil_append]
    rfl
  refine ⟨h1, h3, hpw, by simp [addrBytes, hf], ?_, by simp [Txn.length], ?_, rfl⟩
  · rw [write_array_eq_plan ackBus hack 0 _ (by rcases ht with rfl | rfl | rfl <;> rfl) 0 data 128
      h1 h2, hplan]
  · simp [fill, List.get?_eq_getElem?, List.getElem?_cons_succ]

theorem write_array_24C512_page_overruns_cmd_witness :
    (new () 0 .T24C512 : EEPROM Unit).checkAddress 0 = true ∧
    (new () 0 .T24C512 : EEPROM Unit).checkAddress (0 + 128 - 1) = true ∧
    (new () 0 .T24C512 : EEPROM Unit)._page_write = 128 ∧
    (new () 0 .T24C512 : EEPROM Unit).addrBytes = 2 ∧
    write_array ackBus 1 (new () 0 .T24C512) 0 (fun k => k) 128 =
      some (advance ackBus (new () 0 .T24C512)
        [Txn.write 160 (0 :: 0 :: fill (fun k => k) 0 128) false, Txn.write 160 [] false]) ∧
    (Txn.write 160 (0 :: 0 :: fill (fun k => k) 0 128) false).length = 130 ∧
    (0 :: 0 :: fill (fun k => k) 0 128).get? 129 = some (u8 ((fun k => k) 127)) ∧
    cmdSize = 129 :=
  write_array_24C512_page_overruns_cmd .T24C512 (Or.inl rfl) (fun k => k)

end EEPROM

/-! ## The byte-run write of length zero -/

namespace EEPROM

variable {β : Type}

/-- C27, failing input: for every chip type, the byte-run write of length 0 at the valid
address 0 on an error-free driver computes the last address `address + length - 1` in
`uint32_t` as `0xFFFFFFFF`, which fails the check: the write issues no bus call, but it
sets the error state to `EEPROM_OutOfRange`. At every other valid address the write of
length 0 issues no bus call and leaves the driver as it is. -/
theorem write_array_empty_at_zero_out_of_range (bus : I2C β) (fuel : Nat) (b : β)
    (t : TypeEeprom) (data : Nat → Nat) :
    (new b 0 t)._errnum = EEPROM_NoError ∧
    (new b 0 t).checkAddress 0 = true ∧
    sub32 (u32 (0 + 0)) 1 = 0xFFFFFFFF ∧
    write_array bus fuel (new b 0 t) 0 data 0 =
      some { new b 0 t with _errnum := EEPROM_OutOfRange } ∧
    (∀ (e : EEPROM β) (address : Nat), e.WellFormed → e._errnum = EEPROM_NoError →
      e.checkAddress address = true → 1 ≤ address →
      write_array bus fuel e address data 0 = some e) := by
  have herr : (new b 0 t)._errnum = 0 := by cases t <;> rfl
  have h1 : (new b 0 t).checkAddress 0 = true := by
    cases t <;> simp [checkAddress_eq, new_type, TypeEeprom.val]
  have hs : sub32 (u32 (0 + 0)) 1 = 0xFFFFFFFF := by decide
  have h2 : (new b 0 t).checkAddress (sub32 (u32 (0 + 0)) 1) = false := by
    rw [hs]
    cases t <;> simp [checkAddress_eq, new_type, TypeEeprom.val]
  refine ⟨herr, h1, hs, ?_, ?_⟩
  · simp [write_array, herr, h1, h2]
  · intro e address hwf he ha hpos
    have he0 : e._errnum = 0 := he
    have hlt := (hwf.checkAddress_iff address).mp ha
    have hsz := hwf.config.2.2.1
    have h3 : e.checkAddress (sub32 (u32 (address + 0)) 1) = true := by
      rw [hwf.checkAddress_iff]
      unfold sub32 u32
      omega
    have hb : u8 (0 / e._page_write) = 0 := by simp [u8]
    have hr : u8 (sub32 0 (0 * e._page_write)) = 0 := by simp [u8, sub32]
    simp only [write_array, he0, ha, h3, hb, hr, writeBlocs, writeRemain, ne_eq,
      not_true_eq_false, if_false, Bool.not_true, Bool.false_eq_true]

end EEPROM

/-! ## Page-aligned runs, data write by data write -/

namespace EEPROM

variable {β : Type}

/-- C28: on a bus that acknowledges every call, a byte-run write on an error-free driver of
any chip type, whose range `[address, address + length)` lies in the chip and whose start
address is a multiple of the page size `_page_write`, returns, and every bus write it
issues carries no data or starts, as the chip decodes it, at a multiple of the page size,
carries at most `_page_write` data bytes, and so stays inside one page. This holds for
every length, so for the lengths below `256 * _page_write` too. -/
theorem write_array_aligned_page_writes (bus : I2C β) (hack : AlwaysAck bus) (fuel : Nat)
    (e : EEPROM β) (hwf : e.WellFormed) (herr : e._errnum = EEPROM_NoError)
    (address : Nat) (data : Nat → Nat) (length : Nat)
    (ha : e.checkAddress address = true) (hle : address + length ≤ e.getSize)
    (hal : address % e._page_write = 0) :
    ∃ e1 txns, write_array bus (fuel + 1) e address data length = some e1 ∧
      e1.log = e.log ++ txns ∧
      ∀ x ∈ txns, ((e.payload x).length = 0 ∨ e.target x % e._page_write = 0) ∧
        (e.payload x).length ≤ e._page_write ∧
        (1 ≤ (e.payload x).length →
          e.target x / e._page_write =
            (e.target x + (e.payload x).length - 1) / e._page_write) := by
  have key : ∀ x ∈ plan e address data length,
      ((e.payload x).length = 0 ∨ e.target x % e._page_write = 0) ∧
        (e.payload x).length ≤ e._page_write ∧
        (1 ≤ (e.payload x).length →
          e.target x / e._page_write =
            (e.target x + (e.payload x).length - 1) / e._page_write) := by
    intro x hx
    have hpa := hwf.plan_aligned data address length hal hle x hx
    have hin := hwf.inOnePage_of_pageAligned x hpa
    simp only [pageAligned, decide_eq_true_eq] at hpa
    simp only [inOnePage, decide_eq_true_eq] at hin
    refine ⟨?_, ?_, hin⟩
    · rcases hpa with h0 | ⟨h1, -⟩
      · exact Or.inl h0
      · exact Or.inr h1
    · rcases hpa with h0 | ⟨-, h2⟩
      · omega
      · exact h2
  rcases hwf.write_array_in_range bus hack fuel herr address data length ha hle with hw | ⟨_, hw⟩
  · exact ⟨_, plan e address data length, hw, rfl, key⟩
  · exact ⟨_, [], hw, by simp, by simp⟩

theorem write_array_aligned_page_writes_witness :
    ∃ e1 txns, write_array ackBus (0 + 1) (new () 0 .T24C08) 496 (fun k => k) 40 = some e1 ∧
      e1.log = (new () 0 .T24C08 : EEPROM Unit).log ++ txns ∧
      ∀ x ∈ txns, (((new () 0 .T24C08 : EEPROM Unit).payload x).length = 0 ∨
          (new () 0 .T24C08 : EEPROM Unit).target x %
            (new () 0 .T24C08 : EEPROM Unit)._page_write = 0) ∧
        ((new () 0 .T24C08 : EEPROM Unit).payload x).length ≤
          (new () 0 .T24C08 : EEPROM Unit)._page_write ∧
        (1 ≤ ((new () 0 .T24C08 : EEPROM Unit).payload x).length →
          (new () 0 .T24C08 : EEPROM Unit).target x /
              (new () 0 .T24C08 : EEPROM Unit)._page_write =
            ((new () 0 .T24C08 : EEPROM Unit).target x +
              ((new () 0 .T24C08 : EEPROM Unit).payload x).length - 1) /
              (new () 0 .T24C08 : EEPROM Unit)._page_write) :=
  write_array_aligned_page_writes ackBus (fun _ _ _ _ => rfl) 0 (new () 0 .T24C08)
    (new_wellFormed () 0 .T24C08 (by decide) (by decide)) (by decide) 496 (fun k => k) 40
    (by decide) (by decide) (by decide)

end EEPROM

/-! ## The device byte of the chips with one word-address byte -/

namespace EEPROM

variable {β : Type}

/-- The chip-select bits kept by the constructor, the block bits and the base address
share no bit of the device byte. -/
theorem WellFormed.select_block_disjoint {e : EEPROM β} (h : e.WellFormed)
    (hf : e.folded = true) (page : Nat) (hp : page < e._page_number) :
    e._address &&& (page <<< 1) = 0 ∧ EEPROM_Address &&& e._address = 0 ∧
    EEPROM_Address &&& (page <<< 1) = 0 ∧
    e.devAddr page = EEPROM_Address + e._address + (page <<< 1) := by
  obtain ⟨cs, hcs, herr, ha, hpw, hpn, hsz⟩ := h
  unfold devAddr
  rw [ha]
  rw [hpn] at hp
  simp only [folded] at hf
  generalize e._type = t at *
  cases t <;>
    simp only [new, TypeEeprom.val, EEPROM_NoError, EEPROM_BadAddress, reduceCtorEq, if_false,
      if_true] at herr hf hp ⊢
  all_goals first
    | exact absurd hf (by decide)
    | (have hc : cs ≤ 7 := by split_ifs at herr <;> omega
       interval_cases cs <;> interval_cases page <;> decide)
    | (interval_cases page <;> decide)

/-- C29: on a driver of a chip with one word-address byte (`_type < T24C32`, below 4096
bytes) in the configuration of an error-free construction, for every valid address the
chip-select bits `_address`, the block bits `page << 1` and the base address
`EEPROM_Address` share no bit of the device byte, which is their sum; and the translation
of a valid address into the device byte and the word-address byte is injective: two valid
addresses with the same device byte and the same word address are equal. -/
theorem folded_translation_injective (e : EEPROM β) (hwf : e.WellFormed)
    (hf : e.folded = true) :
    (∀ a : Nat, e.checkAddress a = true →
      e._address &&& (e.pageOf a <<< 1) = 0 ∧ EEPROM_Address &&& e._address = 0 ∧
      EEPROM_Address &&& (e.pageOf a <<< 1) = 0 ∧
      e.devAddr (e.pageOf a) = EEPROM_Address + e._address + (e.pageOf a <<< 1)) ∧
    (∀ a1 a2 : Nat, e.checkAddress a1 = true → e.checkAddress a2 = true →
      e.devAddr (e.pageOf a1) = e.devAddr (e.pageOf a2) →
      e.wordAddr (e.pageOf a1) a1 = e.wordAddr (e.pageOf a2) a2 → a1 = a2) := by
  constructor
  · intro a ha
    have hlt := (hwf.checkAddress_iff a).mp ha
    obtain ⟨hp, hpn, -⟩ := hwf.pageOf_lt hf a hlt
    rw [hp]
    exact hwf.select_block_disjoint hf _ hpn
  · intro a1 a2 h1 h2 hd hw
    have hlt1 := (hwf.checkAddress_iff a1).mp h1
    have hlt2 := (hwf.checkAddress_iff a2).mp h2
    obtain ⟨hp1, hpn1, -⟩ := hwf.pageOf_lt hf a1 hlt1
    obtain ⟨hp2, hpn2, -⟩ := hwf.pageOf_lt hf a2 hlt2
    obtain ⟨-, -, hw1⟩ := hwf.devAddr_folded hf a1 hlt1
    obtain ⟨-, -, hw2⟩ := hwf.devAddr_folded hf a2 hlt2
    have hb1 := hwf.block_bits hf _ hpn1
    have hb2 := hwf.block_bits hf _ hpn2
    rw [hp1, hp2] at hd
    rw [hd, hb2] at hb1
    rw [hw1, hw2] at hw
    simp only [List.cons.injEq, and_true] at hw
    omega

theorem folded_translation_injective_witness :
    (∀ a : Nat, (new () 5 .T24C04 : EEPROM Unit).checkAddress a = true →
      (new () 5 .T24C04 : EEPROM Unit)._address &&&
        ((new () 5 .T24C04 : EEPROM Unit).pageOf a <<< 1) = 0 ∧
      EEPROM_Address &&& (new () 5 .T24C04 : EEPROM Unit)._address = 0 ∧
      EEPROM_Address &&& ((new () 5 .T24C04 : EEPROM Unit).pageOf a <<< 1) = 0 ∧
      (new () 5 .T24C04 : EEPROM Unit).devAddr ((new () 5 .T24C04 : EEPROM Unit).pageOf a) =
        EEPROM_Address + (new () 5 .T24C04 : EEPROM Unit)._address +
          ((new () 5 .T24C04 : EEPROM Unit).pageOf a <<< 1)) ∧
    (∀ a1 a2 : Nat, (new () 5 .T24C04 : EEPROM Unit).checkAddress a1 = true →
      (new () 5 .T24C04 : EEPROM Unit).checkAddress a2 = true →
      (new () 5 .T24C04 : EEPROM Unit).devAddr ((new () 5 .T24C04 : EEPROM Unit).pageOf a1) =
        (new () 5 .T24C04 : EEPROM Unit).devAddr ((new () 5 .T24C04 : EEPROM Unit).pageOf a2) →
      (new () 5 .T24C04 : EEPROM Unit).wordAddr ((new () 5 .T24C04 : EEPROM Unit).pageOf a1) a1 =
        (new () 5 .T24C04 : EEPROM Unit).wordAddr ((new () 5 .T24C04 : EEPROM Unit).pageOf a2) a2 →
      a1 = a2) :=
  folded_translation_injective (new () 5 .T24C04)
    (new_wellFormed () 5 .T24C04 (by decide) (by decide)) (by decide)

end EEPROM

/-! ## The length of the data writes on any bus -/

namespace EEPROM

variable {β : Type}

theorem payload_xfer_le (e : EEPROM β) (page a : Nat) (bytes : List Nat) (n : Nat)
    (hb : bytes.length ≤ n) : ∀ x ∈ e.xfer page a bytes, (e.payload x).length ≤ n := by
  intro x hx
  simp only [xfer, List.mem_cons, List.mem_singleton, List.not_mem_nil, or_false] at hx
  rcases hx with rfl | rfl
  · rw [payload_write]; exact hb
  · simp

/-- When `n` bytes from `address` on do not pass the test of the fit in the 256-byte block,
the number `fpart` of bytes up to the end of the block is at most `n`. -/
theorem WellFormed.fpartOf_le {e : EEPROM β} (h : e.WellFormed) (hf : e.folded = true)
    (a n : Nat) (hn : n ≤ e._page_write)
    (hc : u8 (u32 (a + n) / 256) ≠ e.pageOf a) :
    e.fpartOf a ≤ n ∧ sub8 n (e.fpartOf a) ≤ n := by
  obtain ⟨-, -, h3, -⟩ := h.config.2.2.2.2.2 hf
  have hfp : e.fpartOf a ≤ n := by
    unfold fpartOf pageOf u8 sub32 at *
    rw [if_pos hf] at hc ⊢
    unfold u32 at hc
    omega
  refine ⟨hfp, ?_⟩
  rw [sub8_of_le hfp (by omega)]
  omega

theorem WellFormed.blocPlan_payload_le {e : EEPROM β} (h : e.WellFormed) (data : Nat → Nat)
    (i a : Nat) : ∀ x ∈ (blocPlan e data i a).1, (e.payload x).length ≤ e._page_write := by
  unfold blocPlan
  by_cases hf : e.folded = true
  · rw [if_pos hf]
    by_cases hc : u8 (u32 (a + e._page_write) / 256) = e.pageOf a
    · rw [if_pos hc]
      exact payload_xfer_le e _ _ _ _ (by simp)
    · rw [if_neg hc]
      obtain ⟨h1, h2⟩ := h.fpartOf_le hf a e._page_write (le_refl _) hc
      by_cases hn : e.pageOf a + 1 < e._page_number
      · rw [if_pos hn]
        intro x hx
        rcases List.mem_append.mp hx with hx | hx
        · exact payload_xfer_le e _ _ _ _ (by simpa using h1) x hx
        · exact payload_xfer_le e _ _ _ _ (by simpa using h2) x hx
      · rw [if_neg hn]
        exact payload_xfer_le e _ _ _ _ (by simpa using h1)
  · rw [if_neg hf]
    exact payload_xfer_le e _ _ _ _ (by simp)

theorem WellFormed.blocsPlan_payload_le {e : EEPROM β} (h : e.WellFormed) (data : Nat → Nat)
    (n : Nat) : ∀ (i a : Nat), ∀ x ∈ (blocsPlan e data n i a).1,
      (e.payload x).length ≤ e._page_write := by
  induction n with
  | zero => intro i a x hx; simp [blocsPlan] at hx
  | succ n ih =>
    intro i a x hx
    simp only [blocsPlan] at hx
    rcases List.mem_append.mp hx with hx | hx
    · exact h.blocPlan_payload_le data i a x hx
    · exact ih _ _ x hx

theorem WellFormed.remainPlan_payload_le {e : EEPROM β} (h : e.WellFormed) (data : Nat → Nat)
    (blocs r a : Nat) (hr : r ≤ e._page_write) :
    ∀ x ∈ remainPlan e data blocs r a, (e.payload x).length ≤ e._page_write := by
  unfold remainPlan
  by_cases hr0 : r = 0
  · simp [hr0]
  · rw [if_pos hr0]
    by_cases hf : e.folded = true
    · rw [if_pos hf]
      by_cases hc : u8 (u32 (a + r) / 256) = e.pageOf a
      · rw [if_pos hc]
        exact payload_xfer_le e _ _ _ _ (by simpa using hr)
      · rw [if_neg hc]
        obtain ⟨h1, h2⟩ := h.fpartOf_le hf a r hr hc
        by_cases hn : e.pageOf a + 1 < e._page_number
        · rw [if_pos hn]
          intro x hx
          rcases List.mem_append.mp hx with hx | hx
          · exact payload_xfer_le e _ _ _ _ (by simp; omega) x hx
          · exact payload_xfer_le e _ _ _ _ (by simp; omega) x hx
        · rw [if_neg hn]
          exact payload_xfer_le e _ _ _ _ (by simp; omega)
    · rw [if_neg hf]
      exact payload_xfer_le e _ _ _ _ (by simpa using hr)

/-- No call of a byte-run write carries more than `_page_write` data bytes, whatever the
address and the length. -/
theorem WellFormed.plan_payload_le {e : EEPROM β} (h : e.WellFormed) (data : Nat → Nat)
    (address length : Nat) (hlen : length < 2 ^ 32) :
    ∀ x ∈ plan e address data length, (e.payload x).length ≤ e._page_write := by
  obtain ⟨hpw, -⟩ := h.config
  have hpos : 0 < e._page_write := by omega
  obtain ⟨-, hrem⟩ := h.blocs_remain length hlen
  intro x hx
  unfold plan at hx
  rcases List.mem_append.mp hx with hx | hx
  · exact h.blocsPlan_payload_le data _ _ _ x hx
  · refine h.remainPlan_payload_le data _ _ _ ?_ x hx
    rw [hrem]
    exact (Nat.mod_lt _ hpos).le

/-- The polls of one call of `ready()` that returns. -/
theorem readyLoop_replicate (bus : I2C β) (fuel : Nat) : ∀ (e e1 : EEPROM β),
    readyLoop bus fuel e = some e1 → ∃ k, e1 = advance bus e (List.replicate k e.poll) := by
  induction fuel with
  | zero => intro e e1 h; simp [readyLoop] at h
  | succ n ih =>
    intro e e1 h
    unfold readyLoop at h
    rw [i2c_write_fst] at h
    split_ifs at h with hc
    · obtain ⟨k, hk⟩ := ih _ _ h
      refine ⟨k + 1, ?_⟩
      rw [hk, advance_advance, advance_poll]
      rfl
    · cases h
      exact ⟨1, rfl⟩

/-- The calls that a run adds to the log are calls of its list, or polls. -/
theorem run_log_mem (bus : I2C β) (fuel : Nat) (xs : List Txn) :
    ∀ (e e1 : EEPROM β) (flag : Bool), run bus fuel xs e = some (e1, flag) →
    ∃ txns, e1.log = e.log ++ txns ∧ ∀ y ∈ txns, y ∈ xs ∨ y = e.poll := by
  induction xs with
  | nil =>
    intro e e1 flag h
    simp only [run, Option.some.injEq, Prod.mk.injEq] at h
    exact ⟨[], by rw [← h.1]; simp, by simp⟩
  | cons x xs ih =>
    intro e e1 flag h
    cases x with
    | read a n =>
      obtain ⟨txns, h1, h2⟩ := ih e e1 flag (by simpa [run] using h)
      refine ⟨txns, h1, ?_⟩
      intro y hy
      rcases h2 y hy with h3 | h3
      · exact Or.inl (List.mem_cons_of_mem _ h3)
      · exact Or.inr h3
    | write addr cmd r =>
      simp only [run] at h
      split_ifs at h with h1 h2
      · cases hl : readyLoop bus fuel e with
        | none => rw [hl] at h; simp at h
        | some e2 =>
          rw [hl] at h
          obtain ⟨k, hk⟩ := readyLoop_replicate bus fuel e e2 hl
          obtain ⟨txns, h3, h4⟩ := ih e2 e1 flag h
          refine ⟨List.replicate k e.poll ++ txns, ?_, ?_⟩
          · rw [h3, hk]; simp
          · intro y hy
            rcases List.mem_append.mp hy with hy | hy
            · exact Or.inr (List.eq_of_mem_replicate hy)
            · rcases h4 y hy with h5 | h5
              · exact Or.inl (List.mem_cons_of_mem _ h5)
              · right; rw [h5, hk]; rfl
      · simp only [Option.some.injEq, Prod.mk.injEq] at h
        refine ⟨[Txn.write addr cmd r], ?_, ?_⟩
        · rw [← h.1, i2c_write_fst]; rfl
        · intro y hy
          simp only [List.mem_singleton] at hy
          exact Or.inl (by rw [hy]; exact List.mem_cons_self _ _)
      · rw [i2c_write_fst] at h
        obtain ⟨txns, h3, h4⟩ := ih _ e1 flag h
        refine ⟨Txn.write addr cmd r :: txns, ?_, ?_⟩
        · rw [h3]; simp
        · intro y hy
          simp only [List.mem_cons] at hy
          rcases hy with hy | hy
          · exact Or.inl (by rw [hy]; exact List.mem_cons_self _ _)
          · rcases h4 y hy with h5 | h5
            · exact Or.inl (List.mem_cons_of_mem _ h5)
            · exact Or.inr h5

/-- C30: on an error-free driver of any chip type and on any bus, the bus calls that a
byte-run write has added to the log when it returns carry at most `_page_write` data bytes
each, so the length of each bus write is at most `_page_write` plus the 1 or 2
word-address bytes. This holds for every address and every 32-bit length (a write that
fails the check of its range issues no bus call); on an acknowledging bus the write
returns. -/
theorem write_array_payload_within_page (bus : I2C β) (fuel : Nat) (e : EEPROM β)
    (hwf : e.WellFormed) (herr : e._errnum = EEPROM_NoError) (address : Nat)
    (data : Nat → Nat) (length : Nat) (hlen : length < 2 ^ 32) :
    (∀ e1 : EEPROM β, write_array bus fuel e address data length = some e1 →
      ∃ txns, e1.log = e.log ++ txns ∧
        ∀ x ∈ txns, (e.payload x).length ≤ e._page_write ∧
          x.length ≤ e._page_write + e.addrBytes ∧
          (e.addrBytes = 1 ∨ e.addrBytes = 2)) ∧
    (AlwaysAck bus → ∃ e1, write_array bus (fuel + 1) e address data length = some e1) := by
  have herr0 : e._errnum = 0 := herr
  have hab : e.addrBytes = 1 ∨ e.addrBytes = 2 := by
    unfold addrBytes
    split_ifs
    · exact Or.inl rfl
    · exact Or.inr rfl
  have hnil : ∀ e1 : EEPROM β, e1.log = e.log →
      ∃ txns, e1.log = e.log ++ txns ∧
        ∀ x ∈ txns, (e.payload x).length ≤ e._page_write ∧
          x.length ≤ e._page_write + e.addrBytes ∧
          (e.addrBytes = 1 ∨ e.addrBytes = 2) := by
    intro e1 h
    exact ⟨[], by simp [h], by simp⟩
  have hone : ∀ x : Txn, x ∈ plan e address data length ∨ x = e.poll →
      (e.payload x).length ≤ e._page_write ∧ x.length ≤ e._page_write + e.addrBytes := by
    intro x hx
    have hp : (e.payload x).length ≤ e._page_write := by
      rcases hx with hx | hx
      · exact hwf.plan_payload_le data address length hlen x hx
      · rw [hx]; simp
    have hw : (∃ addr cmd r, x = Txn.write addr cmd r) := by
      rcases hx with hx | hx
      · rcases (plan_paired e address data length).mem x hx with ⟨addr, cmd, r, -, hx2⟩ | hx2
        · exact ⟨addr, cmd, r, hx2⟩
        · exact ⟨_, _, _, hx2⟩
      · exact ⟨_, _, _, hx⟩
    obtain ⟨addr, cmd, r, rfl⟩ := hw
    refine ⟨hp, ?_⟩
    simp only [payload, List.length_drop] at hp
    simp only [Txn.length]
    omega
  refine ⟨?_, fun hack => write_array_returns_ack bus hack fuel e address data length⟩
  intro e1 h
  by_cases h1 : e.checkAddress address = true
  · by_cases h2 : e.checkAddress (sub32 (u32 (address + length)) 1) = true
    · rw [write_array_eq_run bus fuel e herr0 address data length h1 h2] at h
      cases hr : run bus fuel (plan e address data length) e with
      | none => rw [hr] at h; simp at h
      | some r =>
        rw [hr] at h
        simp only [Option.map_some', Option.some.injEq] at h
        subst h
        obtain ⟨txns, hlog, hmem⟩ := run_log_mem bus fuel _ e r.1 r.2 hr
        refine ⟨txns, hlog, ?_⟩
        intro x hx
        obtain ⟨ha, hb⟩ := hone x (hmem x hx)
        exact ⟨ha, hb, hab⟩
    · simp only [write_array, herr0, ne_eq, not_true_eq_false, if_false, h1, h2,
        Bool.not_true, Bool.false_eq_true, Bool.not_false, if_true, Option.some.injEq] at h
      exact hnil e1 (by rw [← h])
  · simp only [write_array, herr0, ne_eq, not_true_eq_false, if_false, h1, Bool.not_false,
      if_true, Option.some.injEq] at h
    exact hnil e1 (by rw [← h])

theorem write_array_payload_within_page_witness :
    (∃ e1, write_array (refuseBus 3) 2 (new 0 0 .T24C04) 250 (fun k => k) 40 = some e1 ∧
      e1._errnum = EEPROM_I2cError ∧ e1.log.length = 5) ∧
    ((∀ e1 : EEPROM Nat,
      write_array (refuseBus 3) 2 (new 0 0 .T24C04) 250 (fun k => k) 40 = some e1 →
      ∃ txns, e1.log = (new 0 0 .T24C04 : EEPROM Nat).log ++ txns ∧
        ∀ x ∈ txns,
          ((new 0 0 .T24C04 : EEPROM Nat).payload x).length ≤
            (new 0 0 .T24C04 : EEPROM Nat)._page_write ∧
          x.length ≤ (new 0 0 .T24C04 : EEPROM Nat)._page_write +
            (new 0 0 .T24C04 : EEPROM Nat).addrBytes ∧
          ((new 0 0 .T24C04 : EEPROM Nat).addrBytes = 1 ∨
            (new 0 0 .T24C04 : EEPROM Nat).addrBytes = 2)) ∧
    (AlwaysAck (refuseBus 3) →
      ∃ e1, write_array (refuseBus 3) (2 + 1) (new 0 0 .T24C04) 250 (fun k => k) 40 =
        some e1)) :=
  ⟨⟨_, rfl, by decide, by decide⟩,
    write_array_payload_within_page (refuseBus 3) 2 (new 0 0 .T24C04)
      (new_wellFormed 0 0 .T24C04 (by decide) (by decide)) (by decide) 250 (fun k => k) 40
      (by decide)⟩

end EEPROM
